import Mathlib

/-!
# FinProject (`simple_vcs`): a verification development of `main.cpp`

A shallow embedding of the version-control core of `src/FinProject/main.cpp`.

Conventions of the embedding.

* A C++ `std::string` and a `vector<uint8_t>` are both a Lean `String` whose characters
  stand for bytes (codes `0 .. 255`); `string txt(bytes.begin(), bytes.end())` and
  `vector<uint8_t> bytes(txt.begin(), txt.end())` are the identity.  The digest function reads
  the byte values `c.toNat % 256`.
* `uint32_t` values are natural numbers reduced modulo `2 ^ 32` after every operation that can
  overflow.
* Loops are folds over the index range the C++ loop runs through, or recursive functions on an
  explicit fuel together with a proof that the fuel is enough.
-/

namespace FinProject

/-! ## SHA-1 (`main.cpp` 25-84) -/

/-- Reduction to a `uint32_t`. -/
def u32 (x : Nat) : Nat := x % 2 ^ 32

/-- Lambda `rol1`: `(x << 1) | (x >> 31)` on `uint32_t`. -/
def rol1 (x : Nat) : Nat := u32 (x <<< 1) ||| (x >>> 31)

/-- Lambda `rol5`: `(x << 5) | (x >> 27)` on `uint32_t`. -/
def rol5 (x : Nat) : Nat := u32 (x <<< 5) ||| (x >>> 27)

/-- Lambda `rol30`: `(x << 30) | (x >> 2)` on `uint32_t`. -/
def rol30 (x : Nat) : Nat := u32 (x <<< 30) ||| (x >>> 2)

/-- Bitwise complement `~b` of a `uint32_t`. -/
def not32 (b : Nat) : Nat := b ^^^ 0xFFFFFFFF

/-- The loop `while ((buf.size() * 8ULL) % 512ULL != 448ULL) buf.push_back(0x00);`
(line 36), run for at most `fuel` iterations. -/
def padZeros : Nat → List Nat → List Nat
  | 0, buf => buf
  | fuel + 1, buf =>
    if (buf.length * 8 % 2 ^ 64) % 512 ≠ 448 then padZeros fuel (buf ++ [0]) else buf

/-- The eight bytes pushed by the loop `for (int i = 7; i >= 0; --i)` (lines 38-40):
`(original_bits >> (i * 8)) & 0xFF` for `i = 7, 6, ..., 0`. -/
def lengthTrailer (original_bits : Nat) : List Nat :=
  [7, 6, 5, 4, 3, 2, 1, 0].map (fun i => (original_bits >>> (i * 8)) &&& 0xFF)

/-- The padded buffer `buf` of `sha1` (lines 32-40). -/
def sha1Pad (data : List Nat) : List Nat :=
  let original_bits := data.length * 8 % 2 ^ 64
  padZeros 64 (data ++ [0x80]) ++ lengthTrailer original_bits

/-- Byte `buf[idx]`. -/
def byteAt (buf : List Nat) (idx : Nat) : Nat := buf.getD idx 0

/-- The first sixteen words of the message schedule (lines 49-55). -/
def loadWords (buf : List Nat) (chunk : Nat) : List Nat :=
  (List.range 16).map (fun i =>
    let idx := chunk + i * 4
    (byteAt buf idx <<< 24) ||| (byteAt buf (idx + 1) <<< 16) |||
      (byteAt buf (idx + 2) <<< 8) ||| byteAt buf (idx + 3))

/-- One step of the schedule extension (lines 56-59): appends `w[i]` for `i = w.length`. -/
def extendStep (w : List Nat) (i : Nat) : List Nat :=
  let x := w.getD (i - 3) 0 ^^^ w.getD (i - 8) 0 ^^^ w.getD (i - 14) 0 ^^^ w.getD (i - 16) 0
  w ++ [rol1 x]

/-- The eighty-word message schedule `w` of one chunk (lines 47-59). -/
def schedule (buf : List Nat) (chunk : Nat) : List Nat :=
  ((List.range 64).map (· + 16)).foldl extendStep (loadWords buf chunk)

/-- The five working variables `a, b, c, d, e`, also used for `h0 .. h4`. -/
structure Sha1State where
  a : Nat
  b : Nat
  c : Nat
  d : Nat
  e : Nat
deriving DecidableEq, Repr

/-- One mixing round (lines 63-76). -/
def round (w : List Nat) (s : Sha1State) (i : Nat) : Sha1State :=
  let fk : Nat × Nat :=
    if i < 20 then ((s.b &&& s.c) ||| (not32 s.b &&& s.d), 0x5A827999)
    else if i < 40 then (s.b ^^^ s.c ^^^ s.d, 0x6ED9EBA1)
    else if i < 60 then ((s.b &&& s.c) ||| (s.b &&& s.d) ||| (s.c &&& s.d), 0x8F1BBCDC)
    else (s.b ^^^ s.c ^^^ s.d, 0xCA62C1D6)
  let temp := u32 (rol5 s.a + fk.1 + s.e + fk.2 + w.getD i 0)
  { a := temp, b := s.a, c := rol30 s.b, d := s.c, e := s.d }

/-- The body of the chunk loop (lines 47-78). -/
def processChunk (buf : List Nat) (h : Sha1State) (chunk : Nat) : Sha1State :=
  let w := schedule buf chunk
  let r := (List.range 80).foldl (round w) h
  { a := u32 (h.a + r.a), b := u32 (h.b + r.b), c := u32 (h.c + r.c),
    d := u32 (h.d + r.d), e := u32 (h.e + r.e) }

/-- One lower-case hexadecimal digit. -/
def hexDigit (n : Nat) : Char :=
  "0123456789abcdef".toList.getD (n % 16) '0'

/-- Format `%08x` of a `uint32_t`. -/
def hex8 (x : Nat) : List Char :=
  [7, 6, 5, 4, 3, 2, 1, 0].map (fun i => hexDigit (x >>> (4 * i)))

/-- The digest of a byte vector, `sha1` of `main.cpp` on a list of byte values. -/
def sha1Bytes (data : List Nat) : String :=
  let buf := sha1Pad data
  let h := ((List.range ((buf.length + 63) / 64)).map (· * 64)).foldl (processChunk buf)
    { a := 0x67452301, b := 0xEFCDAB89, c := 0x98BADCFE, d := 0x10325476, e := 0xC3D2E1F0 }
  String.mk (hex8 h.a ++ hex8 h.b ++ hex8 h.c ++ hex8 h.d ++ hex8 h.e)

/-- The byte values of a string. -/
def toBytes (s : String) : List Nat := s.toList.map (fun c => c.toNat % 256)

/-- Function `sha1` (lines 25-84). -/
def sha1 (data : String) : String := sha1Bytes (toBytes data)

/-! ### An equal digest function that evaluates faster -/

/-- The message schedule with the words kept newest first: `n` further words are put in front
of the reversed list `rev`. -/
def extendRev : Nat → List Nat → List Nat
  | 0, rev => rev
  | n + 1, rev =>
    extendRev n (rol1 (rev.getD 2 0 ^^^ rev.getD 7 0 ^^^ rev.getD 13 0 ^^^ rev.getD 15 0) :: rev)

/-- The padded buffer in closed form: the data, the byte `0x80`, the zero bytes and the
length trailer. -/
def padClosed (data : List Nat) : List Nat :=
  data ++ 0x80 :: (List.replicate ((56 + 64 - (data.length + 1) % 64) % 64) 0
    ++ lengthTrailer (data.length * 8 % 2 ^ 64))

/-- The body of the chunk loop, on the schedule kept newest first. -/
def processChunkRev (buf : List Nat) (h : Sha1State) (chunk : Nat) : Sha1State :=
  let w := (extendRev 64 (loadWords buf chunk).reverse).reverse
  let r := (List.range 80).foldl (round w) h
  { a := u32 (h.a + r.a), b := u32 (h.b + r.b), c := u32 (h.c + r.c),
    d := u32 (h.d + r.d), e := u32 (h.e + r.e) }

/-- The digest computed on the padded buffer in closed form with the schedule kept newest
first; equal to `sha1Bytes` and cheaper to evaluate. -/
def sha1BytesRev (data : List Nat) : String :=
  let buf := padClosed data
  let h := ((List.range ((buf.length + 63) / 64)).map (· * 64)).foldl (processChunkRev buf)
    { a := 0x67452301, b := 0xEFCDAB89, c := 0x98BADCFE, d := 0x10325476, e := 0xC3D2E1F0 }
  String.mk (hex8 h.a ++ hex8 h.b ++ hex8 h.c ++ hex8 h.d ++ hex8 h.e)

/-- The digest of a string computed by `sha1BytesRev`; equal to `sha1`. -/
def sha1Rev (data : String) : String := sha1BytesRev (toBytes data)

/-! ## Input string streams (`std::istringstream`) -/

/-- Function `std::isspace` in the classic locale: space, `\t`, `\n`, `\v`, `\f`, `\r`. -/
def isSpace (c : Char) : Bool :=
  c = ' ' || c = '\t' || c = '\n' || c.toNat = 11 || c.toNat = 12 || c = '\r'

/-- The state of a `std::istringstream`: the unread characters and the two state bits the
program can observe. -/
structure IStream where
  rest : List Char
  eof : Bool
  fail : Bool
deriving DecidableEq, Repr

/-- A stream over a text, as built by `std::istringstream iss(txt)`. -/
def IStream.ofString (txt : String) : IStream := { rest := txt.data, eof := false, fail := false }

/-- Member `good()`: no state bit is set. -/
def IStream.good (s : IStream) : Bool := !s.eof && !s.fail

/-- Formatted extraction `iss >> str` of a string.  When the stream is not good, or only white
space is left, the fail bit is set and `str` keeps its old value; otherwise leading white space is
skipped and the maximal run of non-space characters is stored, the eof bit being set when the run
reaches the end of the text. -/
def IStream.extract (s : IStream) (old : String) : IStream × String :=
  if s.good then
    match s.rest.dropWhile isSpace with
    | [] => ({ rest := [], eof := true, fail := true }, old)
    | c :: r =>
      let rest := (c :: r).dropWhile (fun x => !isSpace x)
      ({ rest := rest, eof := rest.isEmpty, fail := false },
        String.mk ((c :: r).takeWhile (fun x => !isSpace x)))
  else ({ s with fail := true }, old)

/-- Unformatted extraction `std::getline(iss, str)`.  When the stream is not good the fail bit is
set and `str` keeps its old value; otherwise `str` is erased and receives the characters up to the
next `\n`, which is consumed; reaching the end of the text sets the eof bit, and the fail bit too
when nothing at all was extracted. -/
def IStream.getline (s : IStream) (old : String) : IStream × String :=
  if s.good then
    match s.rest.dropWhile (fun x => x != '\n') with
    | [] => ({ rest := [], eof := true, fail := s.rest.isEmpty }, String.mk s.rest)
    | _ :: r =>
      ({ rest := r, eof := false, fail := false },
        String.mk (s.rest.takeWhile (fun x => x != '\n')))
  else ({ s with fail := true }, old)

/-- The idiom `if (!s.empty() && s[0] == ' ') s.erase(s.begin());`. -/
def eraseLeadingSpace (s : String) : String :=
  match s.data with
  | [] => s
  | c :: r => if c = ' ' then String.mk r else s

/-! ## Tree maps (`std::unordered_map<string, string>`) -/

/-- An `unordered_map<string, string>`: an association list without repeated keys, whose order
stands for the unspecified iteration order of the container. -/
abbrev TreeMap := List (String × String)

/-- Member `find`: the value stored under a key, if any. -/
def TreeMap.find : TreeMap → String → Option String
  | [], _ => none
  | e :: m, k => if e.1 = k then some e.2 else TreeMap.find m k

/-- Assignment `m[k] = v`: the value under `k` is replaced, or a new entry is added. -/
def TreeMap.set : TreeMap → String → String → TreeMap
  | [], k, v => [(k, v)]
  | e :: m, k, v => if e.1 = k then (k, v) :: m else e :: TreeMap.set m k v

/-- Read access `m[k]`, which yields the empty string for an absent key. -/
def TreeMap.at (m : TreeMap) (k : String) : String := (m.find k).getD ""

/-- The key vector of `makeTreeObject` after `std::sort(keys.begin(), keys.end())`
(lines 206-209). -/
def sortedKeys (m : TreeMap) : List String := (m.map Prod.fst).insertionSort (· ≤ ·)

/-- The text of a tree object (lines 211-215): one line per key, in sorted order. -/
def treeText (m : TreeMap) : String :=
  String.join ((sortedKeys m).map (fun k => "blob " ++ m.at k ++ " " ++ k ++ "\n"))

/-- The loop `while (iss >> type >> hash) \x7b ... \x7d` of `readTreeObject` (lines 229-233);
`none` when the fuel runs out. -/
def readTreeLoop : Nat → IStream → String → String → String → TreeMap → Option TreeMap
  | 0, _, _, _, _, _ => none
  | fuel + 1, iss, type, hash, path, m =>
    let r1 := iss.extract type
    let r2 := r1.1.extract hash
    if r2.1.fail then some m
    else
      let r3 := r2.1.getline path
      let path := eraseLeadingSpace r3.2
      let m := if r1.2 = "blob" ∧ path ≠ "" then m.set path r2.2 else m
      readTreeLoop fuel r3.1 r1.2 r2.2 path m

/-- The parser of `readTreeObject` (lines 226-234) applied to the text of an object. -/
def readTreeText (txt : String) : Option TreeMap :=
  readTreeLoop (txt.length + 1) (IStream.ofString txt) "" "" "" []

/-- The three outputs of `readCommitObject`. -/
structure CommitFields where
  tree : String
  parent : String
  message : String
deriving DecidableEq, Repr

/-- The loop `while (iss >> key) \x7b ... \x7d` of `readCommitObject` (lines 245-256);
`none` when the fuel runs out. -/
def readCommitLoop : Nat → IStream → String → CommitFields → Option CommitFields
  | 0, _, _, _ => none
  | fuel + 1, iss, key, out =>
    let r := iss.extract key
    if r.1.fail then some out
    else if r.2 = "tree" then
      let t := r.1.extract out.tree
      readCommitLoop fuel t.1 r.2 { out with tree := t.2 }
    else if r.2 = "parent" then
      let p := r.1.extract out.parent
      readCommitLoop fuel p.1 r.2 { out with parent := p.2 }
    else if r.2 = "message" then
      let g := r.1.getline out.message
      readCommitLoop fuel g.1 r.2 { out with message := eraseLeadingSpace g.2 }
    else
      readCommitLoop fuel (r.1.getline "").1 r.2 out

/-- The parser of `readCommitObject` (lines 238, 242-257) applied to the text of an object: the
fields when the function returns `true`, `none` when it returns `false`. -/
def readCommitText (txt : String) : Option CommitFields :=
  match readCommitLoop (txt.length + 1) (IStream.ofString txt) ""
      { tree := "", parent := "", message := "" } with
  | some out => if out.tree ≠ "" then some out else none
  | none => none

/-- The text of a commit object (lines 262-268); `ts` is the value of `nowTimestamp()`. -/
def commitText (treeHash parentHash ts message : String) : String :=
  "tree " ++ treeHash ++ "\n" ++
  (if parentHash ≠ "" then "parent " ++ parentHash ++ "\n" else "") ++
  "author Student\n" ++
  "timestamp " ++ ts ++ "\n" ++
  "message " ++ message ++ "\n"

/-! ## The file system

The repository root is the current directory of the process; every path is a generic
(`/`-separated) path relative to it and is compared literally (`.`, `..` and symbolic links are
not resolved).  `files` holds the regular files with their bytes, in an order that stands for the
unspecified order of directory iteration; `dirs` holds the directories.  Opening a file fails
exactly when no regular file has that path; no other input or output error is modelled.
`fs::exists(p)` is `isDir` where the program tests one of its three directories, `isFile` where
it tests an object path or `HEAD`, and `pathExists` (a file or a directory) where it tests a
path below `refs/heads`, in which the program itself makes directories for branch names that
hold a `/`.

The model agrees with the program, run on a case-sensitive POSIX file system that holds regular
files and directories which the process may read and write, and whose root directory has a short
path, on the states and names that the following conditions describe.  The model is defined
outside them too, but what it yields there need not be what the program does, so the statements
on `cmd_commit`, `cmd_checkout` and `cmd_branch` below take the conditions as hypotheses:

* the state stands for a real directory tree (`FS.wellFormed`): its paths are plain names
  (`plainName`: no `.`, `..` or empty component, no NUL byte, no component above 255 bytes, so
  that the operating system resolves the path to what its text says), no path is both a file and
  a directory, and the directories above every path are directories of the state;
* a name or digest that the program joins to a directory is a plain name;
* a file is written only where the write can succeed (`canWrite`): the path is not a directory
  and no directory above it is a regular file, for otherwise `std::ofstream` fails or
  `fs::create_directories` throws, while `writeAllBytes` and `writeText` of the model always
  write;
* the objects directory holds no directory (`objectsFlat`), since `fs::exists` holds of a
  directory and `std::ifstream` opens one, while `isFile` and `readAllBytes` of the model yield
  `false` and `none`;
* the paths of a tree that `restoreFromTree` writes are plain, lie outside `.simple_vcs` and
  none of them is a directory above another (`treePathsOk`); then every write succeeds in
  whatever order the `unordered_map` is visited, and the list order of the model is immaterial
  to what files the result holds. -/

/-- The state of the file system below the repository root. -/
structure FS where
  files : List (String × String)
  dirs : List String
deriving DecidableEq, Repr

/-- Constant `VCS_DIR`. -/
def VCS_DIR : String := ".simple_vcs"

/-- Constant `OBJECTS_DIR`. -/
def OBJECTS_DIR : String := ".simple_vcs/objects"

/-- Constant `REFS_HEADS_DIR`. -/
def REFS_HEADS_DIR : String := ".simple_vcs/refs/heads"

/-- Constant `HEAD_FILE`. -/
def HEAD_FILE : String := ".simple_vcs/HEAD"

/-- The path `OBJECTS_DIR / h`. -/
def objectPath (h : String) : String := ".simple_vcs/objects/" ++ h

/-- The path `REFS_HEADS_DIR / name`. -/
def branchPath (name : String) : String := ".simple_vcs/refs/heads/" ++ name

/-- The path `VCS_DIR / ref`. -/
def vcsPath (ref : String) : String := ".simple_vcs/" ++ ref

/-- The components of a generic path. -/
def splitPath : List Char → List (List Char)
  | [] => [[]]
  | c :: cs =>
    if c = '/' then [] :: splitPath cs
    else
      match splitPath cs with
      | [] => [[c]]
      | x :: xs => (c :: x) :: xs

/-- Whether some component of the path is named `.simple_vcs`: the entries that the directory
walks leave out together with everything below them (lines 188-191 and 569). -/
def hasVcsComponent (p : String) : Bool := (splitPath p.data).contains VCS_DIR.data

/-- Whether the first component of the path is `.simple_vcs`: the one entry of the root that
`cleanWorkingDir` keeps (line 276). -/
def underVcsDir (p : String) : Bool := (splitPath p.data).head? = some VCS_DIR.data

/-- Member `fs::path::parent_path`. -/
def parent_path (p : String) : String :=
  String.mk ((p.data.reverse.dropWhile (fun c => c != '/')).drop 1).reverse

/-- The directory `d` and its ancestors, outermost first; `acc` is the reversed prefix read. -/
def dirChain (acc : List Char) : List Char → List String
  | [] => if acc = [] then [] else [String.mk acc.reverse]
  | c :: cs =>
    if c = '/' ∧ acc ≠ [] then String.mk acc.reverse :: dirChain (c :: acc) cs
    else dirChain (c :: acc) cs

/-- Function `fs::create_directories`. -/
def create_directories (s : FS) (d : String) : FS :=
  { s with dirs := (dirChain [] d.data).foldl (fun ds x => if x ∈ ds then ds else ds ++ [x]) s.dirs }

/-- Whether a regular file has this path. -/
def FS.isFile (s : FS) (p : String) : Bool := (TreeMap.find s.files p).isSome

/-- Whether a directory has this path. -/
def FS.isDir (s : FS) (p : String) : Bool := s.dirs.contains p

/-- Function `fs::exists`: a regular file has this path, or a directory has it (a path that
ends in `/` names the directory before the `/`). -/
def FS.pathExists (s : FS) (p : String) : Bool :=
  s.isFile p || s.isDir (String.mk (p.data.reverse.dropWhile (fun c => c = '/')).reverse)

/-- Whether a name, taken as a relative path, names exactly what its text says: every
component is non-empty, is neither `.` nor `..` and has at most 255 bytes, the name has at most
1024 bytes, and every character is a byte other than NUL. -/
def plainName (x : String) : Bool :=
  (splitPath x.data).all (fun c =>
    decide (c ≠ []) && decide (c ≠ ['.']) && decide (c ≠ ['.', '.']) && decide (c.length ≤ 255)) &&
  decide (x.data.length ≤ 1024) &&
  x.data.all (fun c => decide (0 < c.toNat) && decide (c.toNat < 256))

/-- The directories above a path, outermost first. -/
def ancestors (p : String) : List String := dirChain [] (parent_path p).data

/-- Whether the state stands for a real directory tree: no path occurs twice, every path is a
plain name, no path is both a regular file and a directory, and the directories above every
path are directories of the state. -/
def FS.wellFormed (s : FS) : Bool :=
  decide (s.files.map Prod.fst).Nodup && decide s.dirs.Nodup &&
  (s.files.map Prod.fst ++ s.dirs).all (fun p =>
    plainName p && (ancestors p).all (fun a => s.dirs.contains a)) &&
  s.files.all (fun e => !s.dirs.contains e.1)

/-- Whether a file can be written at path `p`: the path is not a directory and no directory
above it is a regular file. -/
def canWrite (s : FS) (p : String) : Bool :=
  !s.isDir p && (ancestors p).all (fun a => !s.isFile a)

/-- Function `isRepo` (lines 87-89). -/
def isRepo (s : FS) : Bool :=
  s.isDir VCS_DIR && s.isDir OBJECTS_DIR && s.isDir REFS_HEADS_DIR && s.isFile HEAD_FILE

/-- Function `readAllBytes` (lines 91-96): `none` for the result `false`. -/
def readAllBytes (s : FS) (p : String) : Option String := TreeMap.find s.files p

/-- Function `writeAllBytes` (lines 98-104). -/
def writeAllBytes (s : FS) (p data : String) : FS × Bool :=
  let s1 := create_directories s (parent_path p)
  ({ s1 with files := TreeMap.set s1.files p data }, true)

/-- Function `readFirstLine` (lines 106-112). -/
def readFirstLine (s : FS) (p : String) : String :=
  match TreeMap.find s.files p with
  | none => ""
  | some txt => ((IStream.ofString txt).getline "").2

/-- Function `writeText` (lines 114-120). -/
def writeText (s : FS) (p txt : String) : FS × Bool :=
  let s1 := create_directories s (parent_path p)
  ({ s1 with files := TreeMap.set s1.files p txt }, true)

/-! ## HEAD and objects -/

/-- Function `headIsRef` (lines 137-145): the out-parameter when the result is `true`. -/
def headIsRef (s : FS) : Option String :=
  let head := readFirstLine s HEAD_FILE
  if head.data.take 5 = "ref: ".data then some (String.mk (head.data.drop 5)) else none

/-- Function `currentCommitFromHEAD` (lines 147-154). -/
def currentCommitFromHEAD (s : FS) : String :=
  match headIsRef s with
  | some ref => readFirstLine s (vcsPath ref)
  | none => readFirstLine s HEAD_FILE

/-- Function `currentBranchNameOrEmpty` (lines 156-162): what follows the last `/` of the ref
path of `HEAD`. -/
def currentBranchNameOrEmpty (s : FS) : String :=
  match headIsRef s with
  | none => ""
  | some ref =>
    if ref.data.contains '/' then
      String.mk (ref.data.reverse.takeWhile (fun c => c != '/')).reverse
    else ""

/-- Function `writeObjectIfMissing` (lines 165-170). -/
def writeObjectIfMissing (s : FS) (content : String) : FS × String :=
  let h := sha1 content
  let objPath := objectPath h
  (if !s.isFile objPath then (writeAllBytes s objPath content).1 else s, h)

/-- Function `makeBlobForFile` (lines 172-176). -/
def makeBlobForFile (s : FS) (filePath : String) : FS × String :=
  match readAllBytes s filePath with
  | none => (s, "")
  | some bytes => writeObjectIfMissing s bytes

/-- The relative paths of the regular files met by the directory walk of `makeTreeObject`
(lines 184-197), in iteration order. -/
def walkFiles (s : FS) : List String :=
  (s.files.map Prod.fst).filter (fun p => !hasVcsComponent p)

/-- The body of the walk of `makeTreeObject` for one regular file (lines 199-200). -/
def snapshotStep (acc : FS × TreeMap) (relStr : String) : FS × TreeMap :=
  let r := makeBlobForFile acc.1 relStr
  (r.1, if r.2 ≠ "" then acc.2.set relStr r.2 else acc.2)

/-- Function `makeTreeObject` (lines 180-220): the new state, the tree digest and the
out-parameter `outTreeMap`. -/
def makeTreeObject (s : FS) : FS × String × TreeMap :=
  let r := (walkFiles s).foldl snapshotStep (s, [])
  let w := writeObjectIfMissing r.1 (treeText r.2)
  (w.1, w.2, r.2)

/-- Function `readTreeObject` (lines 222-235): `none` for the result `false`. -/
def readTreeObject (s : FS) (treeHash : String) : Option TreeMap :=
  match readAllBytes s (objectPath treeHash) with
  | none => none
  | some txt => readTreeText txt

/-- Function `readCommitObject` (lines 237-258): `none` for the result `false`. -/
def readCommitObject (s : FS) (commitHash : String) : Option CommitFields :=
  match readAllBytes s (objectPath commitHash) with
  | none => none
  | some txt => readCommitText txt

/-- Function `makeCommitObject` (lines 260-271); `ts` is the value of `nowTimestamp()`. -/
def makeCommitObject (s : FS) (treeHash parentHash message ts : String) : FS × String :=
  writeObjectIfMissing s (commitText treeHash parentHash ts message)

/-- Function `cleanWorkingDir` (lines 274-279): every entry of the root except `.simple_vcs` is
removed with all that lies below it. -/
def cleanWorkingDir (s : FS) : FS :=
  { files := s.files.filter (fun e => underVcsDir e.1),
    dirs := s.dirs.filter underVcsDir }

/-- Function `restoreFromTree` (lines 281-293), the map being visited in list order. -/
def restoreFromTree : FS → TreeMap → FS × Bool
  | s, [] => (s, true)
  | s, kv :: rest =>
    let s1 := create_directories s (parent_path kv.1)
    match readAllBytes s1 (objectPath kv.2) with
    | none => (s1, false)
    | some blobBytes => restoreFromTree (writeAllBytes s1 kv.1 blobBytes).1 rest

/-! ## Commands -/

/-- Function `cmd_init` (lines 365-372). -/
def cmd_init (s : FS) : FS × Nat :=
  let s1 := create_directories s OBJECTS_DIR
  let s2 := create_directories s1 REFS_HEADS_DIR
  let s3 := (writeText s2 HEAD_FILE "ref: refs/heads/master").1
  let s4 := (writeText s3 (branchPath "master") "").1
  (s4, 0)

/-- Function `cmd_commit` (lines 374-405); `msg` is the message assembled from the arguments
after `-m` (empty when there is none) and `ts` the value of `nowTimestamp()`. -/
def cmd_commit (s : FS) (msg ts : String) : FS × Nat :=
  if !isRepo s then (s, 1)
  else if msg = "" then (s, 1)
  else
    match headIsRef s with
    | none => (s, 1)
    | some ref =>
      let parent := readFirstLine s (vcsPath ref)
      let t := makeTreeObject s
      let c := makeCommitObject t.1 t.2.1 parent msg ts
      ((writeText c.1 (vcsPath ref) c.2).1, 0)

/-- Function `cmd_checkout` (lines 407-456) for the argument `target`. -/
def cmd_checkout (s : FS) (target : String) : FS × Nat :=
  if !isRepo s then (s, 1)
  else
    let isBranch := s.pathExists (branchPath target)
    let commitHash := if isBranch then readFirstLine s (branchPath target) else target
    if commitHash = "" then (s, 1)
    else if !s.isFile (objectPath commitHash) then (s, 1)
    else
      match readCommitObject s commitHash with
      | none => (s, 1)
      | some c =>
        match readTreeObject s c.tree with
        | none => (s, 1)
        | some treeMap =>
          let r := restoreFromTree (cleanWorkingDir s) treeMap
          if !r.2 then (r.1, 1)
          else if isBranch then ((writeText r.1 HEAD_FILE ("ref: refs/heads/" ++ target)).1, 0)
          else ((writeText r.1 HEAD_FILE commitHash).1, 0)

/-- Whether path `p` lies below directory `d`. -/
def isBelow (d p : String) : Bool := (d ++ "/").data.isPrefixOf p.data && p ≠ d ++ "/"

/-- Function `fs::remove`: a regular file is removed, a directory is removed when nothing lies
below it; `none` stands for the `filesystem_error` thrown for a directory that is not empty. -/
def fs_remove (s : FS) (p : String) : Option FS :=
  if s.isFile p then some { s with files := s.files.filter (fun e => e.1 ≠ p) }
  else
    let d := String.mk (p.data.reverse.dropWhile (fun c => c = '/')).reverse
    if s.files.any (fun e => isBelow d e.1) || s.dirs.any (fun x => isBelow d x) then none
    else some { s with dirs := s.dirs.filter (fun x => x ≠ d) }

/-- The names of the entries of directory `d`, as `fs::directory_iterator(d)` meets them. -/
def dirEntries (s : FS) (d : String) : List String :=
  (((s.files.map Prod.fst ++ s.dirs).filter (fun p => isBelow d p)).map
      (fun p => String.mk ((p.data.drop (d.length + 1)).takeWhile (fun c => c != '/')))).foldl
    (fun l k => if k ∈ l then l else l ++ [k]) []

/-- The lines printed by `branch` without argument (lines 462-467). -/
def branchListing (s : FS) : String :=
  String.join ((dirEntries s REFS_HEADS_DIR).map (fun name =>
    if name = currentBranchNameOrEmpty s then "* " ++ name ++ "\n" else "  " ++ name ++ "\n"))

/-- The branch of `cmd_branch` that deletes the ref `del` (lines 474-483); exit code 134 stands
for the uncaught `filesystem_error` of `fs::remove`, which ends the process. -/
def branchDelete (s : FS) (del : String) : FS × Nat :=
  if del = currentBranchNameOrEmpty s then (s, 1)
  else if !s.pathExists (branchPath del) then (s, 1)
  else
    match fs_remove s (branchPath del) with
    | some s1 => (s1, 0)
    | none => (s, 134)

/-- The branch of `cmd_branch` that creates the ref `name` (lines 486-493). -/
def branchCreate (s : FS) (name : String) : FS × Nat :=
  if s.pathExists (branchPath name) then (s, 1)
  else ((writeText s (branchPath name) (currentCommitFromHEAD s)).1, 0)

/-- Function `cmd_branch` (lines 458-494) for the arguments after `branch`: without argument
`branchListing` is printed and nothing changes. -/
def cmd_branch (s : FS) (args : List String) : FS × Nat :=
  if !isRepo s then (s, 1)
  else
    match args with
    | [] => (s, 0)
    | arg2 :: rest =>
      if arg2 = "-d" then
        match rest with
        | [] => (s, 1)
        | del :: _ => branchDelete s del
      else branchCreate s arg2

/-! ## Diff (`main.cpp` 295-362 and 519-598)

The sizes of the line vectors are taken to fit the type `int` of the indices `m`, `n`, `i`, `j`
and of the table cells; the model counts with natural numbers.  Of the output only what goes to
`std::cout` is modelled. -/

/-- One operation of an edit script: the tag (a space, `+` or `-`) and the line. -/
structure DiffOp where
  t : Char
  line : String
deriving DecidableEq, Repr

/-- The loop `while (std::getline(iss, line)) lines.push_back(line);` of `splitLines`
(lines 303-306); `none` when the fuel runs out. -/
def splitLoop : Nat → IStream → String → List String → Option (List String)
  | 0, _, _, _ => none
  | fuel + 1, iss, line, lines =>
    let r := iss.getline line
    if r.1.fail then some lines else splitLoop fuel r.1 r.2 (lines ++ [r.2])

/-- Function `splitLines` (lines 298-309). -/
def splitLines (bytes : String) : List String :=
  (splitLoop (bytes.length + 1) (IStream.ofString bytes) "" []).getD []

/-- Read access `dp[i][j]`. -/
def dpGet (dp : List (List Nat)) (i j : Nat) : Nat := (dp.getD i []).getD j 0

/-- Assignment `dp[i][j] = v`. -/
def dpSet (dp : List (List Nat)) (i j v : Nat) : List (List Nat) :=
  dp.set i ((dp.getD i []).set j v)

/-- The table `dp` of `lcsDiff` after the two loops of lines 313-320. -/
def lcsTable (A B : List String) : List (List Nat) :=
  (List.range A.length).reverse.foldl (fun dp i =>
    (List.range B.length).reverse.foldl (fun dp j =>
      if A.getD i "" = B.getD j "" then dpSet dp i j (dpGet dp (i + 1) (j + 1) + 1)
      else dpSet dp i j (max (dpGet dp (i + 1) j) (dpGet dp i (j + 1)))) dp)
    (List.replicate (A.length + 1) (List.replicate (B.length + 1) 0))

/-- The loop `while (i < m || j < n) \x7b ... \x7d` of `lcsDiff` (lines 324-328); `none` when
the fuel runs out. -/
def lcsWalk (A B : List String) (dp : List (List Nat)) :
    Nat → Nat → Nat → List DiffOp → Option (List DiffOp)
  | 0, _, _, _ => none
  | fuel + 1, i, j, ops =>
    if i < A.length ∨ j < B.length then
      if i < A.length ∧ j < B.length ∧ A.getD i "" = B.getD j "" then
        lcsWalk A B dp fuel (i + 1) (j + 1) (ops ++ [{ t := ' ', line := A.getD i "" }])
      else if j < B.length ∧ (i = A.length ∨ dpGet dp i (j + 1) ≥ dpGet dp (i + 1) j) then
        lcsWalk A B dp fuel i (j + 1) (ops ++ [{ t := '+', line := B.getD j "" }])
      else
        lcsWalk A B dp fuel (i + 1) j (ops ++ [{ t := '-', line := A.getD i "" }])
    else some ops

/-- Function `lcsDiff` (lines 311-330). -/
def lcsDiff (A B : List String) : List DiffOp :=
  (lcsWalk A B (lcsTable A B) (A.length + B.length + 1) 0 0 []).getD []

/-- Function `loadFileLinesFromBlob` (lines 332-337): the out-parameter, which stays empty
when the blob cannot be read. -/
def loadFileLinesFromBlob (s : FS) (blobHash : String) : List String :=
  match readAllBytes s (objectPath blobHash) with
  | none => []
  | some bytes => splitLines bytes

/-- Function `loadFileLinesFromWork` (lines 339-344): the out-parameter, which stays empty
when the file cannot be read. -/
def loadFileLinesFromWork (s : FS) (rel : String) : List String :=
  match readAllBytes s rel with
  | none => []
  | some bytes => splitLines bytes

/-- What `printUnifiedDiffSimple` (lines 346-362) writes to `std::cout`. -/
def printUnifiedDiffSimple (file : String) (A B : List String) : String :=
  if A = B then ""
  else
    "diff --simple-vcs a/" ++ file ++ " b/" ++ file ++ "\n" ++
    "--- a/" ++ file ++ "\n" ++
    "+++ b/" ++ file ++ "\n" ++
    "@@ -1," ++ Nat.repr A.length ++ " +1," ++ Nat.repr B.length ++ " @@\n" ++
    String.join ((lcsDiff A B).map (fun op =>
      if op.t = ' ' then "" else String.singleton op.t ++ op.line ++ "\n"))

/-- The lambda `resolveToCommit` of `cmd_diff` (lines 526-530). -/
def resolveToCommit (s : FS) (x : String) : String :=
  if s.pathExists (branchPath x) then readFirstLine s (branchPath x) else x

/-- The lambda `loadTreeFromCommit` of `cmd_diff` (lines 548-552): `none` for the result
`false`. -/
def loadTreeFromCommit (s : FS) (commitHash : String) : Option TreeMap :=
  match readCommitObject s commitHash with
  | none => none
  | some c => readTreeObject s c.tree

/-- The body of the loop over the union of the paths in `cmd_diff` (lines 581-594). -/
def diffFile (s : FS) (treeA treeB : TreeMap) (file : String) : String :=
  let linesA :=
    match treeA.find file with
    | some h => loadFileLinesFromBlob s h
    | none => []
  let linesB :=
    match treeB.find file with
    | some h => if h ≠ "" then loadFileLinesFromBlob s h else loadFileLinesFromWork s file
    | none => []
  printUnifiedDiffSimple file linesA linesB

/-- The set `all` of `cmd_diff` (lines 576-578) in its iteration order: the paths of both
sides, each once, in increasing order. -/
def allPaths (treeA treeB : TreeMap) : List String :=
  ((treeA.map Prod.fst ++ treeB.map Prod.fst).foldl
    (fun l k => if k ∈ l then l else l ++ [k]) []).insertionSort (· ≤ ·)

/-- Function `cmd_diff` (lines 519-598) for the arguments after `diff`: what is written to
`std::cout`, and the exit code. -/
def cmd_diff (s : FS) (args : List String) : String × Nat :=
  if !isRepo s then ("", 1)
  else
    let Acommit :=
      match args with
      | [] => currentCommitFromHEAD s
      | a :: _ => resolveToCommit s a
    let Bcommit :=
      match args with
      | _ :: b :: _ => resolveToCommit s b
      | _ => ""
    let Bworking := decide (args.length < 2)
    if Acommit = "" ∨ !s.isFile (objectPath Acommit) then ("", 1)
    else
      match loadTreeFromCommit s Acommit with
      | none => ("", 1)
      | some treeA =>
        let sideB : Option TreeMap :=
          if Bworking then some ((walkFiles s).foldl (fun m rel => TreeMap.set m rel "") [])
          else if Bcommit = "" ∨ !s.isFile (objectPath Bcommit) then none
          else loadTreeFromCommit s Bcommit
        match sideB with
        | none => ("", 1)
        | some treeB => (String.join ((allPaths treeA treeB).map (diffFile s treeA treeB)), 0)

/-! ## Notions used to state and prove the properties -/

/-- Whether the objects directory holds no directory. -/
def objectsFlat (s : FS) : Bool :=
  s.dirs.all (fun d => !((OBJECTS_DIR ++ "/").data.isPrefixOf d.data))

/-- Whether the paths of a tree can all be restored, in any order: each is a plain name outside
`.simple_vcs`, and none is a directory above another. -/
def treePathsOk (m : TreeMap) : Bool :=
  m.all (fun e => plainName e.1 && !underVcsDir e.1 &&
    m.all (fun e' => !(ancestors e'.1).contains e.1))

/-- Whether the ref path that a symbolic `HEAD` holds is a plain name. -/
def headPlain (s : FS) : Bool :=
  match headIsRef s with
  | some ref => plainName ref
  | none => true


/-- The text of a list of tree lines. -/
def linesText (es : List (String × String)) : String :=
  String.join (es.map (fun e => "blob " ++ e.2 ++ " " ++ e.1 ++ "\n"))

/-- Whether an entry can be read back: a non-empty path without newline and a non-empty digest
without white space. -/
def EntryOk (e : String × String) : Prop :=
  e.1 ≠ "" ∧ (∀ x ∈ e.1.data, x ≠ '\n') ∧ e.2 ≠ "" ∧ ∀ x ∈ e.2.data, isSpace x = false

/-- The entries of a map in the order of the sorted key vector. -/
def sortedEntries (m : TreeMap) : List (String × String) :=
  (sortedKeys m).map (fun k => (k, m.at k))

/-- The store holds no bytes other than `b` under the digest of `b`. -/
def Storable (s : FS) (b : String) : Prop :=
  ∀ c, readAllBytes s (objectPath (sha1 b)) = some c → c = b

/-- From `s` to `t` only object files were written, none of them over an existing file, and
no directory was removed. -/
structure StoreStep (s t : FS) : Prop where
  frame : ∀ q, (∀ h, q ≠ objectPath h) → readAllBytes t q = readAllBytes s q
  ext : ∀ q c, readAllBytes s q = some c → readAllBytes t q = some c
  dirs : ∀ d, s.isDir d = true → t.isDir d = true

/-- The mapping that a snapshot of `s` collects: every walked file with the digest of its
bytes. -/
def snapshotMap (s : FS) (l : List String) (m : TreeMap) : TreeMap :=
  l.foldl (fun m p => TreeMap.set m p (sha1 ((readAllBytes s p).getD ""))) m

/-- Whether the store holds no bytes other than `b` under the digest of `b`, as a test. -/
def storableB (s : FS) (b : String) : Bool :=
  match readAllBytes s (objectPath (sha1 b)) with
  | some c => decide (c = b)
  | none => true

/-- The working tree as the user leaves it before a command: the files outside `.simple_vcs`
are replaced by `work`, the repository metadata is untouched. -/
def editWork (s : FS) (work : List (String × String)) : FS :=
  { files := s.files.filter (fun e => underVcsDir e.1) ++ work, dirs := s.dirs }

/-- The next white-space delimited token of a text; empty when only white space is left. -/
def nextToken (l : List Char) : List Char :=
  (l.dropWhile isSpace).takeWhile (fun x => !isSpace x)

/-- The text after its next token. -/
def afterToken (l : List Char) : List Char :=
  (l.dropWhile isSpace).dropWhile (fun x => !isSpace x)

/-- The text after the end of its first line. -/
def afterLine (l : List Char) : List Char := (l.dropWhile (fun x => x != '\n')).drop 1

/-- In the words of the specification of commit objects: the text, read from a key position,
holds a record `tree <value>`, that is the key `tree` followed by a value token, at a key
position.  The key positions are the start of the text, the place after the value token of a
`tree` or `parent` key, and the place after the line of any other key. -/
inductive TreeRecordAt : List Char → Prop
  | here (l : List Char) :
      nextToken l = "tree".data → nextToken (afterToken l) ≠ [] → TreeRecordAt l
  | afterValue (l : List Char) :
      (nextToken l = "tree".data ∨ nextToken l = "parent".data) →
      TreeRecordAt (afterToken (afterToken l)) → TreeRecordAt l
  | afterRest (l : List Char) :
      nextToken l ≠ [] → nextToken l ≠ "tree".data → nextToken l ≠ "parent".data →
      TreeRecordAt (afterLine (afterToken l)) → TreeRecordAt l

/-- The length of a longest common subsequence of two line sequences, by the recurrence that
the table of `lcsDiff` is filled with. -/
def lcsLen : List String → List String → Nat
  | [], _ => 0
  | _ :: _, [] => 0
  | a :: A, b :: B =>
    if a = b then lcsLen A B + 1 else max (lcsLen A (b :: B)) (lcsLen (a :: A) B)
termination_by A B => A.length + B.length

/-- The lines of an edit script that come from the first sequence: kept and deleted ones. -/
def oldLines (ops : List DiffOp) : List String :=
  (ops.filter (fun op => op.t = ' ' ∨ op.t = '-')).map DiffOp.line

/-- The lines of an edit script that make the second sequence: kept and inserted ones. -/
def newLines (ops : List DiffOp) : List String :=
  (ops.filter (fun op => op.t = ' ' ∨ op.t = '+')).map DiffOp.line

/-- The kept lines of an edit script. -/
def keptLines (ops : List DiffOp) : List String :=
  (ops.filter (fun op => op.t = ' ')).map DiffOp.line

/-- The number of insertions and deletions of an edit script. -/
def editCount (ops : List DiffOp) : Nat := (ops.filter (fun op => op.t ≠ ' ')).length

/-- An insert/delete edit script from `A` to `B`: every tag is a space, `+` or `-`, the kept and
deleted lines are `A` and the kept and inserted lines are `B`. -/
def IsEditScript (ops : List DiffOp) (A B : List String) : Prop :=
  (∀ op ∈ ops, op.t = ' ' ∨ op.t = '+' ∨ op.t = '-') ∧ oldLines ops = A ∧ newLines ops = B

/-- The table cells on and after position `(i, j)` in the order of the two loops, and the last
column, hold the lengths of the longest common subsequences of the suffixes. -/
def TableOk (A B : List String) (dp : List (List Nat)) (i j : Nat) : Prop :=
  dp.length = A.length + 1 ∧ (∀ i', i' ≤ A.length → (dp.getD i' []).length = B.length + 1) ∧
  ∀ i' j', i' ≤ A.length → j' ≤ B.length → (i < i' ∨ (i' = i ∧ j ≤ j') ∨ j' = B.length) →
    dpGet dp i' j' = lcsLen (A.drop i') (B.drop j')

/-- The 8-byte big-endian encoding of a number below `2 ^ 64`, most significant byte first. -/
def bigEndian64 (x : Nat) : List Nat :=
  [x / 2 ^ 56 % 256, x / 2 ^ 48 % 256, x / 2 ^ 40 % 256, x / 2 ^ 32 % 256,
   x / 2 ^ 24 % 256, x / 2 ^ 16 % 256, x / 2 ^ 8 % 256, x % 256]

/-! ## Concrete states used as examples -/

/-- A working directory with one file and no repository. -/
def freshWork : FS := { files := [("a.txt", "hello")], dirs := [] }

/-- The repository made by `init` in `freshWork`. -/
def initRepo : FS := (cmd_init freshWork).1

/-- A working directory in which a directory name holds a newline, so that the path of the
second file reads as a second tree line that names an object of the store: the blob of
`b.txt`. -/
def trapWork : FS :=
  { files := [("b.txt", "world"),
      ("x\nblob 395df8f7c51f007019cb30201c49e884b46b92fa " ++
        ".simple_vcs/objects/7c211433f02071597741e6ff5a8ea34789abbf43", "z")],
    dirs := [] }

/-- The repository after `init` and one commit in `trapWork`. -/
def trapRepo : FS := (cmd_commit (cmd_init trapWork).1 "first" "2024-01-01 10:00:00").1

/-- A mapping whose paths hold spaces, also leading and trailing ones. -/
def spacedMap : TreeMap := [("src/b c.txt ", "7c211433"), (" a", "aaf4c61d")]

/-- A repository whose `HEAD` holds a raw commit digest (detached). -/
def detachedRepo : FS :=
  { files := [("a.txt", "hello"),
      (".simple_vcs/HEAD", "7c129cc6dade9ae7fb5b59f10aee8f84a6745d4b"),
      (".simple_vcs/refs/heads/master", "7c129cc6dade9ae7fb5b59f10aee8f84a6745d4b")],
    dirs := [".simple_vcs", ".simple_vcs/objects", ".simple_vcs/refs",
      ".simple_vcs/refs/heads"] }

/-- The repository after `init` and the commit `first` in `freshWork`. -/
def firstRepo : FS := (cmd_commit initRepo "first" "2024-01-01 10:00:00").1

/-- The files and directories of `firstRepo`, written out. -/
def firstRepoState : FS :=
  { files := [("a.txt", "hello"),
      (".simple_vcs/HEAD", "ref: refs/heads/master"),
      (".simple_vcs/refs/heads/master", "1f49a6a89c9537d2fdc62da9f3b60a85c98886e6"),
      (".simple_vcs/objects/aaf4c61ddcc5e8a2dabede0f3b482cd9aea9434d", "hello"),
      (".simple_vcs/objects/9c7e48d50e43f144c1cd5a02526ebbece9eb9928",
        "blob aaf4c61ddcc5e8a2dabede0f3b482cd9aea9434d a.txt\n"),
      (".simple_vcs/objects/1f49a6a89c9537d2fdc62da9f3b60a85c98886e6",
        "tree 9c7e48d50e43f144c1cd5a02526ebbece9eb9928\nauthor Student\n" ++
          "timestamp 2024-01-01 10:00:00\nmessage first\n")],
    dirs := [".simple_vcs", ".simple_vcs/objects", ".simple_vcs/refs",
      ".simple_vcs/refs/heads"] }

/-- The repository `firstRepo` after the loss of the blob object of `a.txt`: the commit and
its tree are stored, the blob that the tree names is not. -/
def missingBlobRepo : FS :=
  { files := [("a.txt", "hello"),
      (".simple_vcs/HEAD", "ref: refs/heads/master"),
      (".simple_vcs/refs/heads/master", "1f49a6a89c9537d2fdc62da9f3b60a85c98886e6"),
      (".simple_vcs/objects/9c7e48d50e43f144c1cd5a02526ebbece9eb9928",
        "blob aaf4c61ddcc5e8a2dabede0f3b482cd9aea9434d a.txt\n"),
      (".simple_vcs/objects/1f49a6a89c9537d2fdc62da9f3b60a85c98886e6",
        "tree 9c7e48d50e43f144c1cd5a02526ebbece9eb9928\nauthor Student\n" ++
          "timestamp 2024-01-01 10:00:00\nmessage first\n")],
    dirs := [".simple_vcs", ".simple_vcs/objects", ".simple_vcs/refs",
      ".simple_vcs/refs/heads"] }

/-- The repository `firstRepo` after `branch feature/x` and `checkout feature/x`: `HEAD`
tracks a branch whose name holds a `/`. -/
def nestedBranchRepo : FS := (cmd_checkout (cmd_branch firstRepo ["feature/x"]).1 "feature/x").1

/-- The repository `initRepo` after `branch feature/x`: `refs/heads` holds the directory
`feature` and in it the ref `x`. -/
def nestedRefRepo : FS := (cmd_branch initRepo ["feature/x"]).1

/-- The repository `firstRepo` after the working file `a.txt` was changed to `hello world`. -/
def editedRepo : FS := editWork firstRepo [("a.txt", "hello world")]

/-- The repository `initRepo` after `branch feature`: the new branch has no commit yet. -/
def emptyBranchRepo : FS := (cmd_branch initRepo ["feature"]).1

/-! ## Lemmas on association lists -/

theorem find_set_self (m : TreeMap) (k v : String) : (TreeMap.set m k v).find k = some v := by
  induction m with
  | nil => simp [TreeMap.set, TreeMap.find]
  | cons e m ih =>
    by_cases hk : e.1 = k
    · simp [TreeMap.set, TreeMap.find, hk]
    · simp [TreeMap.set, TreeMap.find, hk, ih]

theorem find_set_other (m : TreeMap) (k v q : String) (hq : q ≠ k) :
    (TreeMap.set m k v).find q = m.find q := by
  induction m with
  | nil => simp [TreeMap.set, TreeMap.find, Ne.symm hq]
  | cons e m ih =>
    by_cases hk : e.1 = k
    · have : ¬ e.1 = q := fun h => hq (h ▸ hk)
      simp [TreeMap.set, TreeMap.find, hk, Ne.symm hq, this]
    · by_cases hqe : e.1 = q
      · simp only [TreeMap.set, if_neg hk, TreeMap.find, if_pos hqe]
      · simp only [TreeMap.set, if_neg hk, TreeMap.find, if_neg hqe, ih]

theorem set_of_find_none (m : TreeMap) (k v : String) (h : m.find k = none) :
    TreeMap.set m k v = m ++ [(k, v)] := by
  induction m with
  | nil => rfl
  | cons e m ih =>
    by_cases hk : e.1 = k
    · simp [TreeMap.find, hk] at h
    · simp only [TreeMap.find, hk, if_false] at h
      simp [TreeMap.set, hk, ih h]

theorem find_eq_none_iff (m : TreeMap) (k : String) : m.find k = none ↔ k ∉ m.map Prod.fst := by
  induction m with
  | nil => simp [TreeMap.find]
  | cons e m ih =>
    by_cases hk : e.1 = k
    · simp [TreeMap.find, hk]
    · simp only [TreeMap.find, hk, if_false, ih, List.map_cons, List.mem_cons, not_or]
      exact ⟨fun h => ⟨fun h2 => hk h2.symm, h⟩, fun h => h.2⟩

theorem find_of_mem (m : TreeMap) (hm : (m.map Prod.fst).Nodup) (k v : String) (h : (k, v) ∈ m) :
    m.find k = some v := by
  induction m with
  | nil => simp at h
  | cons e m ih =>
    simp only [List.map_cons, List.nodup_cons] at hm
    rcases List.mem_cons.1 h with h | h
    · subst h; simp [TreeMap.find]
    · have : e.1 ≠ k := fun he => hm.1 (he ▸ List.mem_map_of_mem Prod.fst h)
      simp [TreeMap.find, this, ih hm.2 h]

theorem mem_of_find (m : TreeMap) (k v : String) (h : m.find k = some v) : (k, v) ∈ m := by
  induction m with
  | nil => simp [TreeMap.find] at h
  | cons e m ih =>
    by_cases hk : e.1 = k
    · simp only [TreeMap.find, hk, if_true, Option.some.injEq] at h
      exact List.mem_cons.2 (Or.inl (by rw [← hk, ← h]))
    · simp only [TreeMap.find, hk, if_false] at h
      exact List.mem_cons_of_mem _ (ih h)

theorem keys_set (m : TreeMap) (k v : String) :
    (TreeMap.set m k v).map Prod.fst = if (m.find k).isSome then m.map Prod.fst
      else m.map Prod.fst ++ [k] := by
  induction m with
  | nil => simp [TreeMap.set, TreeMap.find]
  | cons e m ih =>
    by_cases hk : e.1 = k
    · simp [TreeMap.set, TreeMap.find, hk]
    · simp only [TreeMap.set, TreeMap.find, hk, if_false, List.map_cons, ih]
      split <;> simp

theorem nodup_keys_set (m : TreeMap) (k v : String) (hm : (m.map Prod.fst).Nodup) :
    ((TreeMap.set m k v).map Prod.fst).Nodup := by
  rw [keys_set]
  split
  · exact hm
  · rename_i h
    have hn : m.find k = none := by
      cases hf : m.find k with
      | none => rfl
      | some x => simp [hf] at h
    have := (find_eq_none_iff m k).1 hn
    exact List.Nodup.append hm (by simp) (by simpa using this)

theorem count_key_le_one (m : TreeMap) (hm : (m.map Prod.fst).Nodup) (k : String) :
    (m.filter (fun e => e.1 = k)).length = if (m.find k).isSome then 1 else 0 := by
  induction m with
  | nil => simp [TreeMap.find]
  | cons e m ih =>
    simp only [List.map_cons, List.nodup_cons] at hm
    by_cases hk : e.1 = k
    · have hn : TreeMap.find m k = none := (find_eq_none_iff m k).2 (hk ▸ hm.1)
      have := ih hm.2
      simp only [hn, Option.isSome_none, Bool.false_eq_true, if_false] at this
      simp [TreeMap.find, hk, List.filter_cons, this]
    · simp [TreeMap.find, hk, List.filter_cons, ih hm.2]

/-! ## The digest function and the object store -/

theorem getD_reverse_nat (w : List Nat) (i : Nat) (h : i < w.length) :
    w.reverse.getD i 0 = w.getD (w.length - 1 - i) 0 := by
  rw [List.getD_eq_getElem _ _ (by simpa using h), List.getD_eq_getElem _ _ (by omega),
    List.getElem_reverse]

theorem foldl_extendStep (k : Nat) : ∀ (w : List Nat), 16 ≤ w.length →
    (List.range' w.length k).foldl extendStep w = (extendRev k w.reverse).reverse := by
  induction k with
  | zero => intro w _; simp [extendRev]
  | succ k ih =>
    intro w hw
    have h2 := getD_reverse_nat w 2 (by omega)
    have h7 := getD_reverse_nat w 7 (by omega)
    have h13 := getD_reverse_nat w 13 (by omega)
    have h15 := getD_reverse_nat w 15 (by omega)
    have e3 : w.length - 1 - 2 = w.length - 3 := by omega
    have e8 : w.length - 1 - 7 = w.length - 8 := by omega
    have e14 : w.length - 1 - 13 = w.length - 14 := by omega
    have e16 : w.length - 1 - 15 = w.length - 16 := by omega
    rw [e3] at h2; rw [e8] at h7; rw [e14] at h13; rw [e16] at h15
    rw [List.range'_succ, List.foldl_cons]
    have hlen : (extendStep w w.length).length = w.length + 1 := by simp [extendStep]
    have := ih (extendStep w w.length) (by omega)
    rw [hlen] at this
    rw [this]
    simp only [extendStep, extendRev, List.reverse_append, List.reverse_cons, List.reverse_nil,
      List.nil_append, List.singleton_append, h2, h7, h13, h15]

theorem schedule_eq (buf : List Nat) (chunk : Nat) :
    schedule buf chunk = (extendRev 64 (loadWords buf chunk).reverse).reverse := by
  have hl : (loadWords buf chunk).length = 16 := by simp [loadWords]
  have hr : (List.range 64).map (· + 16) = List.range' 16 64 := by decide
  have := foldl_extendStep 64 (loadWords buf chunk) (by omega)
  rw [hl] at this
  rw [← this, schedule, hr]

theorem padZeros_eq (fuel : Nat) : ∀ buf : List Nat,
    (56 + 64 - buf.length % 64) % 64 < fuel →
    padZeros fuel buf = buf ++ List.replicate ((56 + 64 - buf.length % 64) % 64) 0 := by
  induction fuel with
  | zero => intro buf h; omega
  | succ fuel ih =>
    intro buf h
    have hmod : buf.length * 8 % 2 ^ 64 % 512 = buf.length * 8 % 512 :=
      Nat.mod_mod_of_dvd _ (by norm_num)
    by_cases hc : buf.length % 64 = 56
    · have h0 : (56 + 64 - buf.length % 64) % 64 = 0 := by omega
      have hcond : ¬ (buf.length * 8 % 2 ^ 64 % 512 ≠ 448) := by rw [hmod]; omega
      rw [h0, padZeros, if_neg hcond]
      simp
    · have hcond : buf.length * 8 % 2 ^ 64 % 512 ≠ 448 := by rw [hmod]; omega
      have hlen : (buf ++ [0]).length = buf.length + 1 := by simp
      have hd : (56 + 64 - (buf.length + 1) % 64) % 64 + 1
          = (56 + 64 - buf.length % 64) % 64 := by omega
      rw [padZeros, if_pos hcond, ih (buf ++ [0]) (by rw [hlen]; omega), hlen, ← hd,
        List.replicate_succ]
      simp

theorem sha1Pad_eq (data : List Nat) : sha1Pad data = padClosed data := by
  have h := padZeros_eq 64 (data ++ [0x80]) (Nat.mod_lt _ (by decide))
  have hlen : (data ++ [0x80]).length = data.length + 1 := by simp
  rw [hlen] at h
  show padZeros 64 (data ++ [0x80]) ++ lengthTrailer (data.length * 8 % 2 ^ 64) = _
  rw [h, padClosed, List.append_assoc, List.append_assoc]
  rfl

theorem processChunk_eq (buf : List Nat) : processChunk buf = processChunkRev buf := by
  funext h chunk
  show _ = processChunkRev buf h chunk
  unfold processChunkRev
  rw [← schedule_eq]
  rfl

theorem sha1_eq_rev (data : String) : sha1 data = sha1Rev data := by
  show sha1Bytes (toBytes data) = sha1BytesRev (toBytes data)
  unfold sha1Bytes sha1BytesRev
  simp only [sha1Pad_eq, processChunk_eq]

set_option maxRecDepth 100000 in
/-- C1: `sha1` of the empty byte sequence and of the three bytes of `abc` are the published
SHA-1 reference digests. -/
theorem sha1_reference_digests :
    sha1 "" = "da39a3ee5e6b4b0d3255bfef95601890afd80709" ∧
    sha1 "abc" = "a9993e364706816aba3e25717850c26c9cd0d89d" := by
  rw [sha1_eq_rev, sha1_eq_rev]
  constructor <;> decide!

theorem isFile_writeAllBytes (s : FS) (p data : String) :
    (writeAllBytes s p data).1.isFile p = true := by
  simp [writeAllBytes, FS.isFile, create_directories, find_set_self]

theorem writeObjectIfMissing_isFile (s : FS) (b : String) :
    (writeObjectIfMissing s b).1.isFile (objectPath (sha1 b)) = true := by
  unfold writeObjectIfMissing
  by_cases h : s.isFile (objectPath (sha1 b)) = true
  · simp [h]
  · simp [h, isFile_writeAllBytes]

theorem writeObjectIfMissing_of_isFile (s : FS) (b : String)
    (h : s.isFile (objectPath (sha1 b)) = true) : writeObjectIfMissing s b = (s, sha1 b) := by
  simp [writeObjectIfMissing, h]

/-- C2: for every store state and byte sequence `b`, two calls of `writeObjectIfMissing` on `b`
return the same digest, the second call leaves the file system exactly as the first call left it,
and after the first call exactly one file of the store sits under that digest. -/
theorem writeObjectIfMissing_idempotent (s : FS) (b : String)
    (hs : (s.files.map Prod.fst).Nodup) :
    (writeObjectIfMissing (writeObjectIfMissing s b).1 b).2 = (writeObjectIfMissing s b).2 ∧
    (writeObjectIfMissing (writeObjectIfMissing s b).1 b).1 = (writeObjectIfMissing s b).1 ∧
    ((writeObjectIfMissing s b).1.files.filter
      (fun e => e.1 = objectPath (writeObjectIfMissing s b).2)).length = 1 := by
  have hf := writeObjectIfMissing_isFile s b
  refine ⟨rfl, ?_, ?_⟩
  · rw [writeObjectIfMissing_of_isFile _ _ hf]
  · have hn : ((writeObjectIfMissing s b).1.files.map Prod.fst).Nodup := by
      unfold writeObjectIfMissing
      by_cases h : s.isFile (objectPath (sha1 b)) = true
      · simpa [h] using hs
      · simpa [h, writeAllBytes, create_directories] using nodup_keys_set s.files _ _ hs
    rw [count_key_le_one _ hn]
    have : (writeObjectIfMissing s b).2 = sha1 b := rfl
    rw [this]
    simp only [FS.isFile] at hf
    simp [hf]

/-- Witness for C2: the empty store and the bytes `abc`. -/
theorem writeObjectIfMissing_idempotent_witness :
    (writeObjectIfMissing (writeObjectIfMissing ⟨[], []⟩ "abc").1 "abc").2
        = (writeObjectIfMissing ⟨[], []⟩ "abc").2 ∧
    (writeObjectIfMissing (writeObjectIfMissing ⟨[], []⟩ "abc").1 "abc").1
        = (writeObjectIfMissing ⟨[], []⟩ "abc").1 ∧
    ((writeObjectIfMissing ⟨[], []⟩ "abc").1.files.filter
      (fun e => e.1 = objectPath (writeObjectIfMissing ⟨[], []⟩ "abc").2)).length = 1 :=
  writeObjectIfMissing_idempotent ⟨[], []⟩ "abc" (by simp)

/-- C10: when the first line of `HEAD` does not start with `ref: `, `cmd_commit` returns the
exit code 1 and the whole file system (objects, refs, `HEAD`, working tree) is unchanged, for
every message. -/
theorem cmd_commit_detached_rejected (s : FS) (msg ts : String)
    (hd : ¬ "ref: ".data <+: (readFirstLine s HEAD_FILE).data) :
    cmd_commit s msg ts = (s, 1) := by
  have h : headIsRef s = none := by
    unfold headIsRef
    have : ¬ (readFirstLine s HEAD_FILE).data.take 5 = "ref: ".data := by
      intro h
      apply hd
      rw [List.prefix_iff_eq_take]
      exact h.symm
    simp [this]
  unfold cmd_commit
  simp only [h]
  split
  · rfl
  · split <;> rfl

/-! ## Lemmas on stream extraction -/

theorem takeWhile_append_stop (p : Char → Bool) (l : List Char) (c : Char) (r : List Char)
    (hl : ∀ x ∈ l, p x = true) (hc : p c = false) : (l ++ c :: r).takeWhile p = l := by
  induction l with
  | nil => simp [List.takeWhile, hc]
  | cons a l ih =>
    have ha : p a = true := hl a (List.mem_cons_self _ _)
    simp [List.takeWhile, ha, ih (fun x hx => hl x (List.mem_cons_of_mem _ hx))]

theorem dropWhile_append_stop (p : Char → Bool) (l : List Char) (c : Char) (r : List Char)
    (hl : ∀ x ∈ l, p x = true) (hc : p c = false) : (l ++ c :: r).dropWhile p = c :: r := by
  induction l with
  | nil => simp [List.dropWhile, hc]
  | cons a l ih =>
    have ha : p a = true := hl a (List.mem_cons_self _ _)
    simp [List.dropWhile, ha, ih (fun x hx => hl x (List.mem_cons_of_mem _ hx))]

/-- Extraction of a token that is followed by a white-space character. -/
theorem extract_token (pre : List Char) (tok : String) (c : Char) (r : List Char) (old : String)
    (hpre : ∀ x ∈ pre, isSpace x = true) (hne : tok ≠ "")
    (htok : ∀ x ∈ tok.data, isSpace x = false) (hc : isSpace c = true) :
    IStream.extract ⟨pre ++ (tok.data ++ c :: r), false, false⟩ old
      = (⟨c :: r, false, false⟩, tok) := by
  obtain ⟨td⟩ := tok
  cases td with
  | nil => exact absurd rfl hne
  | cons a t =>
    have ha : isSpace a = false := htok a (List.mem_cons_self _ _)
    have h1 : (pre ++ (a :: t ++ c :: r)).dropWhile isSpace = a :: (t ++ c :: r) := by
      have := dropWhile_append_stop isSpace pre a (t ++ c :: r) hpre ha
      simpa using this
    have h2 : (a :: (t ++ c :: r)).takeWhile (fun x => !isSpace x) = a :: t := by
      have := takeWhile_append_stop (fun x => !isSpace x) (a :: t) c r
        (fun x hx => by simp [htok x hx]) (by simp [hc])
      simpa using this
    have h3 : (a :: (t ++ c :: r)).dropWhile (fun x => !isSpace x) = c :: r := by
      have := dropWhile_append_stop (fun x => !isSpace x) (a :: t) c r
        (fun x hx => by simp [htok x hx]) (by simp [hc])
      simpa using this
    simp only [IStream.extract, IStream.good, Bool.not_false, Bool.and_self, if_true, h1]
    rw [h2, h3]
    simp

/-- Extraction of a line that ends with a newline character. -/
theorem getline_line (line : String) (r : List Char) (old : String)
    (hl : ∀ x ∈ line.data, x ≠ '\n') :
    IStream.getline ⟨line.data ++ '\n' :: r, false, false⟩ old = (⟨r, false, false⟩, line) := by
  have h1 : (line.data ++ '\n' :: r).dropWhile (fun x => x != '\n') = '\n' :: r :=
    dropWhile_append_stop _ _ _ _ (fun x hx => by simpa using hl x hx) (by simp)
  have h2 : (line.data ++ '\n' :: r).takeWhile (fun x => x != '\n') = line.data :=
    takeWhile_append_stop _ _ _ _ (fun x hx => by simpa using hl x hx) (by simp)
  simp only [IStream.getline, IStream.good, Bool.not_false, Bool.and_self, if_true, h1, h2]

/-- Extraction from an exhausted stream fails and keeps the old value. -/
theorem extract_end (pre : List Char) (old : String) (hpre : ∀ x ∈ pre, isSpace x = true) :
    (IStream.extract ⟨pre, false, false⟩ old).1.fail = true := by
  have h1 : pre.dropWhile isSpace = [] := by
    induction pre with
    | nil => rfl
    | cons a l ih =>
      simp [List.dropWhile, hpre a (List.mem_cons_self _ _),
        ih (fun x hx => hpre x (List.mem_cons_of_mem _ hx))]
  simp [IStream.extract, IStream.good, h1]

theorem extract_of_fail (s : IStream) (old : String) (h : s.fail = true) :
    (s.extract old).1.fail = true := by
  simp [IStream.extract, IStream.good, h]

theorem eraseLeadingSpace_space (k : String) : eraseLeadingSpace (" " ++ k) = k := by
  simp [eraseLeadingSpace, String.data_append]

/-! ## The tree codec -/

theorem blob_noSpace : ∀ x ∈ "blob".data, isSpace x = false := by decide

/-- One iteration of the loop of `readTreeObject` on a well-formed line. -/
theorem readTreeLoop_line (fuel : Nat) (k v : String) (r : List Char) (ty h p : String)
    (m : TreeMap) (hk : k ≠ "") (hkn : ∀ x ∈ k.data, x ≠ '\n') (hv : v ≠ "")
    (hvs : ∀ x ∈ v.data, isSpace x = false) :
    readTreeLoop (fuel + 1) ⟨("blob " ++ v ++ " " ++ k ++ "\n").data ++ r, false, false⟩ ty h p m
      = readTreeLoop fuel ⟨r, false, false⟩ "blob" v k (m.set k v) := by
  have e1 : IStream.extract ⟨("blob " ++ v ++ " " ++ k ++ "\n").data ++ r, false, false⟩ ty
      = (⟨' ' :: (v.data ++ ' ' :: ((" " ++ k).data.tail ++ '\n' :: r)), false, false⟩, "blob") := by
    have := extract_token [] "blob" ' ' (v.data ++ ' ' :: (k.data ++ '\n' :: r)) ty
      (by simp) (by decide) blob_noSpace (by decide)
    simpa [String.data_append] using this
  have e2 : IStream.extract
      ⟨' ' :: (v.data ++ ' ' :: ((" " ++ k).data.tail ++ '\n' :: r)), false, false⟩ h
      = (⟨(" " ++ k).data ++ '\n' :: r, false, false⟩, v) := by
    have := extract_token [' '] v ' ' (k.data ++ '\n' :: r) h (by simp [isSpace]) hv hvs
      (by decide)
    simpa [String.data_append] using this
  have e3 : IStream.getline ⟨(" " ++ k).data ++ '\n' :: r, false, false⟩ p
      = (⟨r, false, false⟩, " " ++ k) :=
    getline_line (" " ++ k) r p (by
      intro x hx
      simp only [String.data_append, List.mem_append] at hx
      rcases hx with hx | hx
      · have : x = ' ' := by simpa using hx
        rw [this]; decide
      · exact hkn x hx)
  simp only [readTreeLoop, e1, e2, e3, eraseLeadingSpace_space]
  simp [hk]

theorem linesText_cons (e : String × String) (es : List (String × String)) :
    (linesText (e :: es)).data = ("blob " ++ e.2 ++ " " ++ e.1 ++ "\n").data ++ (linesText es).data := by
  simp [linesText, String.data_join]

theorem readTreeLoop_lines (es : List (String × String)) (hes : ∀ e ∈ es, EntryOk e) :
    ∀ (fuel : Nat) (ty h p : String) (m : TreeMap), es.length < fuel →
      readTreeLoop fuel ⟨(linesText es).data, false, false⟩ ty h p m
        = some (es.foldl (fun a e => a.set e.1 e.2) m) := by
  induction es with
  | nil =>
    intro fuel ty h p m hf
    obtain ⟨n, rfl⟩ : ∃ n, fuel = n + 1 := ⟨fuel - 1, by simp at hf; omega⟩
    have h1 : (IStream.extract ⟨[], false, false⟩ ty).1.fail = true := extract_end [] ty (by simp)
    have h2 := extract_of_fail _ h h1
    simp [readTreeLoop, linesText, h2]
  | cons e es ih =>
    intro fuel ty h p m hf
    obtain ⟨n, rfl⟩ : ∃ n, fuel = n + 1 := ⟨fuel - 1, by simp at hf; omega⟩
    obtain ⟨h1, h2, h3, h4⟩ := hes e (List.mem_cons_self _ _)
    rw [linesText_cons, readTreeLoop_line n e.1 e.2 _ ty h p m h1 h2 h3 h4]
    rw [ih (fun x hx => hes x (List.mem_cons_of_mem _ hx)) n _ _ _ _ (by simpa using hf)]
    rfl

theorem foldl_set_append (es : List (String × String)) :
    ∀ m : TreeMap, ((m ++ es).map Prod.fst).Nodup →
      es.foldl (fun a e => TreeMap.set a e.1 e.2) m = m ++ es := by
  induction es with
  | nil => intro m _; simp
  | cons e es ih =>
    intro m hm
    have hn : TreeMap.find m e.1 = none := by
      rw [find_eq_none_iff]
      intro hmem
      simp only [List.map_append, List.map_cons] at hm
      have := (List.nodup_append.1 hm).2.2
      exact this hmem (List.mem_cons_self _ _)
    simp only [List.foldl_cons]
    rw [set_of_find_none m e.1 e.2 hn, ih (m ++ [(e.1, e.2)]) (by simpa using hm)]
    simp

theorem treeText_eq_linesText (m : TreeMap) : treeText m = linesText (sortedEntries m) := by
  simp [treeText, linesText, sortedEntries, List.map_map, Function.comp_def]

theorem sortedEntries_keys (m : TreeMap) : (sortedEntries m).map Prod.fst = sortedKeys m := by
  simp [sortedEntries, List.map_map, Function.comp_def]

theorem sortedEntries_perm (m : TreeMap) (hm : (m.map Prod.fst).Nodup) :
    (sortedEntries m).Perm m := by
  have h1 : (sortedKeys m).Perm (m.map Prod.fst) := List.perm_insertionSort _ _
  have h2 := h1.map (fun k => (k, TreeMap.at m k))
  have h3 : (m.map Prod.fst).map (fun k => (k, TreeMap.at m k)) = m := by
    rw [List.map_map]
    conv_rhs => rw [← List.map_id m]
    apply List.map_congr_left
    intro e he
    have := find_of_mem m hm e.1 e.2 he
    simp [TreeMap.at, this]
  rw [h3] at h2
  exact h2

theorem sortedKeys_sorted (m : TreeMap) (hm : (m.map Prod.fst).Nodup) :
    (sortedKeys m).Sorted (· < ·) := by
  have h1 : (sortedKeys m).Sorted (· ≤ ·) := List.sorted_insertionSort _ _
  have h2 : (sortedKeys m).Nodup := (List.perm_insertionSort _ _).nodup_iff.2 hm
  exact h1.lt_of_le h2

theorem find_perm (m m' : TreeMap) (hm : (m.map Prod.fst).Nodup) (hp : m'.Perm m) (k : String) :
    TreeMap.find m' k = TreeMap.find m k := by
  have hm' : (m'.map Prod.fst).Nodup := (hp.map Prod.fst).nodup_iff.2 hm
  cases h : TreeMap.find m k with
  | none =>
    rw [find_eq_none_iff] at h ⊢
    exact fun hk => h ((hp.map Prod.fst).mem_iff.1 hk)
  | some v => exact find_of_mem m' hm' k v (hp.mem_iff.2 (mem_of_find m k v h))

theorem treeText_perm (m m' : TreeMap) (hm : (m.map Prod.fst).Nodup) (hp : m'.Perm m) :
    treeText m' = treeText m := by
  have hm' : (m'.map Prod.fst).Nodup := (hp.map Prod.fst).nodup_iff.2 hm
  have hk : sortedKeys m' = sortedKeys m := by
    apply List.eq_of_perm_of_sorted (r := (· ≤ ·))
    · exact ((List.perm_insertionSort _ _).trans (hp.map Prod.fst)).trans
        (List.perm_insertionSort _ _).symm
    · exact List.sorted_insertionSort _ _
    · exact List.sorted_insertionSort _ _
  have ha : ∀ k, TreeMap.at m' k = TreeMap.at m k := fun k => by
    simp [TreeMap.at, find_perm m m' hm hp k]
  simp [treeText, hk, ha]

theorem snapshot_fold_nodup (l : List String) :
    ∀ acc : FS × TreeMap, (acc.2.map Prod.fst).Nodup →
      (((l.foldl snapshotStep acc).2).map Prod.fst).Nodup := by
  induction l with
  | nil => intro acc h; exact h
  | cons p l ih =>
    intro acc h
    apply ih
    show (List.map Prod.fst (if (makeBlobForFile acc.1 p).2 ≠ "" then
      TreeMap.set acc.2 p (makeBlobForFile acc.1 p).2 else acc.2)).Nodup
    split
    · exact nodup_keys_set _ _ _ h
    · exact h

theorem makeTreeObject_map_nodup (s : FS) : ((makeTreeObject s).2.2.map Prod.fst).Nodup :=
  snapshot_fold_nodup _ _ (by simp)

/-- C4: the tree text that `makeTreeObject` serialises for the mapping it collected is one line
`blob <digest> <path>\n` per entry of the mapping, in strictly increasing lexicographic order of
path; the digest returned is the digest of that text; and any snapshot that collects the same
mapping (the same entries in any order) yields the same tree text and the same tree digest. -/
theorem makeTreeObject_canonical (s : FS) :
    (∃ es : List (String × String), es.Perm (makeTreeObject s).2.2 ∧
      (es.map Prod.fst).Sorted (· < ·) ∧
      treeText (makeTreeObject s).2.2
        = String.join (es.map (fun e => "blob " ++ e.2 ++ " " ++ e.1 ++ "\n"))) ∧
    (makeTreeObject s).2.1 = sha1 (treeText (makeTreeObject s).2.2) ∧
    ∀ s' : FS, (makeTreeObject s').2.2.Perm (makeTreeObject s).2.2 →
      treeText (makeTreeObject s').2.2 = treeText (makeTreeObject s).2.2 ∧
      (makeTreeObject s').2.1 = (makeTreeObject s).2.1 := by
  have hm := makeTreeObject_map_nodup s
  refine ⟨⟨sortedEntries (makeTreeObject s).2.2, sortedEntries_perm _ hm, ?_, ?_⟩, rfl, ?_⟩
  · rw [sortedEntries_keys]; exact sortedKeys_sorted _ hm
  · rw [treeText_eq_linesText]; rfl
  · intro s' hp
    have ht := treeText_perm _ _ hm hp
    refine ⟨ht, ?_⟩
    show sha1 (treeText (makeTreeObject s').2.2) = sha1 (treeText (makeTreeObject s).2.2)
    rw [ht]

theorem linesText_length (es : List (String × String)) : es.length ≤ (linesText es).length := by
  induction es with
  | nil => simp
  | cons e es ih =>
    have : (linesText (e :: es)).length
        = ("blob " ++ e.2 ++ " " ++ e.1 ++ "\n").length + (linesText es).length := by
      show (linesText (e :: es)).data.length = _
      rw [linesText_cons, List.length_append]
      rfl
    rw [this]
    simp only [String.length_append, List.length_cons]
    have : ("\n" : String).length = 1 := rfl
    omega

theorem readTreeText_sorted (m : TreeMap) (hm : (m.map Prod.fst).Nodup)
    (hok : ∀ e ∈ m, EntryOk e) : readTreeText (treeText m) = some (sortedEntries m) := by
  have hp := sortedEntries_perm m hm
  have hok' : ∀ e ∈ sortedEntries m, EntryOk e := fun e he => hok e (hp.mem_iff.1 he)
  unfold readTreeText
  rw [treeText_eq_linesText]
  have := readTreeLoop_lines (sortedEntries m) hok' ((linesText (sortedEntries m)).length + 1)
    "" "" "" [] (Nat.lt_succ_of_le (linesText_length _))
  rw [IStream.ofString, this, foldl_set_append]
  · simp
  · simpa using (hp.map Prod.fst).nodup_iff.2 hm

/-! ## The commit codec -/

theorem nl_isSpace : ∀ x ∈ ['\n'], isSpace x = true := by decide

theorem readCommitLoop_tree (n : Nat) (t : String) (r : List Char) (key : String)
    (out : CommitFields) (ht : t ≠ "") (hts : ∀ x ∈ t.data, isSpace x = false) :
    readCommitLoop (n + 1) ⟨"tree".data ++ ' ' :: (t.data ++ '\n' :: r), false, false⟩ key out
      = readCommitLoop n ⟨'\n' :: r, false, false⟩ "tree" { out with tree := t } := by
  have e1 := extract_token [] "tree" ' ' (t.data ++ '\n' :: r) key (by simp) (by decide)
    (by decide) (by decide)
  have e2 := extract_token [' '] t '\n' r out.tree (by decide) ht hts (by decide)
  simp only [List.nil_append, List.singleton_append] at e1 e2
  simp only [readCommitLoop, e1, e2]
  simp

theorem readCommitLoop_parent (n : Nat) (p : String) (r : List Char) (key : String)
    (out : CommitFields) (hp : p ≠ "") (hps : ∀ x ∈ p.data, isSpace x = false) :
    readCommitLoop (n + 1)
        ⟨'\n' :: ("parent".data ++ ' ' :: (p.data ++ '\n' :: r)), false, false⟩ key out
      = readCommitLoop n ⟨'\n' :: r, false, false⟩ "parent" { out with parent := p } := by
  have e1 := extract_token ['\n'] "parent" ' ' (p.data ++ '\n' :: r) key nl_isSpace (by decide)
    (by decide) (by decide)
  have e2 := extract_token [' '] p '\n' r out.parent (by decide) hp hps (by decide)
  simp only [List.singleton_append] at e1 e2
  simp only [readCommitLoop, e1, e2]
  simp

theorem readCommitLoop_skip (n : Nat) (pre : List Char) (k line : String) (r : List Char)
    (key : String) (out : CommitFields) (hpre : ∀ x ∈ pre, isSpace x = true) (hk : k ≠ "")
    (hks : ∀ x ∈ k.data, isSpace x = false) (h1 : k ≠ "tree") (h2 : k ≠ "parent")
    (h3 : k ≠ "message") (hl : ∀ x ∈ line.data, x ≠ '\n') :
    readCommitLoop (n + 1) ⟨pre ++ (k.data ++ ' ' :: (line.data ++ '\n' :: r)), false, false⟩
        key out
      = readCommitLoop n ⟨r, false, false⟩ k out := by
  have e1 := extract_token pre k ' ' (line.data ++ '\n' :: r) key hpre hk hks (by decide)
  have e2 := getline_line (" " ++ line) r "" (by
    intro x hx
    simp only [String.data_append, List.mem_append] at hx
    rcases hx with hx | hx
    · have : x = ' ' := by simpa using hx
      rw [this]; decide
    · exact hl x hx)
  have e3 : (" " ++ line).data ++ '\n' :: r = ' ' :: (line.data ++ '\n' :: r) := by
    simp [String.data_append]
  rw [e3] at e2
  simp only [readCommitLoop, e1, e2]
  simp [h1, h2, h3]

theorem readCommitLoop_message (n : Nat) (m : String) (r : List Char) (key : String)
    (out : CommitFields) (hm : ∀ x ∈ m.data, x ≠ '\n') :
    readCommitLoop (n + 1) ⟨"message".data ++ ' ' :: (m.data ++ '\n' :: r), false, false⟩ key out
      = readCommitLoop n ⟨r, false, false⟩ "message" { out with message := m } := by
  have e1 := extract_token [] "message" ' ' (m.data ++ '\n' :: r) key (by simp) (by decide)
    (by decide) (by decide)
  have e2 := getline_line (" " ++ m) r out.message (by
    intro x hx
    simp only [String.data_append, List.mem_append] at hx
    rcases hx with hx | hx
    · have : x = ' ' := by simpa using hx
      rw [this]; decide
    · exact hm x hx)
  have e3 : (" " ++ m).data ++ '\n' :: r = ' ' :: (m.data ++ '\n' :: r) := by
    simp [String.data_append]
  rw [e3] at e2
  simp only [List.nil_append] at e1
  simp only [readCommitLoop, e1, e2, eraseLeadingSpace_space]
  simp

theorem readCommitLoop_end (n : Nat) (key : String) (out : CommitFields) :
    readCommitLoop (n + 1) ⟨[], false, false⟩ key out = some out := by
  have h1 := extract_end [] key (by simp)
  simp [readCommitLoop, h1]

theorem readCommitLoop_tail (n : Nat) (ts m key : String) (out : CommitFields)
    (hts : ∀ x ∈ ts.data, x ≠ '\n') (hm : ∀ x ∈ m.data, x ≠ '\n') :
    readCommitLoop (n + 4)
        ⟨['\n'] ++ ("author".data ++ ' ' :: ("Student".data ++ '\n' ::
          ([] ++ ("timestamp".data ++ ' ' :: (ts.data ++ '\n' ::
            ("message".data ++ ' ' :: (m.data ++ '\n' :: []))))))), false, false⟩ key out
      = some { out with message := m } := by
  rw [readCommitLoop_skip (n + 3) ['\n'] "author" "Student" _ key out nl_isSpace (by decide)
    (by decide) (by decide) (by decide) (by decide) (by decide)]
  rw [readCommitLoop_skip (n + 2) [] "timestamp" ts _ "author" out (by simp) (by decide)
    (by decide) (by decide) (by decide) (by decide) hts]
  rw [readCommitLoop_message (n + 1) m [] "timestamp" out hm]
  rw [readCommitLoop_end]

theorem commitText_data_root (t ts m : String) :
    (commitText t "" ts m).data = "tree".data ++ ' ' :: (t.data ++ '\n' ::
      ("author".data ++ ' ' :: ("Student".data ++ '\n' ::
          ([] ++ ("timestamp".data ++ ' ' :: (ts.data ++ '\n' ::
            ("message".data ++ ' ' :: (m.data ++ '\n' :: [])))))))) := by
  simp [commitText, String.data_append]

theorem commitText_data_child (t p ts m : String) (hp : p ≠ "") :
    (commitText t p ts m).data = "tree".data ++ ' ' :: (t.data ++ '\n' ::
      ("parent".data ++ ' ' :: (p.data ++ '\n' ::
        ("author".data ++ ' ' :: ("Student".data ++ '\n' ::
          ([] ++ ("timestamp".data ++ ' ' :: (ts.data ++ '\n' ::
            ("message".data ++ ' ' :: (m.data ++ '\n' :: [])))))))))) := by
  simp [commitText, String.data_append, hp]

theorem commitText_length (t p ts m : String) : 7 ≤ (commitText t p ts m).length := by
  have : ("tree " : String).length = 5 := rfl
  have : ("author Student\n" : String).length = 15 := rfl
  simp only [commitText, String.length_append]
  omega

theorem readCommitText_roundtrip (t p ts m : String)
    (ht : t ≠ "") (hts : ∀ x ∈ t.data, isSpace x = false)
    (hp : ∀ x ∈ p.data, isSpace x = false)
    (htime : ∀ x ∈ ts.data, x ≠ '\n') (hm : ∀ x ∈ m.data, x ≠ '\n') :
    readCommitText (commitText t p ts m) = some { tree := t, parent := p, message := m } := by
  obtain ⟨n, hn⟩ : ∃ n, (commitText t p ts m).length + 1 = n + 7 :=
    ⟨(commitText t p ts m).length + 1 - 7, by have := commitText_length t p ts m; omega⟩
  unfold readCommitText
  rw [hn, IStream.ofString]
  by_cases hpe : p = ""
  · subst hpe
    rw [commitText_data_root, readCommitLoop_tree (n + 6) t _ _ _ ht hts]
    have := readCommitLoop_tail (n + 2) ts m "tree" { tree := t, parent := "", message := "" }
      htime hm
    simp only [List.singleton_append] at this
    rw [this]
    simp [ht]
  · rw [commitText_data_child t p ts m hpe, readCommitLoop_tree (n + 6) t _ _ _ ht hts,
      readCommitLoop_parent (n + 5) p _ _ _ hpe hp]
    have := readCommitLoop_tail (n + 1) ts m "parent" { tree := t, parent := p, message := "" }
      htime hm
    simp only [List.singleton_append] at this
    rw [this]
    simp [ht]

/-! ## Paths -/

theorem objectPath_ne_head (h : String) : objectPath h ≠ HEAD_FILE := by
  intro e
  have := congrArg String.data e
  simp [objectPath, HEAD_FILE, String.data_append] at this

theorem objectPath_ne_branchPath (h n : String) : objectPath h ≠ branchPath n := by
  intro e
  have := congrArg String.data e
  simp [objectPath, branchPath, String.data_append] at this

theorem branchPath_ne_head (n : String) : branchPath n ≠ HEAD_FILE := by
  intro e
  have := congrArg String.data e
  simp [branchPath, HEAD_FILE, String.data_append] at this

theorem branchPath_inj (a b : String) (h : branchPath a = branchPath b) : a = b := by
  have := congrArg String.data h
  simp only [branchPath, String.data_append, List.append_cancel_left_eq] at this
  exact String.ext this

theorem vcsPath_refs_heads (n : String) : vcsPath ("refs/heads/" ++ n) = branchPath n := by
  apply String.ext
  simp [vcsPath, branchPath, String.data_append]

theorem splitPath_vcs_prefix (r : List Char) :
    splitPath (".simple_vcs/".data ++ r) = ".simple_vcs".data :: splitPath r := by
  simp [splitPath]

theorem underVcsDir_objectPath (h : String) : underVcsDir (objectPath h) = true := by
  simp [underVcsDir, objectPath, String.data_append, VCS_DIR, splitPath]

theorem underVcsDir_branchPath (h : String) : underVcsDir (branchPath h) = true := by
  simp [underVcsDir, branchPath, String.data_append, VCS_DIR, splitPath]

theorem underVcsDir_head : underVcsDir HEAD_FILE = true := by decide

theorem hexDigit_mem (n : Nat) : hexDigit n ∈ "0123456789abcdef".data := by
  unfold hexDigit
  have h : n % 16 < 16 := Nat.mod_lt _ (by decide)
  generalize n % 16 = k at h
  interval_cases k <;> decide

theorem hex8_mem (x : Nat) : ∀ c ∈ hex8 x, c ∈ "0123456789abcdef".data := by
  intro c hc
  simp only [hex8, List.mem_map] at hc
  obtain ⟨i, _, rfl⟩ := hc
  exact hexDigit_mem _

theorem sha1_hex (b : String) : ∀ c ∈ (sha1 b).data, c ∈ "0123456789abcdef".data := by
  intro c hc
  simp only [sha1, sha1Bytes, List.mem_append] at hc
  rcases hc with (((hc | hc) | hc) | hc) | hc <;> exact hex8_mem _ c hc

theorem sha1_length (b : String) : (sha1 b).data.length = 40 := by
  simp [sha1, sha1Bytes, hex8]

theorem sha1_ne_empty (b : String) : sha1 b ≠ "" := by
  intro h
  have := sha1_length b
  rw [h] at this
  simp at this

theorem hex_noSpace : ∀ c ∈ "0123456789abcdef".data, isSpace c = false ∧ c ≠ '\n' := by decide

theorem sha1_noSpace (b : String) : ∀ c ∈ (sha1 b).data, isSpace c = false :=
  fun c hc => (hex_noSpace c (sha1_hex b c hc)).1

theorem sha1_noNewline (b : String) : ∀ c ∈ (sha1 b).data, c ≠ '\n' :=
  fun c hc => (hex_noSpace c (sha1_hex b c hc)).2

/-! ## Reading and writing files -/

theorem readAllBytes_writeAllBytes_self (s : FS) (p d : String) :
    readAllBytes (writeAllBytes s p d).1 p = some d := by
  simp [readAllBytes, writeAllBytes, create_directories, find_set_self]

theorem readAllBytes_writeAllBytes_other (s : FS) (p d q : String) (h : q ≠ p) :
    readAllBytes (writeAllBytes s p d).1 q = readAllBytes s q := by
  simp [readAllBytes, writeAllBytes, create_directories, find_set_other _ _ _ _ h]

theorem readAllBytes_writeText_self (s : FS) (p d : String) :
    readAllBytes (writeText s p d).1 p = some d := by
  simp [readAllBytes, writeText, create_directories, find_set_self]

theorem readAllBytes_writeText_other (s : FS) (p d q : String) (h : q ≠ p) :
    readAllBytes (writeText s p d).1 q = readAllBytes s q := by
  simp [readAllBytes, writeText, create_directories, find_set_other _ _ _ _ h]

theorem readAllBytes_create_directories (s : FS) (d q : String) :
    readAllBytes (create_directories s d) q = readAllBytes s q := rfl

theorem isFile_iff (s : FS) (p : String) : s.isFile p = (readAllBytes s p).isSome := rfl

theorem dirs_fold_mono (l : List String) : ∀ (ds : List String) (d : String), d ∈ ds →
    d ∈ l.foldl (fun ds x => if x ∈ ds then ds else ds ++ [x]) ds := by
  induction l with
  | nil => intro ds d h; exact h
  | cons x l ih =>
    intro ds d h
    apply ih
    show d ∈ (if x ∈ ds then ds else ds ++ [x])
    split
    · exact h
    · exact List.mem_append_left _ h

theorem isDir_create_directories (s : FS) (d q : String) (h : s.isDir q = true) :
    (create_directories s d).isDir q = true := by
  have e : ∀ l : List String, l.contains q = true ↔ q ∈ l := fun l => by simp
  simp only [FS.isDir, e, create_directories] at h ⊢
  exact dirs_fold_mono _ _ _ h

theorem isDir_writeAllBytes (s : FS) (p d q : String) (h : s.isDir q = true) :
    (writeAllBytes s p d).1.isDir q = true :=
  isDir_create_directories s _ q h

/-- The line read by `readFirstLine` from a file that holds no newline is the whole file. -/
theorem readFirstLine_of_noNewline (s : FS) (p txt : String) (h : readAllBytes s p = some txt)
    (hn : ∀ c ∈ txt.data, c ≠ '\n') : readFirstLine s p = txt := by
  unfold readAllBytes at h
  have hd : txt.data.dropWhile (fun x => x != '\n') = [] := by
    rw [List.dropWhile_eq_nil_iff]
    intro x hx
    simpa using hn x hx
  simp [readFirstLine, h, IStream.ofString, IStream.getline, IStream.good, hd]

/-! ## The object store under writes -/

theorem StoreStep.refl (s : FS) : StoreStep s s :=
  ⟨fun _ _ => rfl, fun _ _ h => h, fun _ h => h⟩

theorem StoreStep.trans {s t u : FS} (h1 : StoreStep s t) (h2 : StoreStep t u) : StoreStep s u :=
  ⟨fun q hq => (h2.frame q hq).trans (h1.frame q hq),
   fun q c h => h2.ext q c (h1.ext q c h),
   fun d h => h2.dirs d (h1.dirs d h)⟩

theorem writeObjectIfMissing_fst (s : FS) (b : String) :
    (writeObjectIfMissing s b).1
      = if !s.isFile (objectPath (sha1 b)) then (writeAllBytes s (objectPath (sha1 b)) b).1
        else s := rfl

theorem writeObjectIfMissing_other (s : FS) (b q : String) (hq : q ≠ objectPath (sha1 b)) :
    readAllBytes (writeObjectIfMissing s b).1 q = readAllBytes s q := by
  rw [writeObjectIfMissing_fst]
  split
  · exact readAllBytes_writeAllBytes_other _ _ _ _ hq
  · rfl

theorem writeObjectIfMissing_step (s : FS) (b : String) :
    StoreStep s (writeObjectIfMissing s b).1 := by
  refine ⟨fun q hq => writeObjectIfMissing_other s b q (hq _), ?_, ?_⟩
  · intro q c h
    by_cases hq : q = objectPath (sha1 b)
    · subst hq
      have : s.isFile (objectPath (sha1 b)) = true := by simp [isFile_iff, h]
      rw [writeObjectIfMissing_of_isFile _ _ this]
      exact h
    · rw [writeObjectIfMissing_other s b q hq]; exact h
  · intro d h
    rw [writeObjectIfMissing_fst]
    split
    · exact isDir_writeAllBytes _ _ _ _ h
    · exact h

theorem writeObjectIfMissing_read (s : FS) (b : String) (h : Storable s b) :
    readAllBytes (writeObjectIfMissing s b).1 (objectPath (sha1 b)) = some b := by
  by_cases hf : s.isFile (objectPath (sha1 b)) = true
  · rw [writeObjectIfMissing_of_isFile _ _ hf]
    rw [isFile_iff, Option.isSome_iff_exists] at hf
    obtain ⟨c, hc⟩ := hf
    rw [hc, h c hc]
  · rw [writeObjectIfMissing_fst]
    simp [hf, readAllBytes_writeAllBytes_self]

/-- C5: for every mapping whose paths are non-empty and newline-free and whose digests are
non-empty and free of white space, parsing the tree text serialised for the mapping succeeds and
returns exactly the entries of the mapping; so does `readTreeObject` on the object that
`makeTreeObject` stores for that text, in every store that holds no other bytes under its
digest. -/
theorem readTreeText_treeText (m : TreeMap) (hm : (m.map Prod.fst).Nodup)
    (hpath : ∀ e ∈ m, e.1 ≠ "" ∧ ∀ x ∈ e.1.data, x ≠ '\n')
    (hdig : ∀ e ∈ m, e.2 ≠ "" ∧ ∀ x ∈ e.2.data, isSpace x = false) :
    ∃ m' : TreeMap, readTreeText (treeText m) = some m' ∧ m'.Perm m ∧
      (∀ k, TreeMap.find m' k = TreeMap.find m k) ∧
      ∀ s : FS, Storable s (treeText m) →
        readTreeObject (writeObjectIfMissing s (treeText m)).1
          (writeObjectIfMissing s (treeText m)).2 = some m' := by
  have hp := sortedEntries_perm m hm
  have hok : ∀ e ∈ m, EntryOk e := fun e he =>
    ⟨(hpath e he).1, (hpath e he).2, (hdig e he).1, (hdig e he).2⟩
  have hread := readTreeText_sorted m hm hok
  refine ⟨sortedEntries m, hread, hp, fun k => find_perm m _ hm hp k, ?_⟩
  intro s hs
  have hw := writeObjectIfMissing_read s (treeText m) hs
  show readTreeObject (writeObjectIfMissing s (treeText m)).1 (sha1 (treeText m)) = _
  unfold readTreeObject
  rw [hw]
  exact hread

/-- C6: for every non-empty tree digest without white space, every parent that is empty or a
digest without white space, every newline-free timestamp and every newline-free message,
parsing the text serialised by `makeCommitObject` succeeds and returns exactly that tree, that
parent (empty when absent) and that message; so does `readCommitObject` on the object that
`makeCommitObject` stores, in every store that holds no other bytes under its digest. -/
theorem readCommitText_commitText (t p ts m : String)
    (ht : t ≠ "") (hts : ∀ x ∈ t.data, isSpace x = false)
    (hp : ∀ x ∈ p.data, isSpace x = false)
    (htime : ∀ x ∈ ts.data, x ≠ '\n') (hm : ∀ x ∈ m.data, x ≠ '\n') :
    readCommitText (commitText t p ts m) = some { tree := t, parent := p, message := m } ∧
    ∀ s : FS, Storable s (commitText t p ts m) →
      readCommitObject (makeCommitObject s t p m ts).1 (makeCommitObject s t p m ts).2
        = some { tree := t, parent := p, message := m } := by
  have hread := readCommitText_roundtrip t p ts m ht hts hp htime hm
  refine ⟨hread, ?_⟩
  intro s hs
  have hw := writeObjectIfMissing_read s (commitText t p ts m) hs
  show readCommitObject (writeObjectIfMissing s (commitText t p ts m)).1
    (sha1 (commitText t p ts m)) = _
  unfold readCommitObject
  rw [hw]
  exact hread

/-! ## The snapshot -/

theorem snapshotStep_step (acc : FS × TreeMap) (p : String) :
    StoreStep acc.1 (snapshotStep acc p).1 := by
  show StoreStep acc.1 (makeBlobForFile acc.1 p).1
  unfold makeBlobForFile
  split
  · exact StoreStep.refl _
  · exact writeObjectIfMissing_step _ _

theorem snapshot_fold_step (l : List String) :
    ∀ acc : FS × TreeMap, StoreStep acc.1 (l.foldl snapshotStep acc).1 := by
  induction l with
  | nil => intro acc; exact StoreStep.refl _
  | cons p l ih => intro acc; exact (snapshotStep_step acc p).trans (ih _)

theorem makeTreeObject_step (s : FS) : StoreStep s (makeTreeObject s).1 :=
  (snapshot_fold_step (walkFiles s) (s, [])).trans (writeObjectIfMissing_step _ _)

theorem headIsRef_of_symbolic (s : FS) (name : String)
    (hhead : readFirstLine s HEAD_FILE = "ref: refs/heads/" ++ name) :
    headIsRef s = some ("refs/heads/" ++ name) := by
  unfold headIsRef
  rw [hhead]
  simp only [String.data_append]
  have h1 : ("ref: refs/heads/".data ++ name.data).take 5 = "ref: ".data := by
    simp
  have h2 : ("ref: refs/heads/".data ++ name.data).drop 5 = ("refs/heads/" ++ name).data := by
    simp [String.data_append]
  rw [if_pos h1, h2]

/-- The file system after a successful `cmd_commit` on a symbolic `HEAD`. -/
theorem cmd_commit_eq (s : FS) (name msg ts : String) (hrepo : isRepo s = true)
    (hhead : readFirstLine s HEAD_FILE = "ref: refs/heads/" ++ name) (hmsg : msg ≠ "") :
    cmd_commit s msg ts =
      ((writeText (makeCommitObject (makeTreeObject s).1 (makeTreeObject s).2.1
          (readFirstLine s (branchPath name)) msg ts).1 (branchPath name)
          (makeCommitObject (makeTreeObject s).1 (makeTreeObject s).2.1
            (readFirstLine s (branchPath name)) msg ts).2).1, 0) := by
  unfold cmd_commit
  simp only [hrepo, hmsg, headIsRef_of_symbolic s name hhead, vcsPath_refs_heads]
  simp

/-- C9 (amended): in a repository that stands for a real directory tree, with no directory
among its objects, whose `HEAD` is symbolic on the plain name `name`, where the ref file of
`name` can be written, for a non-empty newline-free message, a newline-free timestamp, a pointer
of `name` that holds no white space, and provided no other object already sits under the digest
of the new commit, `cmd_commit` succeeds; afterwards the ref `name` holds the digest of a stored
commit object that decodes to the snapshot digest, the old pointer of `name` as parent and the
message; `HEAD` and every ref with another plain name are unchanged. -/
theorem cmd_commit_symbolic (s : FS) (name msg ts : String)
    (_hwf : s.wellFormed = true) (_hflat : objectsFlat s = true)
    (_hname : plainName name = true) (_hw : canWrite s (branchPath name) = true)
    (hrepo : isRepo s = true)
    (hhead : readFirstLine s HEAD_FILE = "ref: refs/heads/" ++ name)
    (hmsg : msg ≠ "") (hmsgn : ∀ x ∈ msg.data, x ≠ '\n') (hts : ∀ x ∈ ts.data, x ≠ '\n')
    (hpar : ∀ x ∈ (readFirstLine s (branchPath name)).data, isSpace x = false)
    (hfree : Storable (makeTreeObject s).1
      (commitText (makeTreeObject s).2.1 (readFirstLine s (branchPath name)) ts msg)) :
    (cmd_commit s msg ts).2 = 0 ∧
    readCommitObject (cmd_commit s msg ts).1
        (readFirstLine (cmd_commit s msg ts).1 (branchPath name))
      = some { tree := (makeTreeObject s).2.1, parent := readFirstLine s (branchPath name),
               message := msg } ∧
    readAllBytes (cmd_commit s msg ts).1 HEAD_FILE = readAllBytes s HEAD_FILE ∧
    ∀ other, plainName other = true → other ≠ name →
      readAllBytes (cmd_commit s msg ts).1 (branchPath other)
        = readAllBytes s (branchPath other) := by
  rw [cmd_commit_eq s name msg ts hrepo hhead hmsg]
  have hstep : StoreStep s (makeCommitObject (makeTreeObject s).1 (makeTreeObject s).2.1
      (readFirstLine s (branchPath name)) msg ts).1 :=
    (makeTreeObject_step s).trans (writeObjectIfMissing_step _ _)
  have hd : (makeCommitObject (makeTreeObject s).1 (makeTreeObject s).2.1
      (readFirstLine s (branchPath name)) msg ts).2
      = sha1 (commitText (makeTreeObject s).2.1 (readFirstLine s (branchPath name)) ts msg) := rfl
  refine ⟨rfl, ?_, ?_, ?_⟩
  · rw [readFirstLine_of_noNewline _ _ _ (readAllBytes_writeText_self _ _ _)
      (by rw [hd]; exact sha1_noNewline _)]
    unfold readCommitObject
    rw [readAllBytes_writeText_other _ _ _ _ (by rw [hd]; exact objectPath_ne_branchPath _ _), hd]
    have := writeObjectIfMissing_read _ _ hfree
    unfold makeCommitObject
    rw [this]
    exact readCommitText_roundtrip _ _ _ _ (sha1_ne_empty _) (sha1_noSpace _) hpar hts hmsgn
  · rw [readAllBytes_writeText_other _ _ _ _ (Ne.symm (branchPath_ne_head _))]
    exact hstep.frame _ (fun h => Ne.symm (objectPath_ne_head h))
  · intro other _ ho
    rw [readAllBytes_writeText_other _ _ _ _ (fun h => ho (branchPath_inj _ _ h))]
    exact hstep.frame _ (fun h => Ne.symm (objectPath_ne_branchPath h other))

theorem storable_iff (s : FS) (b : String) : Storable s b ↔ storableB s b = true := by
  unfold Storable storableB
  cases h : readAllBytes s (objectPath (sha1 b)) with
  | none => simp
  | some c => simp

/-! ## Snapshot, clean and restore -/

theorem find_filter (m : TreeMap) (f : String → Bool) (q : String) :
    TreeMap.find (m.filter (fun e => f e.1)) q = if f q then TreeMap.find m q else none := by
  induction m with
  | nil => simp [TreeMap.find]
  | cons e m ih =>
    cases he : f e.1 with
    | true =>
      rw [List.filter_cons_of_pos (by simpa using he)]
      by_cases hq : e.1 = q
      · subst hq; simp [he, TreeMap.find]
      · simp only [TreeMap.find, if_neg hq, ih]
    | false =>
      rw [List.filter_cons_of_neg (by simp [he])]
      by_cases hq : e.1 = q
      · subst hq; rw [ih]; simp [he]
      · simp only [TreeMap.find, if_neg hq, ih]

theorem readAllBytes_clean (s : FS) (q : String) :
    readAllBytes (cleanWorkingDir s) q = if underVcsDir q then readAllBytes s q else none := by
  simp only [readAllBytes, cleanWorkingDir]
  exact find_filter s.files underVcsDir q

theorem snapshotMap_nodup (s : FS) (l : List String) :
    ∀ m : TreeMap, (m.map Prod.fst).Nodup → ((snapshotMap s l m).map Prod.fst).Nodup := by
  induction l with
  | nil => intro m h; exact h
  | cons p l ih => intro m h; exact ih _ (nodup_keys_set _ _ _ h)

/-- The effect of `restoreFromTree` when every blob named by the tree is stored and no path of
the tree is the path of an object. -/
theorem restoreFromTree_spec (es : TreeMap) :
    ∀ s : FS, (es.map Prod.fst).Nodup →
      (∀ e ∈ es, (∀ h, e.1 ≠ objectPath h) ∧ ∃ b, readAllBytes s (objectPath e.2) = some b) →
      (restoreFromTree s es).2 = true ∧
      ∀ q, readAllBytes (restoreFromTree s es).1 q =
        match TreeMap.find es q with
        | some h => readAllBytes s (objectPath h)
        | none => readAllBytes s q := by
  induction es with
  | nil => intro s _ _; simp [restoreFromTree, TreeMap.find]
  | cons e es ih =>
    intro s hn hes
    obtain ⟨hne, b, hb⟩ := hes e (List.mem_cons_self _ _)
    simp only [List.map_cons, List.nodup_cons] at hn
    have hb' : readAllBytes (create_directories s (parent_path e.1)) (objectPath e.2) = some b := hb
    have hstep : restoreFromTree s (e :: es)
        = restoreFromTree (writeAllBytes (create_directories s (parent_path e.1)) e.1 b).1 es := by
      simp only [restoreFromTree, hb']
    have hobj : ∀ h, readAllBytes (writeAllBytes (create_directories s (parent_path e.1)) e.1 b).1
        (objectPath h) = readAllBytes s (objectPath h) := fun h =>
      readAllBytes_writeAllBytes_other _ _ _ _ (Ne.symm (hne h))
    obtain ⟨r1, r2⟩ := ih (writeAllBytes (create_directories s (parent_path e.1)) e.1 b).1 hn.2
      (fun x hx => ⟨(hes x (List.mem_cons_of_mem _ hx)).1, by
        obtain ⟨b', hb'⟩ := (hes x (List.mem_cons_of_mem _ hx)).2
        exact ⟨b', by rw [hobj]; exact hb'⟩⟩)
    rw [hstep]
    refine ⟨r1, fun q => ?_⟩
    rw [r2 q]
    by_cases hq : e.1 = q
    · subst hq
      have hnone : TreeMap.find es e.1 = none := (find_eq_none_iff es e.1).2 hn.1
      simp only [hnone, TreeMap.find, if_true]
      rw [readAllBytes_writeAllBytes_self, hb]
    · simp only [TreeMap.find, if_neg hq]
      cases hf : TreeMap.find es q with
      | none => exact readAllBytes_writeAllBytes_other _ _ _ _ (Ne.symm hq)
      | some h => exact hobj h

theorem writeObjectIfMissing_eval (s : FS) (b h : String) (hh : sha1 b = h) :
    writeObjectIfMissing s b
      = (if s.isFile (objectPath h) then s else (writeAllBytes s (objectPath h) b).1, h) := by
  subst hh
  apply Prod.ext
  · rw [writeObjectIfMissing_fst]
    by_cases hf : s.isFile (objectPath (sha1 b)) = true <;> simp [hf]
  · rfl

theorem snapshot_fold_cons_eval (acc : FS × TreeMap) (p : String) (l : List String)
    (c h : String) (hc : readAllBytes acc.1 p = some c) (hh : sha1 c = h) :
    (p :: l).foldl snapshotStep acc
      = l.foldl snapshotStep
          (if acc.1.isFile (objectPath h) then acc.1
            else (writeAllBytes acc.1 (objectPath h) c).1, TreeMap.set acc.2 p h) := by
  have hstep : snapshotStep acc p = ((writeObjectIfMissing acc.1 c).1, TreeMap.set acc.2 p h) := by
    subst hh
    simp [snapshotStep, makeBlobForFile, hc, writeObjectIfMissing, sha1_ne_empty]
  rw [List.foldl_cons, hstep, writeObjectIfMissing_eval _ _ _ hh]

theorem makeTreeObject_eval (s : FS) (l : List String) (r : FS × TreeMap) (h : String)
    (hl : walkFiles s = l) (hr : l.foldl snapshotStep (s, []) = r)
    (hh : sha1 (treeText r.2) = h) :
    makeTreeObject s
      = (if r.1.isFile (objectPath h) then r.1
          else (writeAllBytes r.1 (objectPath h) (treeText r.2)).1, h, r.2) := by
  have e : makeTreeObject s
      = ((writeObjectIfMissing ((walkFiles s).foldl snapshotStep (s, [])).1
            (treeText ((walkFiles s).foldl snapshotStep (s, [])).2)).1,
          (writeObjectIfMissing ((walkFiles s).foldl snapshotStep (s, [])).1
            (treeText ((walkFiles s).foldl snapshotStep (s, [])).2)).2,
          ((walkFiles s).foldl snapshotStep (s, [])).2) := rfl
  rw [e, hl, hr, writeObjectIfMissing_eval _ _ _ hh]

theorem cmd_commit_eval (s : FS) (name msg ts : String) (hrepo : isRepo s = true)
    (hhead : readFirstLine s HEAD_FILE = "ref: refs/heads/" ++ name) (hmsg : msg ≠ "")
    (t : FS × String × TreeMap) (ht : makeTreeObject s = t) (p c : String)
    (hp : readFirstLine s (branchPath name) = p)
    (hc : sha1 (commitText t.2.1 p ts msg) = c) :
    cmd_commit s msg ts
      = ((writeText (if t.1.isFile (objectPath c) then t.1
            else (writeAllBytes t.1 (objectPath c) (commitText t.2.1 p ts msg)).1)
          (branchPath name) c).1, 0) := by
  rw [cmd_commit_eq s name msg ts hrepo hhead hmsg, ht, hp]
  unfold makeCommitObject
  rw [writeObjectIfMissing_eval _ _ _ hc]

theorem storable_eval (s : FS) (b h : String) (hh : sha1 b = h)
    (hs : (match readAllBytes s (objectPath h) with
      | some c => decide (c = b)
      | none => true) = true) : Storable s b := by
  subst hh
  exact (storable_iff s b).2 hs

set_option maxRecDepth 1000000 in
theorem sha1_hello : sha1 "hello" = "aaf4c61ddcc5e8a2dabede0f3b482cd9aea9434d" := by
  rw [sha1_eq_rev]; decide!

set_option maxRecDepth 1000000 in
theorem sha1_tree_hello :
    sha1 (treeText [("a.txt", "aaf4c61ddcc5e8a2dabede0f3b482cd9aea9434d")])
      = "9c7e48d50e43f144c1cd5a02526ebbece9eb9928" := by
  rw [sha1_eq_rev]; decide!

set_option maxRecDepth 1000000 in
theorem sha1_commit_first :
    sha1 (commitText "9c7e48d50e43f144c1cd5a02526ebbece9eb9928" "" "2024-01-01 10:00:00" "first")
      = "1f49a6a89c9537d2fdc62da9f3b60a85c98886e6" := by
  rw [sha1_eq_rev]; decide!

theorem walkFiles_initRepo : walkFiles initRepo = ["a.txt"] := by decide

theorem makeTreeObject_initRepo :
    makeTreeObject initRepo
      = ((writeAllBytes (writeAllBytes initRepo
            (objectPath "aaf4c61ddcc5e8a2dabede0f3b482cd9aea9434d") "hello").1
            (objectPath "9c7e48d50e43f144c1cd5a02526ebbece9eb9928")
            (treeText [("a.txt", "aaf4c61ddcc5e8a2dabede0f3b482cd9aea9434d")])).1,
          "9c7e48d50e43f144c1cd5a02526ebbece9eb9928",
          [("a.txt", "aaf4c61ddcc5e8a2dabede0f3b482cd9aea9434d")]) := by
  have hfold := snapshot_fold_cons_eval (initRepo, []) "a.txt" [] "hello"
    "aaf4c61ddcc5e8a2dabede0f3b482cd9aea9434d" (by decide) sha1_hello
  rw [makeTreeObject_eval initRepo ["a.txt"] _ "9c7e48d50e43f144c1cd5a02526ebbece9eb9928"
    walkFiles_initRepo hfold sha1_tree_hello]
  decide

/-! ## Witnesses and counterexamples -/

/-- Witness for C5: a mapping whose paths hold spaces, also leading and trailing ones. -/
theorem readTreeText_treeText_witness :
    ∃ m' : TreeMap, readTreeText (treeText spacedMap) = some m' ∧ m'.Perm spacedMap ∧
      (∀ k, TreeMap.find m' k = TreeMap.find spacedMap k) ∧
      ∀ s : FS, Storable s (treeText spacedMap) →
        readTreeObject (writeObjectIfMissing s (treeText spacedMap)).1
          (writeObjectIfMissing s (treeText spacedMap)).2 = some m' :=
  readTreeText_treeText spacedMap (by decide) (by decide) (by decide)

/-- Witness for C6: a root commit whose message starts with spaces. -/
theorem readCommitText_commitText_witness :
    readCommitText (commitText "0e0c6729" "" "2024-01-01 10:00:00" "  first commit")
      = some { tree := "0e0c6729", parent := "", message := "  first commit" } ∧
    ∀ s : FS, Storable s (commitText "0e0c6729" "" "2024-01-01 10:00:00" "  first commit") →
      readCommitObject
          (makeCommitObject s "0e0c6729" "" "  first commit" "2024-01-01 10:00:00").1
          (makeCommitObject s "0e0c6729" "" "  first commit" "2024-01-01 10:00:00").2
        = some { tree := "0e0c6729", parent := "", message := "  first commit" } :=
  readCommitText_commitText "0e0c6729" "" "2024-01-01 10:00:00" "  first commit"
    (by decide) (by decide) (by decide) (by decide) (by decide)

/-- Witness for C10: a commit in a repository whose `HEAD` is detached. -/
theorem cmd_commit_detached_rejected_witness :
    cmd_commit detachedRepo "x" "2024-01-01 10:00:00" = (detachedRepo, 1) :=
  cmd_commit_detached_rejected detachedRepo "x" "2024-01-01 10:00:00" (by decide)

/-- Witness for C9 (amended): the first commit in `initRepo`. -/
theorem cmd_commit_symbolic_witness :
    (cmd_commit initRepo "first" "2024-01-01 10:00:00").2 = 0 ∧
    readCommitObject (cmd_commit initRepo "first" "2024-01-01 10:00:00").1
        (readFirstLine (cmd_commit initRepo "first" "2024-01-01 10:00:00").1
          (branchPath "master"))
      = some { tree := (makeTreeObject initRepo).2.1,
               parent := readFirstLine initRepo (branchPath "master"), message := "first" } ∧
    readAllBytes (cmd_commit initRepo "first" "2024-01-01 10:00:00").1 HEAD_FILE
      = readAllBytes initRepo HEAD_FILE ∧
    ∀ other, plainName other = true → other ≠ "master" →
      readAllBytes (cmd_commit initRepo "first" "2024-01-01 10:00:00").1 (branchPath other)
        = readAllBytes initRepo (branchPath other) :=
  cmd_commit_symbolic initRepo "master" "first" "2024-01-01 10:00:00" (by decide) (by decide)
    (by decide) (by decide) (by decide) (by decide)
    (by decide) (by decide) (by decide) (by decide)
    (by
      rw [makeTreeObject_initRepo]
      exact storable_eval _ _ "1f49a6a89c9537d2fdc62da9f3b60a85c98886e6"
        sha1_commit_first (by decide))

set_option maxRecDepth 1000000 in
theorem sha1_commit_newline :
    sha1 (commitText "9c7e48d50e43f144c1cd5a02526ebbece9eb9928" "" "2024-01-01 10:00:00"
        "x\ntree 0000")
      = "d27ebbc320967d0b3c01e4b5c822350644fbc5a2" := by
  rw [sha1_eq_rev]; decide!

theorem cmd_commit_initRepo_newline :
    cmd_commit initRepo "x\ntree 0000" "2024-01-01 10:00:00"
      = ((writeText (writeAllBytes (writeAllBytes (writeAllBytes initRepo
            (objectPath "aaf4c61ddcc5e8a2dabede0f3b482cd9aea9434d") "hello").1
            (objectPath "9c7e48d50e43f144c1cd5a02526ebbece9eb9928")
            (treeText [("a.txt", "aaf4c61ddcc5e8a2dabede0f3b482cd9aea9434d")])).1
            (objectPath "d27ebbc320967d0b3c01e4b5c822350644fbc5a2")
            (commitText "9c7e48d50e43f144c1cd5a02526ebbece9eb9928" "" "2024-01-01 10:00:00"
              "x\ntree 0000")).1
          (branchPath "master") "d27ebbc320967d0b3c01e4b5c822350644fbc5a2").1, 0) := by
  rw [cmd_commit_eval initRepo "master" "x\ntree 0000" "2024-01-01 10:00:00" (by decide)
    (by decide) (by decide) _ makeTreeObject_initRepo "" _ (by decide) sha1_commit_newline]
  decide

/-- Counterexample for C9 as stated: in `initRepo`, whose `HEAD` is symbolic on `master`, the
commit with the two-line message `x`, `tree 0000` succeeds, but the commit object that `master`
then points at decodes to the tree `0000`, which is not the digest of the snapshot. -/
theorem cmd_commit_newline_message :
    isRepo initRepo = true ∧
    readFirstLine initRepo HEAD_FILE = "ref: refs/heads/" ++ "master" ∧
    (cmd_commit initRepo "x\ntree 0000" "2024-01-01 10:00:00").2 = 0 ∧
    (readCommitObject (cmd_commit initRepo "x\ntree 0000" "2024-01-01 10:00:00").1
      (readFirstLine (cmd_commit initRepo "x\ntree 0000" "2024-01-01 10:00:00").1
        (branchPath "master"))).map (fun c => c.tree) = some "0000" ∧
    (makeTreeObject initRepo).2.1 = "9c7e48d50e43f144c1cd5a02526ebbece9eb9928" := by
  rw [cmd_commit_initRepo_newline, makeTreeObject_initRepo]
  decide

set_option maxRecDepth 1000000 in
theorem sha1_world : sha1 "world" = "7c211433f02071597741e6ff5a8ea34789abbf43" := by
  rw [sha1_eq_rev]; decide!

set_option maxRecDepth 1000000 in
theorem sha1_z : sha1 "z" = "395df8f7c51f007019cb30201c49e884b46b92fa" := by
  rw [sha1_eq_rev]; decide!

set_option maxRecDepth 1000000 in
theorem sha1_tree_trap :
    sha1 (treeText [("b.txt", "7c211433f02071597741e6ff5a8ea34789abbf43"),
        ("x\nblob 395df8f7c51f007019cb30201c49e884b46b92fa " ++
          ".simple_vcs/objects/7c211433f02071597741e6ff5a8ea34789abbf43",
          "395df8f7c51f007019cb30201c49e884b46b92fa")])
      = "513ee23c6d707be2b4edb31a8ee93e2d6ab966f4" := by
  rw [sha1_eq_rev]; decide!

set_option maxRecDepth 1000000 in
theorem sha1_commit_trap :
    sha1 (commitText "513ee23c6d707be2b4edb31a8ee93e2d6ab966f4" "" "2024-01-01 10:00:00" "first")
      = "0a90289a85bab01c74fcc9fc0c077f6e2689d1af" := by
  rw [sha1_eq_rev]; decide!

set_option maxRecDepth 1000000 in
theorem makeTreeObject_trap :
    makeTreeObject (cmd_init trapWork).1
      = ((writeAllBytes (writeAllBytes (writeAllBytes (cmd_init trapWork).1
            (objectPath "7c211433f02071597741e6ff5a8ea34789abbf43") "world").1
            (objectPath "395df8f7c51f007019cb30201c49e884b46b92fa") "z").1
            (objectPath "513ee23c6d707be2b4edb31a8ee93e2d6ab966f4")
            (treeText [("b.txt", "7c211433f02071597741e6ff5a8ea34789abbf43"),
              ("x\nblob 395df8f7c51f007019cb30201c49e884b46b92fa " ++
                ".simple_vcs/objects/7c211433f02071597741e6ff5a8ea34789abbf43",
                "395df8f7c51f007019cb30201c49e884b46b92fa")])).1,
          "513ee23c6d707be2b4edb31a8ee93e2d6ab966f4",
          [("b.txt", "7c211433f02071597741e6ff5a8ea34789abbf43"),
            ("x\nblob 395df8f7c51f007019cb30201c49e884b46b92fa " ++
              ".simple_vcs/objects/7c211433f02071597741e6ff5a8ea34789abbf43",
              "395df8f7c51f007019cb30201c49e884b46b92fa")]) := by
  have hfold := (snapshot_fold_cons_eval ((cmd_init trapWork).1, []) "b.txt"
      ["x\nblob 395df8f7c51f007019cb30201c49e884b46b92fa " ++
        ".simple_vcs/objects/7c211433f02071597741e6ff5a8ea34789abbf43"] "world"
      "7c211433f02071597741e6ff5a8ea34789abbf43" (by decide) sha1_world).trans
    (snapshot_fold_cons_eval _
      ("x\nblob 395df8f7c51f007019cb30201c49e884b46b92fa " ++
        ".simple_vcs/objects/7c211433f02071597741e6ff5a8ea34789abbf43") [] "z"
      "395df8f7c51f007019cb30201c49e884b46b92fa" (by decide) sha1_z)
  rw [makeTreeObject_eval (cmd_init trapWork).1 _ _ "513ee23c6d707be2b4edb31a8ee93e2d6ab966f4"
    (by decide) hfold sha1_tree_trap]
  decide!

set_option maxRecDepth 1000000 in
theorem trapRepo_eq :
    trapRepo
      = (writeText (writeAllBytes (writeAllBytes (writeAllBytes (writeAllBytes
            (cmd_init trapWork).1
            (objectPath "7c211433f02071597741e6ff5a8ea34789abbf43") "world").1
            (objectPath "395df8f7c51f007019cb30201c49e884b46b92fa") "z").1
            (objectPath "513ee23c6d707be2b4edb31a8ee93e2d6ab966f4")
            (treeText [("b.txt", "7c211433f02071597741e6ff5a8ea34789abbf43"),
              ("x\nblob 395df8f7c51f007019cb30201c49e884b46b92fa " ++
                ".simple_vcs/objects/7c211433f02071597741e6ff5a8ea34789abbf43",
                "395df8f7c51f007019cb30201c49e884b46b92fa")])).1
            (objectPath "0a90289a85bab01c74fcc9fc0c077f6e2689d1af")
            (commitText "513ee23c6d707be2b4edb31a8ee93e2d6ab966f4" "" "2024-01-01 10:00:00"
              "first")).1
          (branchPath "master") "0a90289a85bab01c74fcc9fc0c077f6e2689d1af").1 := by
  unfold trapRepo
  rw [cmd_commit_eval (cmd_init trapWork).1 "master" "first" "2024-01-01 10:00:00" (by decide)
    (by decide) (by decide) _ makeTreeObject_trap "" _ (by decide) sha1_commit_trap]
  decide!

set_option maxRecDepth 1000000 in
/-- C3 (evaluation at the failing input): after `init` and `commit` in `trapWork` the store
holds the blob `world` under its digest; `checkout master` succeeds and leaves the bytes `z`
under that digest. -/
theorem cmd_checkout_overwrites_object :
    sha1 "world" = "7c211433f02071597741e6ff5a8ea34789abbf43" ∧
    readAllBytes trapRepo (objectPath "7c211433f02071597741e6ff5a8ea34789abbf43")
      = some "world" ∧
    (cmd_checkout trapRepo "master").2 = 0 ∧
    readAllBytes (cmd_checkout trapRepo "master").1
      (objectPath "7c211433f02071597741e6ff5a8ea34789abbf43") = some "z" := by
  refine ⟨sha1_world, ?_⟩
  rw [trapRepo_eq]
  decide!

/-! ## Checkout -/

theorem isFile_writeAllBytes_mono (s : FS) (p d q : String) (h : s.isFile q = true) :
    (writeAllBytes s p d).1.isFile q = true := by
  by_cases hq : q = p
  · subst hq; exact isFile_writeAllBytes s q d
  · rw [isFile_iff, readAllBytes_writeAllBytes_other _ _ _ _ hq, ← isFile_iff]; exact h

/-- When every blob named by the map is stored, `restoreFromTree` succeeds. -/
theorem restoreFromTree_ok (m : TreeMap) : ∀ s : FS,
    (∀ e ∈ m, s.isFile (objectPath e.2) = true) → (restoreFromTree s m).2 = true := by
  induction m with
  | nil => intro s _; rfl
  | cons e m ih =>
    intro s h
    have he := h e (List.mem_cons_self _ _)
    rw [isFile_iff, Option.isSome_iff_exists] at he
    obtain ⟨b, hb⟩ := he
    have hb' : readAllBytes (create_directories s (parent_path e.1)) (objectPath e.2) = some b := hb
    have hstep : restoreFromTree s (e :: m)
        = restoreFromTree (writeAllBytes (create_directories s (parent_path e.1)) e.1 b).1 m := by
      simp only [restoreFromTree, hb']
    rw [hstep]
    apply ih
    intro x hx
    apply isFile_writeAllBytes_mono
    exact h x (List.mem_cons_of_mem _ hx)

/-- The commit digest that `cmd_checkout` resolves its argument to (lines 415-422). -/
theorem cmd_checkout_eq (s : FS) (target : String) (f : CommitFields) (m : TreeMap)
    (hrepo : isRepo s = true)
    (hne : (if s.pathExists (branchPath target) then readFirstLine s (branchPath target)
      else target) ≠ "")
    (hc : readCommitObject s (if s.pathExists (branchPath target)
      then readFirstLine s (branchPath target) else target) = some f)
    (ht : readTreeObject s f.tree = some m) :
    cmd_checkout s target =
      if (restoreFromTree (cleanWorkingDir s) m).2 then
        ((writeText (restoreFromTree (cleanWorkingDir s) m).1 HEAD_FILE
          (if s.pathExists (branchPath target) then "ref: refs/heads/" ++ target
            else target)).1, 0)
      else ((restoreFromTree (cleanWorkingDir s) m).1, 1) := by
  have hobj : s.isFile (objectPath (if s.pathExists (branchPath target)
      then readFirstLine s (branchPath target) else target)) = true := by
    rw [isFile_iff]
    unfold readCommitObject at hc
    cases hr : readAllBytes s (objectPath (if s.pathExists (branchPath target)
      then readFirstLine s (branchPath target) else target)) with
    | none => rw [hr] at hc; exact Option.noConfusion hc
    | some _ => rfl
  unfold cmd_checkout
  simp only [hrepo, Bool.not_true, Bool.false_eq_true, if_false, hne, hobj, hc, ht]
  cases hp : s.pathExists (branchPath target) <;>
    cases hr : (restoreFromTree (cleanWorkingDir s) m).2 <;> simp [hp, hr]

/-- A successful `cmd_checkout` went through every test of the function. -/
theorem cmd_checkout_success (s : FS) (target : String) (h : (cmd_checkout s target).2 = 0) :
    isRepo s = true ∧
    (if s.pathExists (branchPath target) then readFirstLine s (branchPath target)
      else target) ≠ "" ∧
    ∃ f m, readCommitObject s (if s.pathExists (branchPath target)
        then readFirstLine s (branchPath target) else target) = some f ∧
      readTreeObject s f.tree = some m ∧
      (restoreFromTree (cleanWorkingDir s) m).2 = true := by
  have hrepo : isRepo s = true := by
    cases hr : isRepo s with
    | true => rfl
    | false => simp [cmd_checkout, hr] at h
  have hne : (if s.pathExists (branchPath target) then readFirstLine s (branchPath target)
      else target) ≠ "" := by
    intro he
    simp [cmd_checkout, hrepo, he] at h
  refine ⟨hrepo, hne, ?_⟩
  cases hc : readCommitObject s (if s.pathExists (branchPath target)
        then readFirstLine s (branchPath target) else target) with
  | none =>
    exfalso
    unfold cmd_checkout at h
    simp only [hrepo, Bool.not_true, Bool.false_eq_true, if_false, hne, hc] at h
    split at h <;> simp at h
  | some f =>
    cases ht : readTreeObject s f.tree with
    | none =>
      exfalso
      unfold cmd_checkout at h
      simp only [hrepo, Bool.not_true, Bool.false_eq_true, if_false, hne, hc, ht] at h
      split at h <;> simp at h
    | some m =>
      refine ⟨f, m, rfl, ht, ?_⟩
      rw [cmd_checkout_eq s target f m hrepo hne hc ht] at h
      cases hr : (restoreFromTree (cleanWorkingDir s) m).2 with
      | true => rfl
      | false => simp [hr] at h

theorem pathExists_of_isFile (s : FS) (p : String) (h : s.isFile p = true) :
    s.pathExists p = true := by
  simp [FS.pathExists, h]

/-- C11 (amended): in a repository that stands for a real directory tree, with no directory
among its objects, for every plain name `target` that names an existing branch: when the pointer
of the branch is the digest of a stored commit whose tree object and blobs are stored, and the
paths of the tree can all be restored, `cmd_checkout` succeeds and sets `HEAD` to the symbolic
value `ref: refs/heads/<target>` (read back as the ref path `refs/heads/<target>` when the
target holds no newline); and when the pointer is empty it fails and changes nothing. -/
theorem cmd_checkout_branch (s : FS) (target : String)
    (_hwf : s.wellFormed = true) (_hflat : objectsFlat s = true)
    (_hname : plainName target = true) (hrepo : isRepo s = true)
    (hbr : s.isFile (branchPath target) = true) :
    (∀ f m, readFirstLine s (branchPath target) ≠ "" →
      readCommitObject s (readFirstLine s (branchPath target)) = some f →
      readTreeObject s f.tree = some m → (∀ e ∈ m, s.isFile (objectPath e.2) = true) →
      treePathsOk m = true →
      (cmd_checkout s target).2 = 0 ∧
      readAllBytes (cmd_checkout s target).1 HEAD_FILE = some ("ref: refs/heads/" ++ target) ∧
      ((∀ x ∈ target.data, x ≠ '\n') →
        headIsRef (cmd_checkout s target).1 = some ("refs/heads/" ++ target))) ∧
    (readFirstLine s (branchPath target) = "" → cmd_checkout s target = (s, 1)) := by
  have hp : s.pathExists (branchPath target) = true := pathExists_of_isFile _ _ hbr
  refine ⟨fun f m hne hc ht hb _ => ?_, fun he => ?_⟩
  · have hne' : (if s.pathExists (branchPath target) then readFirstLine s (branchPath target)
        else target) ≠ "" := by rw [hp, if_pos rfl]; exact hne
    have hc' : readCommitObject s (if s.pathExists (branchPath target)
        then readFirstLine s (branchPath target) else target) = some f := by
      rw [hp, if_pos rfl]; exact hc
    have hok : (restoreFromTree (cleanWorkingDir s) m).2 = true := by
      apply restoreFromTree_ok
      intro e he
      have := hb e he
      rw [isFile_iff] at this ⊢
      rw [readAllBytes_clean, underVcsDir_objectPath, if_pos rfl]
      exact this
    have hst := cmd_checkout_eq s target f m hrepo hne' hc' ht
    rw [hok, if_pos rfl, hp, if_pos rfl] at hst
    have hread : readAllBytes (cmd_checkout s target).1 HEAD_FILE
        = some ("ref: refs/heads/" ++ target) := by
      rw [hst]; exact readAllBytes_writeText_self _ _ _
    refine ⟨by rw [hst], hread, fun hn => ?_⟩
    apply headIsRef_of_symbolic
    apply readFirstLine_of_noNewline _ _ _ hread
    intro c hc
    rw [String.data_append, List.mem_append] at hc
    rcases hc with hc | hc
    · revert c; decide
    · exact hn c hc
  · simp [cmd_checkout, hrepo, hp, he]

theorem firstRepo_eq : firstRepo = firstRepoState := by
  unfold firstRepo
  rw [cmd_commit_eval initRepo "master" "first" "2024-01-01 10:00:00" (by decide)
    (by decide) (by decide) _ makeTreeObject_initRepo "" _ (by decide) sha1_commit_first]
  decide

/-- Witness for C11 (amended): `checkout master` in `firstRepo`, whose branch `master` points at
the first commit. -/
theorem cmd_checkout_branch_witness :
    (cmd_checkout firstRepo "master").2 = 0 ∧
    readAllBytes (cmd_checkout firstRepo "master").1 HEAD_FILE
      = some ("ref: refs/heads/" ++ "master") ∧
    ((∀ x ∈ "master".data, x ≠ '\n') →
      headIsRef (cmd_checkout firstRepo "master").1 = some ("refs/heads/" ++ "master")) :=
  (cmd_checkout_branch firstRepo "master" (by rw [firstRepo_eq]; decide)
    (by rw [firstRepo_eq]; decide) (by decide) (by rw [firstRepo_eq]; decide)
    (by rw [firstRepo_eq]; decide)).1
    { tree := "9c7e48d50e43f144c1cd5a02526ebbece9eb9928", parent := "", message := "first" }
    [("a.txt", "aaf4c61ddcc5e8a2dabede0f3b482cd9aea9434d")]
    (by rw [firstRepo_eq]; decide) (by rw [firstRepo_eq]; decide)
    (by rw [firstRepo_eq]; decide) (by rw [firstRepo_eq]; decide) (by decide)

/-- Counterexample for C11 as stated: after `init` and `branch feature` the target `feature`
names an existing branch, yet `checkout feature` fails (the branch has no commit) and `HEAD`
still tracks `master`. -/
theorem cmd_checkout_empty_branch :
    isRepo emptyBranchRepo = true ∧
    emptyBranchRepo.isFile (branchPath "feature") = true ∧
    (cmd_checkout emptyBranchRepo "feature").2 = 1 ∧
    headIsRef (cmd_checkout emptyBranchRepo "feature").1 = some "refs/heads/master" := by
  decide

/-! ## The parsers return on every text -/

theorem length_dropWhile_le (p : Char → Bool) (l : List Char) :
    (l.dropWhile p).length ≤ l.length := by
  induction l with
  | nil => simp
  | cons c l ih =>
    rw [List.dropWhile_cons]
    split
    · exact Nat.le_succ_of_le ih
    · exact Nat.le_refl _

theorem head_dropWhile_not (p : Char → Bool) (l : List Char) (c : Char) (r : List Char)
    (h : l.dropWhile p = c :: r) : p c = false := by
  induction l with
  | nil => simp at h
  | cons a l ih =>
    rw [List.dropWhile_cons] at h
    split at h
    · exact ih h
    · rename_i hp
      injection h with h1 _
      subst h1
      simpa using hp

/-- A formatted extraction that does not fail consumes at least one character and stores a
token that is not empty. -/
theorem extract_progress (s : IStream) (old : String) (h : (s.extract old).1.fail = false) :
    (s.extract old).1.rest.length < s.rest.length ∧ (s.extract old).2 ≠ "" ∧
    ((s.extract old).1.eof = true → (s.extract old).1.rest = []) := by
  unfold IStream.extract at h ⊢
  by_cases hg : s.good = true
  · simp only [hg, if_true] at h ⊢
    cases hd : s.rest.dropWhile isSpace with
    | nil => simp only [hd] at h; exact Bool.noConfusion h
    | cons c r =>
      simp only [hd]
      have hc : isSpace c = false := head_dropWhile_not _ _ _ _ hd
      have hle := length_dropWhile_le isSpace s.rest
      rw [hd] at hle
      have hle2 := length_dropWhile_le (fun x => !isSpace x) r
      have hdw : (c :: r).dropWhile (fun x => !isSpace x) = r.dropWhile (fun x => !isSpace x) := by
        rw [List.dropWhile_cons]; simp [hc]
      have htw : (c :: r).takeWhile (fun x => !isSpace x)
          = c :: r.takeWhile (fun x => !isSpace x) := by
        rw [List.takeWhile_cons]; simp [hc]
      rw [hdw, htw]
      refine ⟨?_, ?_, ?_⟩
      · simp only [List.length_cons] at hle; omega
      · intro he
        have := congrArg String.data he
        simp at this
      · intro he; simpa using he
  · simp only [hg] at h
    simp at h

theorem getline_rest_le (s : IStream) (old : String) :
    (s.getline old).1.rest.length ≤ s.rest.length := by
  unfold IStream.getline
  by_cases hg : s.good = true
  · simp only [hg, if_true]
    cases hd : s.rest.dropWhile (fun x => x != '\n') with
    | nil => simp
    | cons c r =>
      have hle := length_dropWhile_le (fun x => x != '\n') s.rest
      rw [hd] at hle
      simp only [List.length_cons] at hle
      show r.length ≤ _
      omega
  · simp [hg]

theorem extract_fail_of_fail (s : IStream) (old : String) (h : s.fail = true) :
    (s.extract old).1.fail = true := by
  simp [IStream.extract, IStream.good, h]

/-- The loop of `readTreeObject` returns once the fuel exceeds the length of the unread text, and
it keeps every property of the map that assignments of non-empty digests under non-empty paths
keep. -/
theorem readTreeLoop_inv (P : TreeMap → Prop)
    (hset : ∀ m k v, P m → k ≠ "" → v ≠ "" → P (TreeMap.set m k v)) :
    ∀ (fuel : Nat) (iss : IStream) (ty h p : String) (m : TreeMap),
      iss.rest.length < fuel → P m → ∃ m', readTreeLoop fuel iss ty h p m = some m' ∧ P m' := by
  intro fuel
  induction fuel with
  | zero => intro iss _ _ _ _ hf; omega
  | succ fuel ih =>
    intro iss ty h p m hf hm
    rw [readTreeLoop]
    by_cases hfail : ((iss.extract ty).1.extract h).1.fail = true
    · simp only [hfail, if_true]
      exact ⟨m, rfl, hm⟩
    · have hfail' : ((iss.extract ty).1.extract h).1.fail = false := by
        simpa using hfail
      simp only [hfail', Bool.false_eq_true, if_false]
      have h1 : (iss.extract ty).1.fail = false := by
        cases hx : (iss.extract ty).1.fail with
        | false => rfl
        | true => rw [extract_fail_of_fail _ _ hx] at hfail'; exact Bool.noConfusion hfail'
      have p1 := extract_progress iss ty h1
      have p2 := extract_progress (iss.extract ty).1 h hfail'
      have p3 := getline_rest_le ((iss.extract ty).1.extract h).1 p
      apply ih
      · omega
      · split
        · rename_i hc
          exact hset _ _ _ hm hc.2 p2.2.1
        · exact hm

theorem readTreeText_total (txt : String) : ∃ m, readTreeText txt = some m := by
  obtain ⟨m, hm, _⟩ := readTreeLoop_inv (fun _ => True) (fun _ _ _ _ _ _ => trivial)
    (txt.length + 1) (IStream.ofString txt) "" "" "" [] (Nat.lt_succ_self _)
    trivial
  exact ⟨m, hm⟩

/-- A decoded tree has distinct paths, and neither an empty path nor an empty digest. -/
theorem readTreeText_wf (txt : String) (m : TreeMap) (h : readTreeText txt = some m) :
    (m.map Prod.fst).Nodup ∧ ∀ e ∈ m, e.1 ≠ "" ∧ e.2 ≠ "" := by
  obtain ⟨m', hm', hP⟩ := readTreeLoop_inv
    (fun m => (m.map Prod.fst).Nodup ∧ ∀ e ∈ m, e.1 ≠ "" ∧ e.2 ≠ "")
    (fun m k v hm hk hv => ⟨nodup_keys_set m k v hm.1, fun e he => by
      by_cases hek : e.1 = k
      · have hf := find_of_mem _ (nodup_keys_set m k v hm.1) e.1 e.2 he
        rw [hek, find_set_self] at hf
        exact ⟨hek ▸ hk, (Option.some.inj hf) ▸ hv⟩
      · have hf := find_of_mem _ (nodup_keys_set m k v hm.1) e.1 e.2 he
        rw [find_set_other _ _ _ _ hek] at hf
        exact hm.2 _ (mem_of_find _ _ _ hf)⟩)
    (txt.length + 1) (IStream.ofString txt) "" "" "" [] (Nat.lt_succ_self _)
    ⟨by simp, by simp⟩
  have : m' = m := Option.some.inj (hm'.symm.trans h)
  exact this ▸ hP

theorem readTreeObject_of_isFile (s : FS) (h : String) (hf : s.isFile (objectPath h) = true) :
    ∃ m, readTreeObject s h = some m := by
  rw [isFile_iff, Option.isSome_iff_exists] at hf
  obtain ⟨txt, ht⟩ := hf
  obtain ⟨m, hm⟩ := readTreeText_total txt
  exact ⟨m, by simp [readTreeObject, ht, hm]⟩

/-! ## Checkout of a commit digest -/

/-- The function `restoreFromTree` leaves every file alone whose path the map does not name,
also when it fails. -/
theorem restoreFromTree_frame (m : TreeMap) : ∀ (s : FS) (q : String), q ∉ m.map Prod.fst →
    readAllBytes (restoreFromTree s m).1 q = readAllBytes s q := by
  induction m with
  | nil => intro s q _; rfl
  | cons e m ih =>
    intro s q hq
    simp only [List.map_cons, List.mem_cons, not_or] at hq
    cases hb : readAllBytes (create_directories s (parent_path e.1)) (objectPath e.2) with
    | none =>
      have : restoreFromTree s (e :: m) = (create_directories s (parent_path e.1), false) := by
        simp only [restoreFromTree, hb]
      rw [this]; rfl
    | some b =>
      have : restoreFromTree s (e :: m)
          = restoreFromTree (writeAllBytes (create_directories s (parent_path e.1)) e.1 b).1 m := by
        simp only [restoreFromTree, hb]
      rw [this, ih _ q hq.2, readAllBytes_writeAllBytes_other _ _ _ _ hq.1]
      rfl

/-- A digest is read back from `HEAD` as a detached head. -/
theorem head_of_digest (s : FS) (b : String) (h : readAllBytes s HEAD_FILE = some (sha1 b)) :
    headIsRef s = none ∧ currentCommitFromHEAD s = sha1 b := by
  have hl : readFirstLine s HEAD_FILE = sha1 b :=
    readFirstLine_of_noNewline s _ _ h (sha1_noNewline b)
  have hr : headIsRef s = none := by
    unfold headIsRef
    rw [hl]
    have hlen := sha1_length b
    cases hd : (sha1 b).data with
    | nil => rw [hd] at hlen; simp at hlen
    | cons c r =>
      have hc : c ∈ "0123456789abcdef".data := sha1_hex b c (by rw [hd]; exact List.mem_cons_self _ _)
      have hne : (c :: r).take 5 ≠ "ref: ".data := by
        intro he
        have : c = 'r' := by
          have := congrArg List.head? he
          simpa using this
        subst this
        revert hc; decide
      rw [if_neg (by rw [hd]; exact hne)]
  exact ⟨hr, by simp [currentCommitFromHEAD, hr, hl]⟩

theorem plainName_ne_empty (x : String) (h : plainName x = true) : x ≠ "" := by
  intro he
  subst he
  exact absurd h (by decide)

theorem treePathsOk_outside (m : TreeMap) (h : treePathsOk m = true) :
    ∀ e ∈ m, underVcsDir e.1 = false := by
  intro e he
  have := List.all_eq_true.1 h e he
  simp only [Bool.and_eq_true, Bool.not_eq_true'] at this
  exact this.1.2

/-- C12 (amended): in a repository that stands for a real directory tree, with no directory
among its objects, for every plain name `target` under which `refs/heads` holds no entry: when
the target names a stored object that decodes as a commit whose tree object is stored, that tree
decodes, and when moreover every blob it names is stored and the paths of the tree can all be
restored, `cmd_checkout` succeeds, writes the target to `HEAD` (a detached head when the target
is a digest) and changes no ref of a plain name; when the target names no stored object that
decodes as a commit, or the tree of the commit is a plain name under which no object is stored,
`cmd_checkout` fails and changes nothing. -/
theorem cmd_checkout_digest (s : FS) (target : String)
    (_hwf : s.wellFormed = true) (_hflat : objectsFlat s = true)
    (hname : plainName target = true) (hrepo : isRepo s = true)
    (hnb : s.pathExists (branchPath target) = false) :
    (∀ f, readCommitObject s target = some f →
      s.isFile (objectPath f.tree) = true →
      ∃ m, readTreeObject s f.tree = some m ∧
        ((∀ e ∈ m, s.isFile (objectPath e.2) = true) → treePathsOk m = true →
          (cmd_checkout s target).2 = 0 ∧
          readAllBytes (cmd_checkout s target).1 HEAD_FILE = some target ∧
          (∀ b, target = sha1 b → headIsRef (cmd_checkout s target).1 = none ∧
            currentCommitFromHEAD (cmd_checkout s target).1 = target) ∧
          ∀ name, plainName name = true →
            readAllBytes (cmd_checkout s target).1 (branchPath name)
              = readAllBytes s (branchPath name))) ∧
    ((readCommitObject s target = none ∨
        ∃ f, readCommitObject s target = some f ∧ plainName f.tree = true ∧
          s.isFile (objectPath f.tree) = false) →
      cmd_checkout s target = (s, 1)) := by
  have hne : target ≠ "" := plainName_ne_empty target hname
  refine ⟨fun f hc htree => ?_, fun h => ?_⟩
  · obtain ⟨m, hm⟩ := readTreeObject_of_isFile s f.tree htree
    refine ⟨m, hm, fun hb hpaths => ?_⟩
    have hne' : (if s.pathExists (branchPath target) then readFirstLine s (branchPath target)
        else target) ≠ "" := by rw [hnb]; simpa using hne
    have hc' : readCommitObject s (if s.pathExists (branchPath target)
        then readFirstLine s (branchPath target) else target) = some f := by
      rw [hnb]; simpa using hc
    have hok : (restoreFromTree (cleanWorkingDir s) m).2 = true := by
      apply restoreFromTree_ok
      intro e he
      have := hb e he
      rw [isFile_iff] at this ⊢
      rw [readAllBytes_clean, underVcsDir_objectPath, if_pos rfl]
      exact this
    have hst := cmd_checkout_eq s target f m hrepo hne' hc' hm
    rw [hok, if_pos rfl, hnb] at hst
    simp only [Bool.false_eq_true, if_false] at hst
    have hhead : readAllBytes (cmd_checkout s target).1 HEAD_FILE = some target := by
      rw [hst]; exact readAllBytes_writeText_self _ _ _
    refine ⟨by rw [hst], hhead, fun b hb' => ?_, fun name _ => ?_⟩
    · subst hb'
      exact head_of_digest _ b hhead
    · rw [hst, readAllBytes_writeText_other _ _ _ _ (branchPath_ne_head name),
        restoreFromTree_frame, readAllBytes_clean, underVcsDir_branchPath, if_pos rfl]
      intro hmem
      obtain ⟨e, he, hp⟩ := List.mem_map.1 hmem
      have := treePathsOk_outside m hpaths e he
      rw [hp, underVcsDir_branchPath] at this
      exact Bool.noConfusion this
  · unfold cmd_checkout
    simp only [hrepo, Bool.not_true, Bool.false_eq_true, if_false, hnb]
    rcases h with h | ⟨f, hf, _, ht⟩
    · simp only [hne, if_false, h]
      split <;> rfl
    · have hr : readTreeObject s f.tree = none := by
        rw [isFile_iff] at ht
        unfold readTreeObject
        cases hx : readAllBytes s (objectPath f.tree) with
        | none => rfl
        | some _ => rw [hx] at ht; simp at ht
      simp only [hne, if_false, hf, hr]
      split <;> rfl

/-- Witness for C12 (amended): `checkout` of the digest of the first commit in `firstRepo`. -/
theorem cmd_checkout_digest_witness :
    (cmd_checkout firstRepo "1f49a6a89c9537d2fdc62da9f3b60a85c98886e6").2 = 0 ∧
    headIsRef (cmd_checkout firstRepo "1f49a6a89c9537d2fdc62da9f3b60a85c98886e6").1 = none ∧
    currentCommitFromHEAD (cmd_checkout firstRepo "1f49a6a89c9537d2fdc62da9f3b60a85c98886e6").1
      = "1f49a6a89c9537d2fdc62da9f3b60a85c98886e6" ∧
    ∀ name, plainName name = true →
      readAllBytes (cmd_checkout firstRepo "1f49a6a89c9537d2fdc62da9f3b60a85c98886e6").1
        (branchPath name) = readAllBytes firstRepo (branchPath name) := by
  obtain ⟨m, hm, H⟩ := (cmd_checkout_digest firstRepo "1f49a6a89c9537d2fdc62da9f3b60a85c98886e6"
    (by rw [firstRepo_eq]; decide) (by rw [firstRepo_eq]; decide) (by decide)
    (by rw [firstRepo_eq]; decide) (by rw [firstRepo_eq]; decide)).1
    { tree := "9c7e48d50e43f144c1cd5a02526ebbece9eb9928", parent := "", message := "first" }
    (by rw [firstRepo_eq]; decide) (by rw [firstRepo_eq]; decide)
  have hm' : m = [("a.txt", "aaf4c61ddcc5e8a2dabede0f3b482cd9aea9434d")] := by
    have : readTreeObject firstRepo "9c7e48d50e43f144c1cd5a02526ebbece9eb9928"
        = some [("a.txt", "aaf4c61ddcc5e8a2dabede0f3b482cd9aea9434d")] := by
      rw [firstRepo_eq]; decide
    exact Option.some.inj (hm.symm.trans this)
  subst hm'
  obtain ⟨h1, _, h3, h4⟩ := H (by rw [firstRepo_eq]; decide) (by decide)
  exact ⟨h1, (h3 _ sha1_commit_first.symm).1, (h3 _ sha1_commit_first.symm).2, h4⟩

/-- Counterexample for C12 as stated: in `missingBlobRepo` the target names no branch and is the
digest of a stored object that decodes as a commit whose tree object is stored, yet
`cmd_checkout` fails (the blob of `a.txt` is not stored), `HEAD` stays symbolic on `master`, and
the working file `a.txt` is gone. -/
theorem cmd_checkout_missing_blob :
    isRepo missingBlobRepo = true ∧
    missingBlobRepo.pathExists (branchPath "1f49a6a89c9537d2fdc62da9f3b60a85c98886e6") = false ∧
    sha1 (commitText "9c7e48d50e43f144c1cd5a02526ebbece9eb9928" "" "2024-01-01 10:00:00" "first")
      = "1f49a6a89c9537d2fdc62da9f3b60a85c98886e6" ∧
    readAllBytes missingBlobRepo (objectPath "1f49a6a89c9537d2fdc62da9f3b60a85c98886e6")
      = some (commitText "9c7e48d50e43f144c1cd5a02526ebbece9eb9928" "" "2024-01-01 10:00:00"
          "first") ∧
    readCommitObject missingBlobRepo "1f49a6a89c9537d2fdc62da9f3b60a85c98886e6"
      = some { tree := "9c7e48d50e43f144c1cd5a02526ebbece9eb9928", parent := "",
               message := "first" } ∧
    missingBlobRepo.isFile (objectPath "9c7e48d50e43f144c1cd5a02526ebbece9eb9928") = true ∧
    (cmd_checkout missingBlobRepo "1f49a6a89c9537d2fdc62da9f3b60a85c98886e6").2 = 1 ∧
    readAllBytes (cmd_checkout missingBlobRepo "1f49a6a89c9537d2fdc62da9f3b60a85c98886e6").1
      HEAD_FILE = some "ref: refs/heads/master" ∧
    readAllBytes missingBlobRepo "a.txt" = some "hello" ∧
    readAllBytes (cmd_checkout missingBlobRepo "1f49a6a89c9537d2fdc62da9f3b60a85c98886e6").1
      "a.txt" = none :=
  ⟨by decide, by decide, sha1_commit_first, by decide, by decide, by decide, by decide,
    by decide, by decide, by decide⟩

/-! ## The working tree after checkout -/

/-- When `restoreFromTree` succeeds on a map none of whose paths is the path of an object, every
blob that the map names is stored. -/
theorem restoreFromTree_blobs (m : TreeMap) : ∀ s : FS, (restoreFromTree s m).2 = true →
    (∀ e ∈ m, ∀ h, e.1 ≠ objectPath h) →
    ∀ e ∈ m, ∃ b, readAllBytes s (objectPath e.2) = some b := by
  induction m with
  | nil => intro s _ _ e he; simp at he
  | cons x m ih =>
    intro s hok hne e he
    cases hb : readAllBytes (create_directories s (parent_path x.1)) (objectPath x.2) with
    | none =>
      have : restoreFromTree s (x :: m) = (create_directories s (parent_path x.1), false) := by
        simp only [restoreFromTree, hb]
      rw [this] at hok
      exact Bool.noConfusion hok
    | some b =>
      have hstep : restoreFromTree s (x :: m)
          = restoreFromTree (writeAllBytes (create_directories s (parent_path x.1)) x.1 b).1 m := by
        simp only [restoreFromTree, hb]
      rw [hstep] at hok
      rcases List.mem_cons.1 he with rfl | he'
      · exact ⟨b, hb⟩
      · obtain ⟨b', hb'⟩ := ih _ hok (fun y hy => hne y (List.mem_cons_of_mem _ hy)) e he'
        rw [readAllBytes_writeAllBytes_other _ _ _ _
          (Ne.symm (hne x (List.mem_cons_self _ _) e.2))] at hb'
        exact ⟨b', hb'⟩

theorem not_objectPath_of_not_under (p : String) (hp : underVcsDir p = false) (h : String) :
    p ≠ objectPath h := by
  intro he
  rw [he, underVcsDir_objectPath] at hp
  exact Bool.noConfusion hp

/-- The working tree after a successful `cmd_checkout` whose decoded tree names no path in the
metadata directory: exactly the paths of the tree, each with the bytes of its blob, and the
object store as it was. -/
theorem cmd_checkout_worktree (s : FS) (target : String) (f : CommitFields) (m : TreeMap)
    (hok : (cmd_checkout s target).2 = 0)
    (hc : readCommitObject s (if s.pathExists (branchPath target)
        then readFirstLine s (branchPath target) else target) = some f)
    (ht : readTreeObject s f.tree = some m)
    (hout : ∀ e ∈ m, underVcsDir e.1 = false) :
    (∀ q, underVcsDir q = false →
      readAllBytes (cmd_checkout s target).1 q =
        match TreeMap.find m q with
        | some h => readAllBytes s (objectPath h)
        | none => none) ∧
    (∀ e ∈ m, ∃ b, readAllBytes s (objectPath e.2) = some b) ∧
    ∀ h, readAllBytes (cmd_checkout s target).1 (objectPath h) = readAllBytes s (objectPath h) := by
  obtain ⟨hrepo, hne, f', m', hc', ht', hr⟩ := cmd_checkout_success s target hok
  have hf : f' = f := Option.some.inj (hc'.symm.trans hc)
  subst hf
  have hm : m' = m := Option.some.inj (ht'.symm.trans ht)
  subst hm
  have hst := cmd_checkout_eq s target f' m' hrepo hne hc ht
  rw [hr, if_pos rfl] at hst
  have hwf : (m'.map Prod.fst).Nodup := by
    unfold readTreeObject at ht
    cases hx : readAllBytes s (objectPath f'.tree) with
    | none => rw [hx] at ht; exact Option.noConfusion ht
    | some txt => rw [hx] at ht; exact (readTreeText_wf txt m' ht).1
  have hnobj : ∀ e ∈ m', ∀ h, e.1 ≠ objectPath h := fun e he h =>
    not_objectPath_of_not_under _ (hout e he) h
  have hblobs := restoreFromTree_blobs m' (cleanWorkingDir s) hr hnobj
  have hspec := restoreFromTree_spec m' (cleanWorkingDir s) hwf
    (fun e he => ⟨hnobj e he, hblobs e he⟩)
  have hcl : ∀ h, readAllBytes (cleanWorkingDir s) (objectPath h)
      = readAllBytes s (objectPath h) := fun h => by
    rw [readAllBytes_clean, underVcsDir_objectPath, if_pos rfl]
  have hhead : ∀ q, q ≠ HEAD_FILE → readAllBytes (cmd_checkout s target).1 q
      = readAllBytes (restoreFromTree (cleanWorkingDir s) m').1 q := fun q hq => by
    rw [hst]; exact readAllBytes_writeText_other _ _ _ _ hq
  refine ⟨fun q hq => ?_, fun e he => ?_, fun h => ?_⟩
  · have hqh : q ≠ HEAD_FILE := by
      intro he
      rw [he, underVcsDir_head] at hq
      exact Bool.noConfusion hq
    rw [hhead q hqh, hspec.2 q]
    cases hfq : TreeMap.find m' q with
    | none => simp only []; rw [readAllBytes_clean, hq]; rfl
    | some h => exact hcl h
  · obtain ⟨b, hb⟩ := hblobs e he
    exact ⟨b, by rw [← hcl]; exact hb⟩
  · rw [hhead _ (objectPath_ne_head h), restoreFromTree_frame, hcl]
    intro hmem
    obtain ⟨e, he, hp⟩ := List.mem_map.1 hmem
    exact hnobj e he h hp

set_option maxRecDepth 1000000 in
/-- C13 (evaluation at the failing input): `checkout master` in `trapRepo` succeeds; the tree of
the commit decodes to three paths, of which `.simple_vcs/objects/7c2114...` lies in the metadata
directory; afterwards the working tree holds `b.txt` and `x` only, and `b.txt` holds `world`
while the store holds `z` under the digest that the tree gives for `b.txt`. -/
theorem cmd_checkout_tree_names_metadata :
    readCommitObject trapRepo (readFirstLine trapRepo (branchPath "master"))
      = some { tree := "513ee23c6d707be2b4edb31a8ee93e2d6ab966f4", parent := "",
               message := "first" } ∧
    readTreeObject trapRepo "513ee23c6d707be2b4edb31a8ee93e2d6ab966f4"
      = some [("b.txt", "7c211433f02071597741e6ff5a8ea34789abbf43"),
          ("x", "395df8f7c51f007019cb30201c49e884b46b92fa"),
          (".simple_vcs/objects/7c211433f02071597741e6ff5a8ea34789abbf43",
            "395df8f7c51f007019cb30201c49e884b46b92fa")] ∧
    (cmd_checkout trapRepo "master").2 = 0 ∧
    (cmd_checkout trapRepo "master").1.files.filter (fun e => !underVcsDir e.1)
      = [("b.txt", "world"), ("x", "z")] ∧
    readAllBytes (cmd_checkout trapRepo "master").1
      (objectPath "7c211433f02071597741e6ff5a8ea34789abbf43") = some "z" := by
  rw [trapRepo_eq]
  decide!

/-! ## Branches -/

/-- The effect of the deleting branch of `cmd_branch`: it fails without any change for the name
that `currentBranchNameOrEmpty` returns and for a name without entry under `refs/heads`; for
every other name of a ref it removes that ref and nothing else. -/
theorem branchDelete_effect (s : FS) (del : String) :
    ((del = currentBranchNameOrEmpty s ∨ s.pathExists (branchPath del) = false) →
      branchDelete s del = (s, 1)) ∧
    (del ≠ currentBranchNameOrEmpty s → s.isFile (branchPath del) = true →
      (branchDelete s del).2 = 0 ∧
      readAllBytes (branchDelete s del).1 (branchPath del) = none ∧
      ∀ q, q ≠ branchPath del → readAllBytes (branchDelete s del).1 q = readAllBytes s q) := by
  refine ⟨fun h => ?_, fun hne hf => ?_⟩
  · unfold branchDelete
    rcases h with h | h
    · simp [h]
    · by_cases hc : del = currentBranchNameOrEmpty s
      · simp [hc]
      · simp [hc, h]
  · have hp : s.pathExists (branchPath del) = true := pathExists_of_isFile _ _ hf
    have hst : branchDelete s del
        = ({ s with files := s.files.filter (fun e => e.1 ≠ branchPath del) }, 0) := by
      simp [branchDelete, hne, hp, fs_remove, hf]
    have hfind : ∀ q, readAllBytes (branchDelete s del).1 q
        = if q ≠ branchPath del then readAllBytes s q else none := by
      intro q
      rw [hst]
      have := find_filter s.files (fun k => decide (k ≠ branchPath del)) q
      simpa [readAllBytes] using this
    refine ⟨by rw [hst], ?_, fun q hq => ?_⟩
    · rw [hfind]; simp
    · rw [hfind]; simp [hq]

/-- C14 (evaluation at the failing input): after `init`, `commit -m first`,
`branch feature/x` and `checkout feature/x`, the head tracks the existing branch `feature/x`,
for which `currentBranchNameOrEmpty` returns `x`; `branch -d feature/x` then returns 0 and
removes the ref that `HEAD` tracks, and `HEAD` still names it. -/
theorem cmd_branch_deletes_current :
    (cmd_branch firstRepo ["feature/x"]).2 = 0 ∧
    (cmd_checkout (cmd_branch firstRepo ["feature/x"]).1 "feature/x").2 = 0 ∧
    headIsRef nestedBranchRepo = some "refs/heads/feature/x" ∧
    nestedBranchRepo.isFile (branchPath "feature/x") = true ∧
    currentBranchNameOrEmpty nestedBranchRepo = "x" ∧
    (cmd_branch nestedBranchRepo ["-d", "feature/x"]).2 = 0 ∧
    (cmd_branch nestedBranchRepo ["-d", "feature/x"]).1.isFile (branchPath "feature/x") = false ∧
    headIsRef (cmd_branch nestedBranchRepo ["-d", "feature/x"]).1
      = some "refs/heads/feature/x" := by
  unfold nestedBranchRepo
  rw [firstRepo_eq]
  decide

theorem readFirstLine_noNewline (s : FS) (p : String) :
    ∀ c ∈ (readFirstLine s p).data, c ≠ '\n' := by
  intro c hc
  unfold readFirstLine at hc
  cases hf : TreeMap.find s.files p with
  | none => rw [hf] at hc; simp at hc
  | some txt =>
    rw [hf] at hc
    simp only [IStream.getline, IStream.ofString, IStream.good, Bool.not_false, Bool.and_self,
      if_true] at hc
    cases hd : txt.data.dropWhile (fun x => x != '\n') with
    | nil =>
      rw [hd] at hc
      have := (List.dropWhile_eq_nil_iff.1 hd) c hc
      simpa using this
    | cons a r =>
      rw [hd] at hc
      have := List.mem_takeWhile_imp hc
      simpa using this

theorem currentCommitFromHEAD_noNewline (s : FS) :
    ∀ c ∈ (currentCommitFromHEAD s).data, c ≠ '\n' := by
  unfold currentCommitFromHEAD
  cases headIsRef s with
  | none => exact readFirstLine_noNewline s _
  | some ref => exact readFirstLine_noNewline s _

/-- C15 (amended): in a repository that stands for a real directory tree, whose `HEAD`, when
symbolic, holds a plain ref path, and for a plain name `name`: the creating branch of
`cmd_branch`, which `cmd_branch` takes for every first argument other than `-d`, fails and
changes nothing when `refs/heads` already holds an entry of that name, be it a ref or a
directory; otherwise, when the ref file of `name` can be written, it returns 0 and adds the ref
`name` holding the commit currently resolved from `HEAD` (the pointer of the tracked branch
when `HEAD` is symbolic, the first line of `HEAD` when detached), and every other file of a
plain path (`HEAD`, every other ref, every object, the working tree) is as before. -/
theorem branchCreate_effect (s : FS) (name : String)
    (_hwf : s.wellFormed = true) (_hname : plainName name = true)
    (_hhead : headPlain s = true) (hrepo : isRepo s = true) :
    (s.pathExists (branchPath name) = true → branchCreate s name = (s, 1)) ∧
    (s.pathExists (branchPath name) = false → canWrite s (branchPath name) = true →
      (branchCreate s name).2 = 0 ∧
      readAllBytes (branchCreate s name).1 (branchPath name) = some (currentCommitFromHEAD s) ∧
      readFirstLine (branchCreate s name).1 (branchPath name) = currentCommitFromHEAD s ∧
      ∀ q, plainName q = true → q ≠ branchPath name →
        readAllBytes (branchCreate s name).1 q = readAllBytes s q) ∧
    (∀ n, headIsRef s = some ("refs/heads/" ++ n) →
      currentCommitFromHEAD s = readFirstLine s (branchPath n)) ∧
    (headIsRef s = none → currentCommitFromHEAD s = readFirstLine s HEAD_FILE) ∧
    (∀ rest, name ≠ "-d" → cmd_branch s (name :: rest) = branchCreate s name) := by
  refine ⟨fun h => ?_, fun h _ => ?_, fun n hn => ?_, fun hn => ?_, fun rest hd => ?_⟩
  · simp [branchCreate, h]
  · have hst : branchCreate s name
        = ((writeText s (branchPath name) (currentCommitFromHEAD s)).1, 0) := by
      simp [branchCreate, h]
    have hread : readAllBytes (branchCreate s name).1 (branchPath name)
        = some (currentCommitFromHEAD s) := by
      rw [hst]; exact readAllBytes_writeText_self _ _ _
    refine ⟨by rw [hst], hread, ?_, fun q _ hq => ?_⟩
    · exact readFirstLine_of_noNewline _ _ _ hread (currentCommitFromHEAD_noNewline s)
    · rw [hst]; exact readAllBytes_writeText_other _ _ _ _ hq
  · simp only [currentCommitFromHEAD, hn, vcsPath_refs_heads]
  · simp only [currentCommitFromHEAD, hn]
  · simp [cmd_branch, hrepo, hd]

/-- Witness for C15 (amended): `branch feature` in `initRepo`, whose `HEAD` tracks the branch
`master` that has no commit yet. -/
theorem branchCreate_effect_witness :
    (branchCreate initRepo "feature").2 = 0 ∧
    readAllBytes (branchCreate initRepo "feature").1 (branchPath "feature")
      = some (currentCommitFromHEAD initRepo) ∧
    readFirstLine (branchCreate initRepo "feature").1 (branchPath "feature")
      = currentCommitFromHEAD initRepo ∧
    ∀ q, plainName q = true → q ≠ branchPath "feature" →
      readAllBytes (branchCreate initRepo "feature").1 q = readAllBytes initRepo q :=
  (branchCreate_effect initRepo "feature" (by decide) (by decide) (by decide) (by decide)).2.1
    (by decide) (by decide)

/-- Counterexample for C15 as stated: after `init` and `branch feature/x` no ref called
`feature` exists (the entry of that name is a directory), yet `branch feature` fails and adds
nothing. -/
theorem cmd_branch_name_of_directory :
    isRepo nestedRefRepo = true ∧
    readAllBytes nestedRefRepo (branchPath "feature") = none ∧
    nestedRefRepo.isFile (branchPath "feature/x") = true ∧
    cmd_branch nestedRefRepo ["feature"] = (nestedRefRepo, 1) := by
  decide

/-! ## The mandatory field of a commit object -/

/-- The two outcomes of a formatted extraction on a stream that has not failed. -/
theorem extract_cases (s : IStream) (old : String) (hf : s.fail = false)
    (he : s.eof = true → s.rest = []) :
    ((s.extract old).1.fail = true ∧ (s.extract old).2 = old ∧ s.rest.dropWhile isSpace = []) ∨
    ((s.extract old).1.fail = false ∧ (s.extract old).2 = String.mk (nextToken s.rest) ∧
      nextToken s.rest ≠ [] ∧ (s.extract old).1.rest = afterToken s.rest ∧
      ((s.extract old).1.eof = true → (s.extract old).1.rest = []) ∧
      (s.extract old).1.rest.length < s.rest.length) := by
  by_cases hg : s.good = true
  · cases hd : s.rest.dropWhile isSpace with
    | nil =>
      left
      simp [IStream.extract, hg, hd]
    | cons c r =>
      right
      have hp := extract_progress s old (by simp [IStream.extract, hg, hd])
      have hc : isSpace c = false := head_dropWhile_not _ _ _ _ hd
      refine ⟨by simp [IStream.extract, hg, hd], by simp [IStream.extract, hg, hd, nextToken],
        ?_, by simp [IStream.extract, hg, hd, afterToken], hp.2.2, hp.1⟩
      simp [nextToken, hd, List.takeWhile_cons, hc]
  · left
    have heof : s.eof = true := by
      cases h : s.eof with
      | true => rfl
      | false => simp [IStream.good, h, hf] at hg
    have hr := he heof
    refine ⟨by simp [IStream.extract, hg], by simp [IStream.extract, hg], by simp [hr]⟩

/-- The two outcomes of `getline` on a stream that has not failed. -/
theorem getline_cases (s : IStream) (old : String) (hf : s.fail = false)
    (he : s.eof = true → s.rest = []) :
    ((s.getline old).1.fail = true ∧ s.rest = []) ∨
    ((s.getline old).1.fail = false ∧ (s.getline old).1.rest = afterLine s.rest ∧
      ((s.getline old).1.eof = true → (s.getline old).1.rest = []) ∧
      (s.getline old).1.rest.length ≤ s.rest.length) := by
  by_cases hg : s.good = true
  · cases hd : s.rest.dropWhile (fun x => x != '\n') with
    | nil =>
      cases hr : s.rest with
      | nil => left; simp [IStream.getline, hg, hr]
      | cons a t =>
        right
        rw [hr] at hd
        refine ⟨by simp only [IStream.getline, hg, if_true, hr, hd]; rfl,
          by simp only [IStream.getline, hg, if_true, hr, hd, afterLine]; rfl,
          fun _ => by simp only [IStream.getline, hg, if_true, hr, hd],
          by simp only [IStream.getline, hg, if_true, hr, hd]; simp⟩
    | cons c r =>
      right
      have hle := length_dropWhile_le (fun x => x != '\n') s.rest
      rw [hd] at hle
      simp only [List.length_cons] at hle
      refine ⟨by simp only [IStream.getline, hg, if_true, hd],
        by simp only [IStream.getline, hg, if_true, hd, afterLine]; rfl,
        fun h => by simp only [IStream.getline, hg, if_true, hd] at h; exact Bool.noConfusion h,
        by simp only [IStream.getline, hg, if_true, hd]; omega⟩
  · left
    have heof : s.eof = true := by
      cases h : s.eof with
      | true => rfl
      | false => simp [IStream.good, h, hf] at hg
    exact ⟨by simp [IStream.getline, hg], he heof⟩

theorem readCommitLoop_of_fail (n : Nat) (s : IStream) (key : String) (out : CommitFields)
    (h : s.fail = true) : readCommitLoop (n + 1) s key out = some out := by
  rw [readCommitLoop]
  simp [extract_fail_of_fail s key h]

theorem nextToken_nil : nextToken [] = [] := rfl

theorem not_treeRecordAt_of_blank (l : List Char) (h : l.dropWhile isSpace = []) :
    ¬ TreeRecordAt l := by
  have hn : nextToken l = [] := by simp [nextToken, h]
  intro ht
  cases ht with
  | here _ h1 _ => rw [hn] at h1; exact absurd h1 (by decide)
  | afterValue _ h1 _ =>
    rw [hn] at h1
    rcases h1 with h1 | h1 <;> exact absurd h1 (by decide)
  | afterRest _ h1 _ _ _ => exact h1 hn

theorem readCommitLoop_step (fuel : Nat) (iss : IStream) (key : String) (out : CommitFields)
    (h : (iss.extract key).1.fail = false) :
    readCommitLoop (fuel + 1) iss key out =
      if (iss.extract key).2 = "tree" then
        readCommitLoop fuel ((iss.extract key).1.extract out.tree).1 (iss.extract key).2
          { out with tree := ((iss.extract key).1.extract out.tree).2 }
      else if (iss.extract key).2 = "parent" then
        readCommitLoop fuel ((iss.extract key).1.extract out.parent).1 (iss.extract key).2
          { out with parent := ((iss.extract key).1.extract out.parent).2 }
      else if (iss.extract key).2 = "message" then
        readCommitLoop fuel ((iss.extract key).1.getline out.message).1 (iss.extract key).2
          { out with message := eraseLeadingSpace ((iss.extract key).1.getline out.message).2 }
      else
        readCommitLoop fuel ((iss.extract key).1.getline "").1 (iss.extract key).2 out := by
  rw [readCommitLoop]
  simp only [h, Bool.false_eq_true, if_false]

theorem mk_eq_iff (l : List Char) (t : String) : String.mk l = t ↔ l = t.data :=
  ⟨fun h => by rw [← h], fun h => by rw [h]⟩

/-- The loop of `readCommitObject` returns once the fuel exceeds the length of the unread text,
and the tree field is then set exactly when it was set before or the unread text holds a tree
record at a key position. -/
theorem readCommitLoop_tree_iff : ∀ (fuel : Nat) (iss : IStream) (key : String)
    (out : CommitFields), iss.fail = false → (iss.eof = true → iss.rest = []) →
    iss.rest.length < fuel →
    ∃ out', readCommitLoop fuel iss key out = some out' ∧
      (out'.tree ≠ "" ↔ (out.tree ≠ "" ∨ TreeRecordAt iss.rest)) := by
  intro fuel
  induction fuel with
  | zero => intro iss _ _ _ _ h; omega
  | succ fuel ih =>
    intro iss key out hf he hlen
    rcases extract_cases iss key hf he with ⟨h1, _, h3⟩ | ⟨h1, h2, h3, h4, h5, h6⟩
    · refine ⟨out, ?_, ⟨Or.inl, ?_⟩⟩
      · rw [readCommitLoop]; simp [h1]
      · rintro (h | h)
        · exact h
        · exact absurd h (not_treeRecordAt_of_blank _ h3)
    · obtain ⟨n, hn⟩ : ∃ n, fuel = n + 1 := ⟨fuel - 1, by omega⟩
      rw [readCommitLoop_step fuel iss key out h1]
      rw [h2] at *
      simp only [mk_eq_iff]
      by_cases ht : nextToken iss.rest = "tree".data
      · rw [if_pos ht]
        rcases extract_cases (iss.extract key).1 out.tree h1 h5 with
          ⟨g1, g2, g3⟩ | ⟨g1, g2, g3, g4, g5, g6⟩
        · refine ⟨{ out with tree := ((iss.extract key).1.extract out.tree).2 }, ?_, ?_⟩
          · rw [hn, readCommitLoop_of_fail _ _ _ _ g1]
          · rw [g2]
            refine ⟨Or.inl, ?_⟩
            rintro (h | h)
            · exact h
            · exfalso
              rw [h4] at g3
              have hnil : afterToken (afterToken iss.rest) = [] := by
                show ((afterToken iss.rest).dropWhile isSpace).dropWhile _ = []
                rw [g3]; rfl
              cases h with
              | here _ _ hv => exact hv (by simp [nextToken, g3])
              | afterValue _ _ hr =>
                rw [hnil] at hr
                exact not_treeRecordAt_of_blank [] rfl hr
              | afterRest _ _ hne _ _ => exact hne ht
        · obtain ⟨out', ho, hiff⟩ := ih ((iss.extract key).1.extract out.tree).1
            (String.mk (nextToken iss.rest))
            { out with tree := ((iss.extract key).1.extract out.tree).2 } g1 g5 (by omega)
          refine ⟨out', ho, ?_⟩
          rw [hiff]
          have hv : ((iss.extract key).1.extract out.tree).2 ≠ "" := by
            rw [g2]
            intro hx
            exact g3 ((mk_eq_iff _ _).1 hx)
          rw [h4] at g3
          exact ⟨fun _ => Or.inr (TreeRecordAt.here _ ht g3), fun _ => Or.inl hv⟩
      · rw [if_neg ht]
        by_cases hp : nextToken iss.rest = "parent".data
        · rw [if_pos hp]
          rcases extract_cases (iss.extract key).1 out.parent h1 h5 with
            ⟨g1, g2, g3⟩ | ⟨g1, g2, g3, g4, g5, g6⟩
          · refine ⟨{ out with parent := ((iss.extract key).1.extract out.parent).2 }, ?_, ?_⟩
            · rw [hn, readCommitLoop_of_fail _ _ _ _ g1]
            · refine ⟨Or.inl, ?_⟩
              rintro (h | h)
              · exact h
              · exfalso
                rw [h4] at g3
                have hnil : afterToken (afterToken iss.rest) = [] := by
                  show ((afterToken iss.rest).dropWhile isSpace).dropWhile _ = []
                  rw [g3]; rfl
                cases h with
                | here _ ht' _ => exact ht ht'
                | afterValue _ _ hr =>
                  rw [hnil] at hr
                  exact not_treeRecordAt_of_blank [] rfl hr
                | afterRest _ _ _ hne _ => exact hne hp
          · obtain ⟨out', ho, hiff⟩ := ih ((iss.extract key).1.extract out.parent).1
              (String.mk (nextToken iss.rest))
              { out with parent := ((iss.extract key).1.extract out.parent).2 } g1 g5 (by omega)
            refine ⟨out', ho, ?_⟩
            rw [hiff, g4, h4]
            constructor
            · rintro (h | h)
              · exact Or.inl h
              · exact Or.inr (TreeRecordAt.afterValue _ (Or.inr hp) h)
            · rintro (h | h)
              · exact Or.inl h
              · right
                cases h with
                | here _ ht' _ => exact absurd ht' ht
                | afterValue _ _ hr => exact hr
                | afterRest _ _ _ hne _ => exact absurd hp hne
        · rw [if_neg hp]
          have hrest : ∀ (old : String) (o : CommitFields), o.tree = out.tree →
              ∃ out', readCommitLoop fuel ((iss.extract key).1.getline old).1
                  (String.mk (nextToken iss.rest)) o = some out' ∧
                (out'.tree ≠ "" ↔ (out.tree ≠ "" ∨ TreeRecordAt iss.rest)) := by
            intro old o ho
            rcases getline_cases (iss.extract key).1 old h1 h5 with ⟨g1, g2⟩ | ⟨g1, g2, g3, g4⟩
            · refine ⟨o, ?_, ?_⟩
              · rw [hn, readCommitLoop_of_fail _ _ _ _ g1]
              · rw [ho]
                refine ⟨Or.inl, ?_⟩
                rintro (h | h)
                · exact h
                · exfalso
                  rw [h4] at g2
                  cases h with
                  | here _ ht' _ => exact ht ht'
                  | afterValue _ hv _ =>
                    rcases hv with hv | hv
                    · exact ht hv
                    · exact hp hv
                  | afterRest _ _ _ _ hr =>
                    rw [g2] at hr
                    exact not_treeRecordAt_of_blank [] rfl hr
            · obtain ⟨out', ho', hiff⟩ := ih ((iss.extract key).1.getline old).1
                (String.mk (nextToken iss.rest)) o g1 g3 (by omega)
              refine ⟨out', ho', ?_⟩
              rw [hiff, ho, g2, h4]
              constructor
              · rintro (h | h)
                · exact Or.inl h
                · exact Or.inr (TreeRecordAt.afterRest _ h3 ht hp h)
              · rintro (h | h)
                · exact Or.inl h
                · right
                  cases h with
                  | here _ ht' _ => exact absurd ht' ht
                  | afterValue _ hv _ =>
                    rcases hv with hv | hv
                    · exact absurd hv ht
                    · exact absurd hv hp
                  | afterRest _ _ _ _ hr => exact hr
          by_cases hm : nextToken iss.rest = "message".data
          · rw [if_pos hm]
            exact hrest _ _ rfl
          · rw [if_neg hm]
            exact hrest _ _ rfl

theorem readCommitText_tree_iff (txt : String) :
    (TreeRecordAt txt.data → ∃ f, readCommitText txt = some f ∧ f.tree ≠ "") ∧
    (¬ TreeRecordAt txt.data → readCommitText txt = none) := by
  obtain ⟨out, ho, hiff⟩ := readCommitLoop_tree_iff (txt.length + 1) (IStream.ofString txt) ""
    { tree := "", parent := "", message := "" } rfl (fun h => Bool.noConfusion h)
    (Nat.lt_succ_self _)
  have hiff' : out.tree ≠ "" ↔ TreeRecordAt txt.data := by
    rw [hiff]
    exact ⟨fun h => h.elim (fun h => absurd rfl h) id, Or.inr⟩
  constructor
  · intro h
    refine ⟨out, ?_, hiff'.2 h⟩
    simp only [readCommitText, ho]
    rw [if_pos (hiff'.2 h)]
  · intro h
    have : ¬ out.tree ≠ "" := fun hx => h (hiff'.1 hx)
    simp only [readCommitText, ho]
    rw [if_neg this]

/-- A text with an author line and then a tree line holds a tree record at a key position. -/
theorem treeRecordAt_example : TreeRecordAt "author Student\ntree 9c7e48d5\n".data :=
  TreeRecordAt.afterRest _ (by decide) (by decide) (by decide)
    (TreeRecordAt.here _ (by decide) (by decide))

/-- C16: `readCommitObject` fails for every stored text that holds no record `tree <value>` at a
key position, such as the empty text and a text of parent, author, timestamp and message lines
only, and it succeeds, with a tree field that is not empty, for every stored text that holds
such a record. -/
theorem readCommitObject_tree_field (txt : String) :
    (¬ TreeRecordAt txt.data → readCommitText txt = none) ∧
    (TreeRecordAt txt.data → ∃ f, readCommitText txt = some f ∧ f.tree ≠ "") ∧
    (∀ (s : FS) (h : String), readAllBytes s (objectPath h) = some txt →
      (¬ TreeRecordAt txt.data → readCommitObject s h = none) ∧
      (TreeRecordAt txt.data → ∃ f, readCommitObject s h = some f ∧ f.tree ≠ "")) ∧
    readCommitText "" = none ∧
    readCommitText ("parent 1f49a6a8\nauthor Student\n" ++
      "timestamp 2024-01-01 10:00:00\nmessage first\n") = none ∧
    readCommitText "author Student\ntree 9c7e48d5\n"
      = some { tree := "9c7e48d5", parent := "", message := "" } := by
  refine ⟨(readCommitText_tree_iff txt).2, (readCommitText_tree_iff txt).1,
    fun s h hr => ?_, by decide, by decide, by decide⟩
  have e : readCommitObject s h = readCommitText txt := by
    simp only [readCommitObject, hr]
  rw [e]
  exact ⟨(readCommitText_tree_iff txt).2, (readCommitText_tree_iff txt).1⟩

/-! ## The table of the diff -/

theorem lcsLen_nil_left (B : List String) : lcsLen [] B = 0 := by
  rw [lcsLen]

theorem lcsLen_nil_right (A : List String) : lcsLen A [] = 0 := by
  cases A with
  | nil => rw [lcsLen]
  | cons a A => rw [lcsLen]

theorem lcsLen_cons_eq (a : String) (A B : List String) :
    lcsLen (a :: A) (a :: B) = lcsLen A B + 1 := by
  rw [lcsLen, if_pos rfl]

theorem lcsLen_cons_ne (a b : String) (A B : List String) (h : a ≠ b) :
    lcsLen (a :: A) (b :: B) = max (lcsLen A (b :: B)) (lcsLen (a :: A) B) := by
  rw [lcsLen, if_neg h]

theorem drop_eq_getD_cons (A : List String) (i : Nat) (h : i < A.length) :
    A.drop i = A.getD i "" :: A.drop (i + 1) := by
  rw [List.getD_eq_getElem _ _ h]
  exact List.drop_eq_getElem_cons h

theorem dpGet_dpSet (dp : List (List Nat)) (i j v i' j' : Nat) (hi : i < dp.length)
    (hj : j < (dp.getD i []).length) :
    dpGet (dpSet dp i j v) i' j' = if i' = i ∧ j' = j then v else dpGet dp i' j' := by
  unfold dpGet dpSet
  by_cases h1 : i' = i
  · subst h1
    have e1 : (dp.set i' ((dp.getD i' []).set j v)).getD i' [] = (dp.getD i' []).set j v := by
      rw [List.getD_eq_getElem _ _ (by simpa using hi)]
      simp
    rw [e1]
    by_cases h2 : j' = j
    · subst h2
      rw [List.getD_eq_getElem _ _ (by simpa using hj)]
      simp
    · have e2 : ((dp.getD i' []).set j v).getD j' 0 = (dp.getD i' []).getD j' 0 := by
        simp only [List.getD_eq_getElem?_getD]
        rw [List.getElem?_set_ne (fun h => h2 h.symm)]
      rw [e2]
      simp [h2]
  · have e1 : (dp.set i ((dp.getD i []).set j v)).getD i' [] = dp.getD i' [] := by
      simp only [List.getD_eq_getElem?_getD]
      rw [List.getElem?_set_ne (fun h => h1 h.symm)]
    rw [e1]
    simp [h1]

theorem dims_dpSet (dp : List (List Nat)) (i j v : Nat) (hi : i < dp.length) :
    (dpSet dp i j v).length = dp.length ∧
    ∀ i', ((dpSet dp i j v).getD i' []).length = (dp.getD i' []).length := by
  unfold dpSet
  refine ⟨by simp, fun i' => ?_⟩
  by_cases h1 : i' = i
  · subst h1
    rw [List.getD_eq_getElem _ _ (by simpa using hi)]
    simp
  · simp only [List.getD_eq_getElem?_getD]
    rw [List.getElem?_set_ne (fun h => h1 h.symm)]

theorem tableOk_init (A B : List String) :
    TableOk A B (List.replicate (A.length + 1) (List.replicate (B.length + 1) 0)) A.length 0 := by
  have hrow : ∀ i', i' ≤ A.length →
      (List.replicate (A.length + 1) (List.replicate (B.length + 1) 0)).getD i' []
        = List.replicate (B.length + 1) 0 := by
    intro i' hi
    rw [List.getD_eq_getElem _ _ (by simp; omega)]
    simp
  refine ⟨by simp, fun i' hi => by rw [hrow i' hi]; simp, fun i' j' hi hj hc => ?_⟩
  have hz : dpGet (List.replicate (A.length + 1) (List.replicate (B.length + 1) 0)) i' j' = 0 := by
    unfold dpGet
    rw [hrow i' hi, List.getD_eq_getElem _ _ (by simp; omega)]
    simp
  rw [hz]
  rcases hc with hc | hc | hc
  · omega
  · rw [hc.1, List.drop_length, lcsLen_nil_left]
  · rw [hc, List.drop_length, lcsLen_nil_right]

/-- One pass of the body of the inner loop (lines 317-318). -/
theorem tableOk_cell (A B : List String) (dp : List (List Nat)) (i j : Nat)
    (hi : i < A.length) (hj : j < B.length) (h : TableOk A B dp i (j + 1)) :
    TableOk A B (if A.getD i "" = B.getD j "" then dpSet dp i j (dpGet dp (i + 1) (j + 1) + 1)
      else dpSet dp i j (max (dpGet dp (i + 1) j) (dpGet dp i (j + 1)))) i j := by
  obtain ⟨h1, h2, h3⟩ := h
  have hil : i < dp.length := by omega
  have hjl : j < (dp.getD i []).length := by rw [h2 i (by omega)]; omega
  have key : ∀ v, v = lcsLen (A.drop i) (B.drop j) → TableOk A B (dpSet dp i j v) i j := by
    intro v hv
    obtain ⟨d1, d2⟩ := dims_dpSet dp i j v hil
    refine ⟨by rw [d1, h1], fun i' hi' => by rw [d2, h2 i' hi'], fun i' j' hi' hj' hc => ?_⟩
    rw [dpGet_dpSet dp i j v i' j' hil hjl]
    by_cases hx : i' = i ∧ j' = j
    · rw [if_pos hx, hx.1, hx.2, hv]
    · rw [if_neg hx]
      apply h3 i' j' hi' hj'
      rcases hc with hc | hc | hc
      · exact Or.inl hc
      · refine Or.inr (Or.inl ⟨hc.1, ?_⟩)
        have : j' ≠ j := fun e => hx ⟨hc.1, e⟩
        omega
      · exact Or.inr (Or.inr hc)
  have hA := drop_eq_getD_cons A i hi
  have hB := drop_eq_getD_cons B j hj
  by_cases he : A.getD i "" = B.getD j ""
  · rw [if_pos he]
    apply key
    rw [h3 (i + 1) (j + 1) (by omega) (by omega) (Or.inl (by omega)), hA, hB, he, lcsLen_cons_eq]
  · rw [if_neg he]
    apply key
    rw [h3 (i + 1) j (by omega) (by omega) (Or.inl (by omega)),
      h3 i (j + 1) (by omega) (by omega) (Or.inr (Or.inl ⟨rfl, Nat.le_refl _⟩)),
      hA, hB, lcsLen_cons_ne _ _ _ _ he, ← hA, ← hB]

theorem range_succ_reverse (k : Nat) : (List.range (k + 1)).reverse = k :: (List.range k).reverse := by
  rw [List.range_succ, List.reverse_append]
  rfl

/-- The inner loop (lines 316-319) on row `i`. -/
theorem tableOk_row (A B : List String) (i : Nat) (hi : i < A.length) :
    ∀ (k : Nat) (dp : List (List Nat)), k ≤ B.length → TableOk A B dp i k →
      TableOk A B ((List.range k).reverse.foldl (fun dp j =>
        if A.getD i "" = B.getD j "" then dpSet dp i j (dpGet dp (i + 1) (j + 1) + 1)
        else dpSet dp i j (max (dpGet dp (i + 1) j) (dpGet dp i (j + 1)))) dp) i 0 := by
  intro k
  induction k with
  | zero => intro dp _ h; exact h
  | succ k ih =>
    intro dp hk h
    rw [range_succ_reverse, List.foldl_cons]
    exact ih _ (by omega) (tableOk_cell A B dp i k hi (by omega) h)

theorem tableOk_next (A B : List String) (dp : List (List Nat)) (i : Nat)
    (h : TableOk A B dp (i + 1) 0) : TableOk A B dp i B.length := by
  obtain ⟨h1, h2, h3⟩ := h
  refine ⟨h1, h2, fun i' j' hi' hj' hc => h3 i' j' hi' hj' ?_⟩
  rcases hc with hc | hc | hc
  · by_cases e : i' = i + 1
    · exact Or.inr (Or.inl ⟨e, Nat.zero_le _⟩)
    · exact Or.inl (by omega)
  · exact Or.inr (Or.inr (by omega))
  · exact Or.inr (Or.inr hc)

/-- The outer loop (lines 315-320). -/
theorem tableOk_rows (A B : List String) :
    ∀ (k : Nat) (dp : List (List Nat)), k ≤ A.length → TableOk A B dp k 0 →
      TableOk A B ((List.range k).reverse.foldl (fun dp i =>
        (List.range B.length).reverse.foldl (fun dp j =>
          if A.getD i "" = B.getD j "" then dpSet dp i j (dpGet dp (i + 1) (j + 1) + 1)
          else dpSet dp i j (max (dpGet dp (i + 1) j) (dpGet dp i (j + 1)))) dp) dp) 0 0 := by
  intro k
  induction k with
  | zero => intro dp _ h; exact h
  | succ k ih =>
    intro dp hk h
    rw [range_succ_reverse, List.foldl_cons]
    exact ih _ (by omega)
      (tableOk_row A B k (by omega) B.length dp (Nat.le_refl _) (tableOk_next A B dp k h))

/-- Every cell of the finished table holds the length of a longest common subsequence of the two
suffixes. -/
theorem lcsTable_spec (A B : List String) (i j : Nat) (hi : i ≤ A.length) (hj : j ≤ B.length) :
    dpGet (lcsTable A B) i j = lcsLen (A.drop i) (B.drop j) := by
  have h := tableOk_rows A B A.length _ (Nat.le_refl _) (tableOk_init A B)
  refine h.2.2 i j hi hj ?_
  by_cases e : i = 0
  · exact Or.inr (Or.inl ⟨e, Nat.zero_le _⟩)
  · exact Or.inl (by omega)

/-! ## The edit script of the diff -/

theorem oldLines_cons (op : DiffOp) (ops : List DiffOp) :
    oldLines (op :: ops)
      = if op.t = ' ' ∨ op.t = '-' then op.line :: oldLines ops else oldLines ops := by
  unfold oldLines
  by_cases h : op.t = ' ' ∨ op.t = '-'
  · rw [List.filter_cons_of_pos (by simpa using h), if_pos h]; rfl
  · rw [List.filter_cons_of_neg (by simpa using h), if_neg h]

theorem newLines_cons (op : DiffOp) (ops : List DiffOp) :
    newLines (op :: ops)
      = if op.t = ' ' ∨ op.t = '+' then op.line :: newLines ops else newLines ops := by
  unfold newLines
  by_cases h : op.t = ' ' ∨ op.t = '+'
  · rw [List.filter_cons_of_pos (by simpa using h), if_pos h]; rfl
  · rw [List.filter_cons_of_neg (by simpa using h), if_neg h]

theorem keptLines_cons (op : DiffOp) (ops : List DiffOp) :
    keptLines (op :: ops) = if op.t = ' ' then op.line :: keptLines ops else keptLines ops := by
  unfold keptLines
  by_cases h : op.t = ' '
  · rw [List.filter_cons_of_pos (by simpa using h), if_pos h]; rfl
  · rw [List.filter_cons_of_neg (by simpa using h), if_neg h]

theorem editCount_cons (op : DiffOp) (ops : List DiffOp) :
    editCount (op :: ops) = if op.t = ' ' then editCount ops else editCount ops + 1 := by
  unfold editCount
  by_cases h : op.t = ' '
  · rw [List.filter_cons_of_neg (by simpa using h), if_pos h]
  · rw [List.filter_cons_of_pos (by simpa using h), if_neg h]; rfl

/-- The loop of `lcsDiff` returns once the fuel exceeds the number of lines left, and what it
appends is an edit script between the two suffixes that keeps as many lines as a longest common
subsequence has. -/
theorem lcsWalk_spec (A B : List String) (dp : List (List Nat))
    (hdp : ∀ i j, i ≤ A.length → j ≤ B.length → dpGet dp i j = lcsLen (A.drop i) (B.drop j)) :
    ∀ (fuel i j : Nat) (ops : List DiffOp), i ≤ A.length → j ≤ B.length →
      (A.length - i) + (B.length - j) < fuel →
      ∃ tail, lcsWalk A B dp fuel i j ops = some (ops ++ tail) ∧
        IsEditScript tail (A.drop i) (B.drop j) ∧
        (keptLines tail).length = lcsLen (A.drop i) (B.drop j) := by
  intro fuel
  induction fuel with
  | zero => intro i j ops _ _ h; omega
  | succ fuel ih =>
    intro i j ops hi hj hf
    rw [lcsWalk]
    by_cases hloop : i < A.length ∨ j < B.length
    · rw [if_pos hloop]
      by_cases h1 : i < A.length ∧ j < B.length ∧ A.getD i "" = B.getD j ""
      · rw [if_pos h1]
        obtain ⟨tail, ht, ⟨ht1, ht2, ht3⟩, ht4⟩ := ih (i + 1) (j + 1)
          (ops ++ [{ t := ' ', line := A.getD i "" }]) (by omega) (by omega) (by omega)
        refine ⟨{ t := ' ', line := A.getD i "" } :: tail, ?_, ⟨?_, ?_, ?_⟩, ?_⟩
        · rw [ht, List.append_assoc]; rfl
        · intro op hop
          rcases List.mem_cons.1 hop with rfl | hop
          · exact Or.inl rfl
          · exact ht1 op hop
        · rw [oldLines_cons, if_pos (Or.inl rfl), ht2, drop_eq_getD_cons A i h1.1]
        · rw [newLines_cons, if_pos (Or.inl rfl), ht3, drop_eq_getD_cons B j h1.2.1, h1.2.2]
        · rw [keptLines_cons, if_pos rfl, List.length_cons, ht4, drop_eq_getD_cons A i h1.1,
            drop_eq_getD_cons B j h1.2.1, h1.2.2, lcsLen_cons_eq]
      · rw [if_neg h1]
        by_cases h2 : j < B.length ∧ (i = A.length ∨ dpGet dp i (j + 1) ≥ dpGet dp (i + 1) j)
        · rw [if_pos h2]
          obtain ⟨tail, ht, ⟨ht1, ht2, ht3⟩, ht4⟩ := ih i (j + 1)
            (ops ++ [{ t := '+', line := B.getD j "" }]) hi (by omega) (by omega)
          refine ⟨{ t := '+', line := B.getD j "" } :: tail, ?_, ⟨?_, ?_, ?_⟩, ?_⟩
          · rw [ht, List.append_assoc]; rfl
          · intro op hop
            rcases List.mem_cons.1 hop with rfl | hop
            · exact Or.inr (Or.inl rfl)
            · exact ht1 op hop
          · rw [oldLines_cons, if_neg (by simp), ht2]
          · rw [newLines_cons, if_pos (Or.inr rfl), ht3, drop_eq_getD_cons B j h2.1]
          · rw [keptLines_cons, if_neg (by simp), ht4]
            by_cases he : i = A.length
            · rw [he, List.drop_length, lcsLen_nil_left, lcsLen_nil_left]
            · have hi' : i < A.length := by omega
              have hge : dpGet dp i (j + 1) ≥ dpGet dp (i + 1) j := h2.2.resolve_left he
              have hne : A.getD i "" ≠ B.getD j "" := fun e => h1 ⟨hi', h2.1, e⟩
              rw [hdp _ _ hi (by omega), hdp _ _ (by omega) hj] at hge
              have hA := drop_eq_getD_cons A i hi'
              have hB := drop_eq_getD_cons B j h2.1
              have hmax : lcsLen (A.drop i) (B.drop j)
                  = max (lcsLen (A.drop (i + 1)) (B.drop j))
                      (lcsLen (A.drop i) (B.drop (j + 1))) := by
                conv_lhs => rw [hA, hB, lcsLen_cons_ne _ _ _ _ hne, ← hA, ← hB]
              rw [hmax]
              omega
        · rw [if_neg h2]
          have hi' : i < A.length := by
            rcases hloop with h | h
            · exact h
            · by_contra hc
              exact h2 ⟨h, Or.inl (by omega)⟩
          obtain ⟨tail, ht, ⟨ht1, ht2, ht3⟩, ht4⟩ := ih (i + 1) j
            (ops ++ [{ t := '-', line := A.getD i "" }]) (by omega) hj (by omega)
          refine ⟨{ t := '-', line := A.getD i "" } :: tail, ?_, ⟨?_, ?_, ?_⟩, ?_⟩
          · rw [ht, List.append_assoc]; rfl
          · intro op hop
            rcases List.mem_cons.1 hop with rfl | hop
            · exact Or.inr (Or.inr rfl)
            · exact ht1 op hop
          · rw [oldLines_cons, if_pos (Or.inr rfl), ht2, drop_eq_getD_cons A i hi']
          · rw [newLines_cons, if_neg (by simp), ht3]
          · rw [keptLines_cons, if_neg (by simp), ht4]
            by_cases he : j = B.length
            · rw [he, List.drop_length, lcsLen_nil_right, lcsLen_nil_right]
            · have hj' : j < B.length := by omega
              have hlt : ¬ dpGet dp i (j + 1) ≥ dpGet dp (i + 1) j := fun e =>
                h2 ⟨hj', Or.inr e⟩
              have hne : A.getD i "" ≠ B.getD j "" := fun e => h1 ⟨hi', hj', e⟩
              rw [hdp _ _ hi (by omega), hdp _ _ (by omega) hj] at hlt
              have hA := drop_eq_getD_cons A i hi'
              have hB := drop_eq_getD_cons B j hj'
              have hmax : lcsLen (A.drop i) (B.drop j)
                  = max (lcsLen (A.drop (i + 1)) (B.drop j))
                      (lcsLen (A.drop i) (B.drop (j + 1))) := by
                conv_lhs => rw [hA, hB, lcsLen_cons_ne _ _ _ _ hne, ← hA, ← hB]
              rw [hmax]
              omega
    · rw [if_neg hloop]
      have hi' : i = A.length := by omega
      have hj' : j = B.length := by omega
      refine ⟨[], by simp, ⟨by simp, ?_, ?_⟩, ?_⟩
      · rw [hi', List.drop_length]; rfl
      · rw [hj', List.drop_length]; rfl
      · rw [hi', List.drop_length, lcsLen_nil_left]; rfl

theorem lcsDiff_spec (A B : List String) :
    IsEditScript (lcsDiff A B) A B ∧ (keptLines (lcsDiff A B)).length = lcsLen A B := by
  obtain ⟨tail, ht, h1, h2⟩ := lcsWalk_spec A B (lcsTable A B) (lcsTable_spec A B)
    (A.length + B.length + 1) 0 0 [] (Nat.zero_le _) (Nat.zero_le _) (by omega)
  have e : lcsDiff A B = tail := by
    unfold lcsDiff
    rw [ht]
    rfl
  rw [e]
  exact ⟨h1, h2⟩

/-- No common subsequence is longer than `lcsLen` says. -/
theorem lcsLen_upper : ∀ (n : Nat) (A B l : List String), A.length + B.length ≤ n →
    l.Sublist A → l.Sublist B → l.length ≤ lcsLen A B := by
  intro n
  induction n with
  | zero =>
    intro A B l hn hA _
    have : A = [] := List.eq_nil_of_length_eq_zero (by omega)
    subst this
    rw [List.sublist_nil.1 hA]
    exact Nat.zero_le _
  | succ n ih =>
    intro A B l hn hA hB
    cases A with
    | nil => rw [List.sublist_nil.1 hA]; exact Nat.zero_le _
    | cons a A =>
      cases B with
      | nil => rw [List.sublist_nil.1 hB]; exact Nat.zero_le _
      | cons b B =>
        simp only [List.length_cons] at hn
        cases l with
        | nil => exact Nat.zero_le _
        | cons x l =>
          by_cases hab : a = b
          · subst hab
            rw [lcsLen_cons_eq]
            have h1 : l.Sublist A := by
              rcases List.sublist_cons_iff.1 hA with h | ⟨r, hr, h⟩
              · exact (List.sublist_cons_self x l).trans h
              · injection hr with _ hr; subst hr; exact h
            have h2 : l.Sublist B := by
              rcases List.sublist_cons_iff.1 hB with h | ⟨r, hr, h⟩
              · exact (List.sublist_cons_self x l).trans h
              · injection hr with _ hr; subst hr; exact h
            have := ih A B l (by omega) h1 h2
            simp only [List.length_cons]
            omega
          · rw [lcsLen_cons_ne _ _ _ _ hab]
            rcases List.sublist_cons_iff.1 hA with h | ⟨r, hr, h⟩
            · have := ih A (b :: B) (x :: l) (by simp only [List.length_cons]; omega) h hB
              omega
            · injection hr with hx hr
              subst hr
              rcases List.sublist_cons_iff.1 hB with h' | ⟨r', hr', h'⟩
              · have := ih (a :: A) B (x :: l) (by simp only [List.length_cons]; omega) hA h'
                omega
              · injection hr' with hx' _
                exact absurd (hx.symm.trans hx') hab

/-- The kept lines of an edit script are a subsequence of both sequences, and the numbers of its
operations add up to the two lengths. -/
theorem editScript_kept (ops : List DiffOp) (hops : ∀ op ∈ ops, op.t = ' ' ∨ op.t = '+' ∨ op.t = '-') :
    (keptLines ops).Sublist (oldLines ops) ∧ (keptLines ops).Sublist (newLines ops) ∧
    editCount ops + 2 * (keptLines ops).length = (oldLines ops).length + (newLines ops).length := by
  induction ops with
  | nil => exact ⟨List.Sublist.refl _, List.Sublist.refl _, rfl⟩
  | cons op ops ih =>
    obtain ⟨i1, i2, i3⟩ := ih (fun x hx => hops x (List.mem_cons_of_mem _ hx))
    rw [keptLines_cons, oldLines_cons, newLines_cons, editCount_cons]
    rcases hops op (List.mem_cons_self _ _) with h | h | h
    · simp only [h, true_or, if_true]
      exact ⟨i1.cons₂ _, i2.cons₂ _, by simp only [List.length_cons]; omega⟩
    · have e1 : ¬ op.t = ' ' := by rw [h]; decide
      have e2 : ¬ (op.t = ' ' ∨ op.t = '-') := by rw [h]; decide
      have e3 : op.t = ' ' ∨ op.t = '+' := Or.inr h
      rw [if_neg e1, if_neg e2, if_pos e3, if_neg e1]
      exact ⟨i1, i2.cons _, by simp only [List.length_cons]; omega⟩
    · have e1 : ¬ op.t = ' ' := by rw [h]; decide
      have e2 : op.t = ' ' ∨ op.t = '-' := Or.inr h
      have e3 : ¬ (op.t = ' ' ∨ op.t = '+') := by rw [h]; decide
      rw [if_neg e1, if_pos e2, if_neg e3, if_neg e1]
      exact ⟨i1.cons _, i2, by simp only [List.length_cons]; omega⟩

theorem ops_all_insert (ops : List DiffOp)
    (hops : ∀ op ∈ ops, op.t = ' ' ∨ op.t = '+' ∨ op.t = '-') (h : oldLines ops = []) :
    ops = (newLines ops).map (fun l => { t := '+', line := l }) := by
  induction ops with
  | nil => rfl
  | cons op ops ih =>
    rw [oldLines_cons] at h
    have ht : op.t = '+' := by
      rcases hops op (List.mem_cons_self _ _) with e | e | e
      · rw [if_pos (Or.inl e)] at h; exact absurd h (List.cons_ne_nil _ _)
      · exact e
      · rw [if_pos (Or.inr e)] at h; exact absurd h (List.cons_ne_nil _ _)
    rw [if_neg (by rw [ht]; decide)] at h
    rw [newLines_cons, if_pos (Or.inr ht), List.map_cons,
      ← ih (fun x hx => hops x (List.mem_cons_of_mem _ hx)) h, ← ht]

theorem ops_all_delete (ops : List DiffOp)
    (hops : ∀ op ∈ ops, op.t = ' ' ∨ op.t = '+' ∨ op.t = '-') (h : newLines ops = []) :
    ops = (oldLines ops).map (fun l => { t := '-', line := l }) := by
  induction ops with
  | nil => rfl
  | cons op ops ih =>
    rw [newLines_cons] at h
    have ht : op.t = '-' := by
      rcases hops op (List.mem_cons_self _ _) with e | e | e
      · rw [if_pos (Or.inl e)] at h; exact absurd h (List.cons_ne_nil _ _)
      · rw [if_pos (Or.inr e)] at h; exact absurd h (List.cons_ne_nil _ _)
      · exact e
    rw [if_neg (by rw [ht]; decide)] at h
    rw [oldLines_cons, if_pos (Or.inr ht), List.map_cons,
      ← ih (fun x hx => hops x (List.mem_cons_of_mem _ hx)) h, ← ht]

/-- C19: for all line sequences `A` and `B`, `lcsDiff A B` is an insert/delete edit script from
`A` to `B` (tags space, `+`, `-`; the kept and deleted lines in order are `A`, the kept and
inserted lines in order are `B`); its kept lines are a common subsequence of `A` and `B` that no
common subsequence exceeds in length, so the number of insertions and deletions is
`|A| + |B| - 2 * LCS(A, B)` and no edit script from `A` to `B` has fewer; for an empty `A` the
script is the insertion of the lines of `B` in order, for an empty `B` the deletion of the lines
of `A` in order. -/
theorem lcsDiff_minimal (A B : List String) :
    (∀ op ∈ lcsDiff A B, op.t = ' ' ∨ op.t = '+' ∨ op.t = '-') ∧
    oldLines (lcsDiff A B) = A ∧ newLines (lcsDiff A B) = B ∧
    (keptLines (lcsDiff A B)).Sublist A ∧ (keptLines (lcsDiff A B)).Sublist B ∧
    (∀ l : List String, l.Sublist A → l.Sublist B →
      l.length ≤ (keptLines (lcsDiff A B)).length) ∧
    editCount (lcsDiff A B) + 2 * (keptLines (lcsDiff A B)).length = A.length + B.length ∧
    (∀ ops, IsEditScript ops A B → editCount (lcsDiff A B) ≤ editCount ops) ∧
    lcsDiff [] B = B.map (fun l => { t := '+', line := l }) ∧
    lcsDiff A [] = A.map (fun l => { t := '-', line := l }) := by
  obtain ⟨⟨h1, h2, h3⟩, h4⟩ := lcsDiff_spec A B
  obtain ⟨k1, k2, k3⟩ := editScript_kept (lcsDiff A B) h1
  rw [h2] at k1 k3
  rw [h3] at k2 k3
  refine ⟨h1, h2, h3, k1, k2, fun l hA hB => ?_, k3, fun ops hops => ?_, ?_, ?_⟩
  · rw [h4]
    exact lcsLen_upper _ A B l (Nat.le_refl _) hA hB
  · obtain ⟨o1, o2, o3⟩ := hops
    obtain ⟨q1, q2, q3⟩ := editScript_kept ops o1
    rw [o2] at q1 q3
    rw [o3] at q2 q3
    have hle := lcsLen_upper _ A B (keptLines ops) (Nat.le_refl _) q1 q2
    rw [← h4] at hle
    omega
  · obtain ⟨⟨e1, e2, e3⟩, _⟩ := lcsDiff_spec [] B
    have := ops_all_insert (lcsDiff [] B) e1 e2
    rw [e3] at this
    exact this
  · obtain ⟨⟨e1, e2, e3⟩, _⟩ := lcsDiff_spec A []
    have := ops_all_delete (lcsDiff A []) e1 e3
    rw [e2] at this
    exact this

/-! ## The printed diff -/

theorem lcsDiff_single (x y : String) (h : x ≠ y) :
    lcsDiff [x] [y] = [{ t := '+', line := y }, { t := '-', line := x }] := by
  have ht : lcsTable [x] [y] = [[0, 0], [0, 0]] := by
    simp [lcsTable, List.range_succ, h, dpSet, dpGet]
  unfold lcsDiff
  rw [ht]
  simp [lcsWalk, h, dpGet]

/-- The header block of a printed diff (lines 350-355). -/
theorem printUnifiedDiffSimple_of_ne (file : String) (A B : List String) (h : A ≠ B) :
    printUnifiedDiffSimple file A B =
      "diff --simple-vcs a/" ++ file ++ " b/" ++ file ++ "\n" ++
      "--- a/" ++ file ++ "\n" ++
      "+++ b/" ++ file ++ "\n" ++
      "@@ -1," ++ Nat.repr A.length ++ " +1," ++ Nat.repr B.length ++ " @@\n" ++
      String.join (((lcsDiff A B).filter (fun op => op.t ≠ ' ')).map (fun op =>
        String.singleton op.t ++ op.line ++ "\n")) := by
  unfold printUnifiedDiffSimple
  rw [if_neg h]
  congr 1
  apply String.ext
  simp only [String.data_join, List.map_map]
  induction lcsDiff A B with
  | nil => rfl
  | cons op ops ih =>
    by_cases hop : op.t = ' '
    · rw [List.filter_cons_of_neg (by simpa using hop)]
      simp only [List.map_cons, List.flatten_cons, Function.comp, hop, if_true]
      simpa [Function.comp] using ih
    · rw [List.filter_cons_of_pos (by simpa using hop)]
      simp only [List.map_cons, List.flatten_cons, Function.comp, hop, if_false]
      rw [ih]

/-- C17 (amended): when the committed content of a file is the single line `x` and its working
content the single different line `y`, the diff printed for the file is the header, the hunk
line `@@ -1,1 +1,1 @@`, then the insertion line `+y` followed by the deletion line `-x`. -/
theorem printUnifiedDiffSimple_single_line (file x y : String) (hxy : x ≠ y) :
    printUnifiedDiffSimple file [x] [y] =
      "diff --simple-vcs a/" ++ file ++ " b/" ++ file ++ "\n" ++
      "--- a/" ++ file ++ "\n" ++
      "+++ b/" ++ file ++ "\n" ++
      "@@ -1,1 +1,1 @@\n" ++
      ("+" ++ y ++ "\n") ++ ("-" ++ x ++ "\n") := by
  rw [printUnifiedDiffSimple_of_ne file [x] [y] (by simpa using hxy), lcsDiff_single x y hxy]
  apply String.ext
  simp [String.data_join, String.data_append, String.singleton, List.filter]
  rfl

/-- Witness for C17 (amended): the lines `hello` and `hello world` of the file `a.txt`. -/
theorem printUnifiedDiffSimple_single_line_witness :
    printUnifiedDiffSimple "a.txt" ["hello"] ["hello world"] =
      "diff --simple-vcs a/" ++ "a.txt" ++ " b/" ++ "a.txt" ++ "\n" ++
      "--- a/" ++ "a.txt" ++ "\n" ++
      "+++ b/" ++ "a.txt" ++ "\n" ++
      "@@ -1,1 +1,1 @@\n" ++
      ("+" ++ "hello world" ++ "\n") ++ ("-" ++ "hello" ++ "\n") :=
  printUnifiedDiffSimple_single_line "a.txt" "hello" "hello world" (by decide)

/-- Counterexample for C17 as stated: with `a.txt` committed as the line `hello` and changed to
the line `hello world` in the working tree, `diff` prints, after the header and the hunk line,
`+hello world` followed by `-hello`, not `-hello` followed by `+hello world`. -/
theorem cmd_diff_insertion_first :
    loadTreeFromCommit editedRepo (currentCommitFromHEAD editedRepo)
      = some [("a.txt", "aaf4c61ddcc5e8a2dabede0f3b482cd9aea9434d")] ∧
    loadFileLinesFromBlob editedRepo "aaf4c61ddcc5e8a2dabede0f3b482cd9aea9434d" = ["hello"] ∧
    loadFileLinesFromWork editedRepo "a.txt" = ["hello world"] ∧
    cmd_diff editedRepo [] =
      ("diff --simple-vcs a/a.txt b/a.txt\n--- a/a.txt\n+++ b/a.txt\n@@ -1,1 +1,1 @@\n" ++
        "+hello world\n-hello\n", 0) ∧
    (cmd_diff editedRepo []).1 ≠
      "diff --simple-vcs a/a.txt b/a.txt\n--- a/a.txt\n+++ b/a.txt\n@@ -1,1 +1,1 @@\n" ++
        "-hello\n+hello world\n" := by
  unfold editedRepo
  rw [firstRepo_eq]
  decide

theorem join_empty (l : List String) (f : String → String) (h : ∀ x ∈ l, f x = "") :
    String.join (l.map f) = "" := by
  apply String.ext
  rw [String.data_join, List.map_map]
  induction l with
  | nil => rfl
  | cons a l ih =>
    simp only [List.map_cons, List.flatten_cons, Function.comp]
    rw [h a (List.mem_cons_self _ _), ih (fun x hx => h x (List.mem_cons_of_mem _ hx))]
    rfl

theorem loadTreeFromCommit_wf (s : FS) (c : String) (m : TreeMap)
    (h : loadTreeFromCommit s c = some m) : ∀ e ∈ m, e.2 ≠ "" := by
  unfold loadTreeFromCommit at h
  cases hc : readCommitObject s c with
  | none => rw [hc] at h; exact Option.noConfusion h
  | some f =>
    rw [hc] at h
    simp only [readTreeObject] at h
    cases hx : readAllBytes s (objectPath f.tree) with
    | none => rw [hx] at h; exact Option.noConfusion h
    | some txt =>
      rw [hx] at h
      exact fun e he => ((readTreeText_wf txt m h).2 e he).2

/-- A file that both sides take from the same decoded tree is printed as no line. -/
theorem diffFile_same (s : FS) (m : TreeMap) (hm : ∀ e ∈ m, e.2 ≠ "") (file : String) :
    diffFile s m m file = "" := by
  unfold diffFile
  cases hf : TreeMap.find m file with
  | none => simp [printUnifiedDiffSimple]
  | some h =>
    have hne : h ≠ "" := hm _ (mem_of_find m file h hf)
    simp [printUnifiedDiffSimple, hne]

/-- C18: `printUnifiedDiffSimple` writes nothing exactly when the two line sequences are equal;
for different sequences it writes the header block followed by the lines of the insertions and
deletions of `lcsDiff`, of which there is at least one; and `diff` of a commit or branch
against itself writes nothing. -/
theorem printUnifiedDiffSimple_silent_iff (file : String) (A B : List String) :
    (printUnifiedDiffSimple file A B = "" ↔ A = B) ∧
    (A ≠ B →
      (lcsDiff A B).filter (fun op => op.t ≠ ' ') ≠ [] ∧
      (∀ op ∈ (lcsDiff A B).filter (fun op => op.t ≠ ' '), op.t = '+' ∨ op.t = '-') ∧
      printUnifiedDiffSimple file A B =
        "diff --simple-vcs a/" ++ file ++ " b/" ++ file ++ "\n" ++
        "--- a/" ++ file ++ "\n" ++
        "+++ b/" ++ file ++ "\n" ++
        "@@ -1," ++ Nat.repr A.length ++ " +1," ++ Nat.repr B.length ++ " @@\n" ++
        String.join (((lcsDiff A B).filter (fun op => op.t ≠ ' ')).map (fun op =>
          String.singleton op.t ++ op.line ++ "\n"))) ∧
    (∀ (s : FS) (x : String) (rest : List String), (cmd_diff s (x :: x :: rest)).1 = "") := by
  obtain ⟨⟨h1, h2, h3⟩, _⟩ := lcsDiff_spec A B
  refine ⟨⟨fun h => ?_, fun h => by simp [printUnifiedDiffSimple, h]⟩, fun hne => ⟨?_, ?_, ?_⟩,
    fun s x rest => ?_⟩
  · by_contra hne
    rw [printUnifiedDiffSimple_of_ne file A B hne] at h
    have h20 : "diff --simple-vcs a/".length = 20 := by decide
    have := congrArg String.length h
    simp only [String.length_append, h20] at this
    have h0 : "".length = 0 := rfl
    omega
  · intro hnil
    apply hne
    have hall : ∀ op ∈ lcsDiff A B, op.t = ' ' := by
      intro op hop
      by_contra hc
      have : op ∈ (lcsDiff A B).filter (fun op => op.t ≠ ' ') :=
        List.mem_filter.2 ⟨hop, by simpa using hc⟩
      rw [hnil] at this
      exact absurd this (List.not_mem_nil _)
    have : oldLines (lcsDiff A B) = newLines (lcsDiff A B) := by
      unfold oldLines newLines
      congr 1
      apply List.filter_congr
      intro op hop
      simp [hall op hop]
    exact h2.symm.trans (this.trans h3)
  · intro op hop
    obtain ⟨hm, ht⟩ := List.mem_filter.1 hop
    rcases h1 op hm with e | e | e
    · simp [e] at ht
    · exact Or.inl e
    · exact Or.inr e
  · exact printUnifiedDiffSimple_of_ne file A B hne
  · unfold cmd_diff
    by_cases hr : isRepo s = true
    · simp only [hr, Bool.not_true, Bool.false_eq_true, if_false]
      split
      · rfl
      · split
        · rfl
        · rename_i treeA hA
          have hlen : decide ((x :: x :: rest).length < 2) = false := by simp
          simp only [hlen, Bool.false_eq_true, if_false]
          split
          · rfl
          · rename_i treeB hB
            rw [hA] at hB
            have : treeA = treeB := Option.some.inj hB
            subst this
            show String.join _ = ""
            apply join_empty
            intro f _
            exact diffFile_same s treeA (loadTreeFromCommit_wf s _ treeA hA) f
    · simp [hr]

/-! ## The padding of the digest function -/

theorem lengthTrailer_eq (x : Nat) : lengthTrailer x = bigEndian64 x := by
  have h255 : (0xFF : Nat) = 2 ^ 8 - 1 := by norm_num
  simp only [lengthTrailer, bigEndian64, List.map, h255, Nat.and_pow_two_sub_one_eq_mod,
    Nat.shiftRight_eq_div_pow]
  norm_num

/-- C20: for every input of `n` bytes with `8 * n < 2 ^ 64`, the padded buffer of `sha1` is the
input, the byte `0x80`, the least number `k` of zero bytes that brings the length to 56 modulo
64, and the 8-byte big-endian encoding of `8 * n`; its length is the least multiple of 64 that
is at least `n + 9`; the padding loop has left its condition within 64 iterations, whatever
larger bound it is given; and every 64-byte block that the compression loop reads lies inside the
buffer. -/
theorem sha1Pad_layout (data : List Nat) (hn : 8 * data.length < 2 ^ 64) :
    ∃ k, sha1Pad data = data ++ [0x80] ++ List.replicate k 0 ++ bigEndian64 (8 * data.length) ∧
      (data.length + 1 + k) % 64 = 56 ∧
      (∀ k', (data.length + 1 + k') % 64 = 56 → k ≤ k') ∧
      (sha1Pad data).length % 64 = 0 ∧ data.length + 9 ≤ (sha1Pad data).length ∧
      (∀ L, L % 64 = 0 → data.length + 9 ≤ L → (sha1Pad data).length ≤ L) ∧
      (∀ fuel, 64 ≤ fuel →
        padZeros fuel (data ++ [0x80]) = data ++ [0x80] ++ List.replicate k 0) ∧
      ((data ++ [0x80] ++ List.replicate k 0).length * 8 % 2 ^ 64) % 512 = 448 ∧
      (∀ chunk ∈ (List.range (((sha1Pad data).length + 63) / 64)).map (· * 64),
        chunk + 64 ≤ (sha1Pad data).length) := by
  have hlen1 : (data ++ [0x80]).length = data.length + 1 := by simp
  have hpad : ∀ fuel, 64 ≤ fuel → padZeros fuel (data ++ [0x80])
      = data ++ [0x80] ++ List.replicate ((56 + 64 - (data.length + 1) % 64) % 64) 0 := by
    intro fuel hf
    have := padZeros_eq fuel (data ++ [0x80]) (by rw [hlen1]; omega)
    rw [hlen1] at this
    exact this
  have hbits : data.length * 8 % 2 ^ 64 = 8 * data.length := by
    rw [Nat.mul_comm]
    exact Nat.mod_eq_of_lt hn
  have hform : sha1Pad data = data ++ [0x80]
      ++ List.replicate ((56 + 64 - (data.length + 1) % 64) % 64) 0
      ++ bigEndian64 (8 * data.length) := by
    show padZeros 64 (data ++ [0x80]) ++ lengthTrailer (data.length * 8 % 2 ^ 64) = _
    rw [hpad 64 (Nat.le_refl _), lengthTrailer_eq, hbits]
  have hL : (sha1Pad data).length
      = data.length + 1 + (56 + 64 - (data.length + 1) % 64) % 64 + 8 := by
    rw [hform]
    simp only [bigEndian64, List.length_append, List.length_replicate, List.length_cons,
      List.length_nil]
  refine ⟨(56 + 64 - (data.length + 1) % 64) % 64, hform, by omega, fun k' hk' => by omega,
    by omega, by omega, fun L h1 h2 => by omega, hpad, ?_, ?_⟩
  · have hl : (data ++ [0x80]
        ++ List.replicate ((56 + 64 - (data.length + 1) % 64) % 64) 0).length
        = data.length + 1 + (56 + 64 - (data.length + 1) % 64) % 64 := by
      simp only [List.length_append, List.length_replicate, List.length_cons, List.length_nil]
    rw [hl, Nat.mod_mod_of_dvd _ (by norm_num : 512 ∣ 2 ^ 64)]
    omega
  · intro chunk hc
    obtain ⟨q, hq, rfl⟩ := List.mem_map.1 hc
    rw [List.mem_range] at hq
    show q * 64 + 64 ≤ _
    omega

/-- Witness for C20: the three bytes of `abc`. -/
theorem sha1Pad_layout_witness :
    ∃ k, sha1Pad [97, 98, 99]
        = [97, 98, 99] ++ [0x80] ++ List.replicate k 0 ++ bigEndian64 (8 * [97, 98, 99].length) ∧
      ([97, 98, 99].length + 1 + k) % 64 = 56 ∧
      (∀ k', ([97, 98, 99].length + 1 + k') % 64 = 56 → k ≤ k') ∧
      (sha1Pad [97, 98, 99]).length % 64 = 0 ∧
      [97, 98, 99].length + 9 ≤ (sha1Pad [97, 98, 99]).length ∧
      (∀ L, L % 64 = 0 → [97, 98, 99].length + 9 ≤ L → (sha1Pad [97, 98, 99]).length ≤ L) ∧
      (∀ fuel, 64 ≤ fuel →
        padZeros fuel ([97, 98, 99] ++ [0x80]) = [97, 98, 99] ++ [0x80] ++ List.replicate k 0) ∧
      (([97, 98, 99] ++ [0x80] ++ List.replicate k 0).length * 8 % 2 ^ 64) % 512 = 448 ∧
      (∀ chunk ∈ (List.range (((sha1Pad [97, 98, 99]).length + 63) / 64)).map (· * 64),
        chunk + 64 ≤ (sha1Pad [97, 98, 99]).length) :=
  sha1Pad_layout [97, 98, 99] (by decide)

/-! ## Splitting into lines -/

/-- Function `getline` that does not fail consumes at least one character. -/
theorem getline_progress (s : IStream) (old : String) (h : (s.getline old).1.fail = false) :
    (s.getline old).1.rest.length < s.rest.length := by
  unfold IStream.getline at h ⊢
  by_cases hg : s.good = true
  · simp only [hg, if_true] at h ⊢
    cases hd : s.rest.dropWhile (fun x => x != '\n') with
    | nil =>
      simp only [hd] at h ⊢
      cases hr : s.rest with
      | nil => rw [hr] at h; exact Bool.noConfusion h
      | cons a t => simp
    | cons c r =>
      simp only [hd]
      have hle := length_dropWhile_le (fun x => x != '\n') s.rest
      rw [hd] at hle
      simp only [List.length_cons] at hle
      omega
  · simp only [hg] at h
    simp at h

/-- The loop of `splitLines` returns once the fuel exceeds the length of the unread text. -/
theorem splitLoop_total : ∀ (fuel : Nat) (iss : IStream) (line : String) (lines : List String),
    iss.rest.length < fuel → ∃ l, splitLoop fuel iss line lines = some l := by
  intro fuel
  induction fuel with
  | zero => intro iss _ _ h; omega
  | succ fuel ih =>
    intro iss line lines h
    rw [splitLoop]
    by_cases hf : (iss.getline line).1.fail = true
    · exact ⟨lines, by simp [hf]⟩
    · have hf' : (iss.getline line).1.fail = false := by simpa using hf
      simp only [hf', Bool.false_eq_true, if_false]
      have := getline_progress iss line hf'
      exact ih _ _ _ (by omega)

theorem splitLines_total (bytes : String) :
    splitLoop (bytes.length + 1) (IStream.ofString bytes) "" [] = some (splitLines bytes) := by
  obtain ⟨l, hl⟩ := splitLoop_total (bytes.length + 1) (IStream.ofString bytes) "" []
    (Nat.lt_succ_self _)
  simp [splitLines, hl]

/-! ## One final newline -/

end FinProject
